import Mathlib

/-!
# soft-serve: hook installation, hook dispatch, the delete command and the views

A shallow embedding of

* `server/hooks/hooks.go`: `GenerateHooks`, the dispatcher script `hookTemplate`
  and the generated entry `hooksTmpl`;
* `server/cmd/delete.go`: `deleteCommand`;
* `ui/pages/selection/selection.go`: `Selection.Init` and `repoUrl`;
* `tui/refs/bubble.go`: `Bubble.updateItems`;
* `ui/pages/repo/repo.go`: `Repo.Update` and the commands it schedules.

The file system is a finite-map style state, the shell scripts are embedded as the
functions they compute on their inputs (directory listing, arguments, standard
input, environment).
-/

namespace SoftServe

/-! ## Errors -/

/-- Go `error` values that occur in the embedded code. -/
inductive Error where
  /-- a path element does not exist -/
  | ENOENT
  /-- a path element that must be a directory is not one -/
  | ENOTDIR
  /-- a file was expected where a directory is -/
  | EISDIR
  /-- any other failure reported by the operating system (permission, space, ...) -/
  | io (msg : String)
  /-- result of `fmt.Errorf("<msg>: %w", inner)` -/
  | wrapped (msg : String) (inner : Error)
  /-- an error described by a message only -/
  | msg (text : String)
  /-- an error of the flag parser about the command line argument `arg` (unknown
  flag, bad syntax, invalid value) -/
  | flag (arg : String)
  deriving DecidableEq, Repr

/-! ## Paths (`path/filepath`) -/

namespace filepath

/-- Cuts a character sequence at every separator `/`. -/
def splitChars : List Char → List (List Char)
  | [] => [[]]
  | c :: cs =>
    if c = '/' then [] :: splitChars cs
    else
      match splitChars cs with
      | [] => [[c]]
      | h :: t => (c :: h) :: t

/-- The elements of a slash separated path string, empty ones included. -/
def split (s : String) : List String :=
  (splitChars s.data).map String.mk

/-- One step of lexical cleaning (`filepath.Clean`): an empty element and `.` are
dropped, `..` removes the element before it (at the root it is dropped, at the
start of a relative path it is kept), any other element is appended. -/
def push (rooted : Bool) (acc : List String) (e : String) : List String :=
  if e = "" ∨ e = "." then acc
  else if e = ".." then
    if acc = [] then (if rooted then [] else [".."])
    else if acc.getLast? = some ".." then acc ++ [".."]
    else acc.dropLast
  else acc ++ [e]

/-- A path in cleaned form: whether it starts at the root, and its elements. -/
structure CleanPath where
  rooted : Bool
  elems : List String
  deriving DecidableEq, Repr

/-- Result of `filepath.Clean(s)`, kept in parsed form. -/
def Clean (s : String) : CleanPath :=
  let rooted := decide (s.data.head? = some '/')
  ⟨rooted, (split s).foldl (push rooted) []⟩

/-- Result of `filepath.Join(p, e)` for an already cleaned `p`. -/
def CleanPath.join (p : CleanPath) (e : String) : CleanPath :=
  ⟨p.rooted, (split e).foldl (push p.rooted) p.elems⟩

/-- Go `filepath.Join(elems...)`: empty elements are ignored, the rest is joined with
`/` and cleaned.  (Go returns the empty string when every element is empty; here
that case yields the cleaned form of the empty path.) -/
def Join (elems : List String) : CleanPath :=
  match elems.filter (fun e => e ≠ "") with
  | [] => ⟨false, []⟩
  | e :: es => es.foldl CleanPath.join (Clean e)

/-- The path string a cleaned path stands for. -/
def CleanPath.toString (p : CleanPath) : String :=
  match p.elems with
  | [] => if p.rooted then "/" else "."
  | es => (if p.rooted then "/" else "") ++ "/".intercalate es

/-- String concatenation `p + s` on a cleaned path, for a suffix without separator:
it extends the last element.  (Used on paths that end in an ordinary name.) -/
def CleanPath.addSuffix (p : CleanPath) (s : String) : CleanPath :=
  ⟨p.rooted, p.elems.dropLast ++ [(p.elems.getLast?.getD "") ++ s]⟩

end filepath

open filepath (CleanPath)

/-! ## File system -/

/-- Absolute path of a file system object: its elements below the root. -/
abbrev Path := List String

/-- A file system object with its permission bits. -/
inductive Node where
  | file (content : String) (perm : Nat)
  | dir (perm : Nat)
  deriving DecidableEq, Repr

/-- A file system state: the object at each absolute path, if any.  The root `[]`
is a directory in every state. -/
abbrev FS := Path → Option Node

/-- The state without any object below the root. -/
def FS.empty : FS := fun _ => none

/-- The state with the object at `p` replaced. -/
def FS.set (fs : FS) (p : Path) (n : Node) : FS :=
  fun q => if q = p then some n else fs q

/-- Whether `p` is a directory. -/
def FS.isDir (fs : FS) (p : Path) : Bool :=
  match p, fs p with
  | [], _ => true
  | _, some (.dir _) => true
  | _, _ => false

/-- Go `os.ModePerm`, the permission bits `0o777`. -/
def ModePerm : Nat := 0o777

/-- Whether permission bits allow the owner to execute the file (bit `0o100`); the
server that installs the hooks also runs them. -/
def executable (perm : Nat) : Bool := perm.testBit 6

/-- The permission bits the system stores for an object created with `perm` by a
process with the file mode creation mask `umask`: Go `perm &^ umask`. -/
def withUmask (umask perm : Nat) : Nat := perm ^^^ (perm &&& umask)

/-- Core of `os.MkdirAll`: walks down from `base`, keeps directories that exist,
creates the missing ones with `perm` less the bits of `umask`, fails on a
non-directory. -/
def mkdirFrom (umask perm : Nat) : FS → Path → List String → Except Error FS
  | fs, _, [] => .ok fs
  | fs, base, c :: cs =>
    match fs (base ++ [c]) with
    | some (.dir _) => mkdirFrom umask perm fs (base ++ [c]) cs
    | some (.file _ _) => .error .ENOTDIR
    | none =>
      mkdirFrom umask perm (fs.set (base ++ [c]) (.dir (withUmask umask perm))) (base ++ [c]) cs

/-- Core of `os.WriteFile(p, data, perm)`: the parent must be a directory; an
existing file is truncated and keeps its permissions, a missing one is created
with `perm` less the bits of `umask`; a directory cannot be written. -/
def writeCore (umask : Nat) (fs : FS) (p : Path) (data : String) (perm : Nat) :
    Except Error FS :=
  if p = [] then .error .EISDIR
  else if fs.isDir p.dropLast = false then
    (if fs p.dropLast = none then .error .ENOENT else .error .ENOTDIR)
  else
    match fs p with
    | some (.dir _) => .error .EISDIR
    | some (.file _ m) => .ok (fs.set p (.file data m))
    | none => .ok (fs.set p (.file data (withUmask umask perm)))

/-- The two file system operations `GenerateHooks` performs. -/
inductive OpKind where
  | mkdirAll
  | writeFile
  deriving DecidableEq, Repr

/-- Record of one performed operation: kind, absolute path, and its error if it
failed. -/
structure OpRecord where
  kind : OpKind
  path : Path
  err : Option Error
  deriving DecidableEq, Repr

/-- The process environment of the server. -/
structure Host where
  /-- result of `os.Executable()` -/
  Executable : Except Error String
  /-- the error of `os.Getwd()`, if it fails -/
  getwdErr : Option Error
  /-- elements of the working directory, against which relative paths resolve -/
  cwd : Path
  /-- the file mode creation mask of the process -/
  umask : Nat
  /-- the function `utils.SanitizeRepo` -/
  SanitizeRepo : String → String
  /-- failures caused from outside (permissions, space, ...): `faults k` is the
  error of the operation performed after `k` earlier ones, if it is to fail -/
  faults : Nat → Option Error

/-- The state threaded through `GenerateHooks`. -/
structure World where
  fs : FS
  /-- the operations performed so far, oldest first -/
  trace : List OpRecord
  /-- the errors passed to the logger, oldest first -/
  logged : List (String × Error)

/-- Go `os.Getwd()`: the rooted name of the working directory. -/
def Host.Getwd (h : Host) : Except Error String :=
  match h.getwdErr with
  | some e => .error e
  | none => .ok (CleanPath.toString ⟨true, h.cwd⟩)

/-- The absolute path a cleaned path names in the process. -/
def Host.resolve (h : Host) (p : CleanPath) : Path :=
  if p.rooted then p.elems else p.elems.foldl (filepath.push true) h.cwd

/-- Adds a record to the trace. -/
def World.record (w : World) (k : OpKind) (p : Path) (e : Option Error) : World :=
  { w with trace := w.trace ++ [⟨k, p, e⟩] }

/-- Go `os.MkdirAll(p, perm)`; a failed call leaves the state as it was. -/
def MkdirAll (h : Host) (w : World) (p : CleanPath) (perm : Nat) : World × Option Error :=
  match h.faults w.trace.length with
  | some e => (w.record .mkdirAll (h.resolve p) (some e), some e)
  | none =>
    match mkdirFrom h.umask perm w.fs [] (h.resolve p) with
    | .error e => (w.record .mkdirAll (h.resolve p) (some e), some e)
    | .ok fs => ({ w with fs := fs }.record .mkdirAll (h.resolve p) none, none)

/-- Go `os.WriteFile(p, data, perm)`; a failed call leaves the state as it was. -/
def WriteFile (h : Host) (w : World) (p : CleanPath) (data : String) (perm : Nat) :
    World × Option Error :=
  match h.faults w.trace.length with
  | some e => (w.record .writeFile (h.resolve p) (some e), some e)
  | none =>
    match writeCore h.umask w.fs (h.resolve p) data perm with
    | .error e => (w.record .writeFile (h.resolve p) (some e), some e)
    | .ok fs => ({ w with fs := fs }.record .writeFile (h.resolve p) none, none)

/-- Go `filepath.Abs(path)`. -/
def filepath.Abs (h : Host) (path : String) : Except Error CleanPath :=
  if path.data.head? = some '/' then .ok (filepath.Clean path)
  else
    match h.Getwd with
    | .error e => .error e
    | .ok wd => .ok (filepath.Join [wd, path])

/-- Go `log.WithPrefix("backend.hooks").Error(msg, "err", err)`. -/
def World.logError (w : World) (msg : String) (e : Error) : World :=
  { w with logged := w.logged ++ [(msg, e)] }

/-! ## `server/hooks/hooks.go` -/

/-- The part of `config.Config` that `GenerateHooks` reads. -/
structure Config where
  DataPath : String

def PreReceiveHook : String := "pre-receive"
def UpdateHook : String := "update"
def PostReceiveHook : String := "post-receive"
def PostUpdateHook : String := "post-update"

/-- The text of the dispatcher script. -/
def hookTemplate : String :=
  "#!/usr/bin/env bash\n" ++
  "# AUTO GENERATED BY SOFT SERVE, DO NOT MODIFY\n" ++
  "data=$(cat)\n" ++
  "exitcodes=\"\"\n" ++
  "hookname=$(basename $0)\n" ++
  "GIT_DIR=$\x7bGIT_DIR:-$(dirname $0)/..\x7d\n" ++
  "for hook in $\x7bGIT_DIR\x7d/hooks/$\x7bhookname\x7d.d/*; do\n" ++
  "  # Avoid running non-executable hooks\n" ++
  "  test -x \"$\x7bhook\x7d\" && test -f \"$\x7bhook\x7d\" || continue\n" ++
  "\n" ++
  "  # Run the actual hook\n" ++
  "  echo \"$\x7bdata\x7d\" | \"$\x7bhook\x7d\" \"$@\"\n" ++
  "\n" ++
  "  # Store the exit code for later use\n" ++
  "  exitcodes=\"$\x7bexitcodes\x7d $?\"\n" ++
  "done\n" ++
  "\n" ++
  "# Exit on the first non-zero exit code.\n" ++
  "for i in $\x7bexitcodes\x7d; do\n" ++
  "  [ $\x7bi\x7d -eq 0 ] || exit $\x7bi\x7d\n" ++
  "done\n"

/-- The data the entry template is executed with. -/
structure HookData where
  Executable : String
  Config : String
  Envs : List String
  Hook : String
  Args : String

/-- The fixed first lines of the entry template `hooksTmpl`. -/
def hooksTmpl.header : String :=
  "#!/usr/bin/env bash\n" ++
  "# AUTO GENERATED BY SOFT SERVE, DO NOT MODIFY\n" ++
  "if [ -z \"$SOFT_SERVE_REPO_NAME\" ]; then\n" ++
  "\techo \"Warning: SOFT_SERVE_REPO_NAME not defined. Skipping hooks.\"\n" ++
  "\texit 0\n" ++
  "fi\n"

/-- The command line that ends the entry. -/
def hooksTmpl.commandLine (d : HookData) : String :=
  d.Executable ++ " hook --config \"" ++ d.Config ++ "\" " ++ d.Hook ++ " " ++ d.Args

/-- Result of `hooksTmpl.Execute(&data, d)`: the header, one continued line per
element of `Envs`, and the command line.  Writing to a `bytes.Buffer` does not
fail and every field the template names exists, so there is no error. -/
def hooksTmpl.Execute (d : HookData) : Except Error String :=
  .ok (hooksTmpl.header ++
    String.join (d.Envs.map fun env => "\n" ++ env ++ " \\") ++
    "\n" ++ hooksTmpl.commandLine d ++ "\n")

/-- The hook types, in the order of the loop. -/
def hookNames : List String :=
  [PreReceiveHook, UpdateHook, PostReceiveHook, PostUpdateHook]

/-- The `switch hook` of the loop body. -/
def hookArgs (hook : String) : String :=
  if hook = UpdateHook then "$1 $2 $3"
  else if hook = PostUpdateHook then "$@"
  else ""

/-- The body of the loop over the hook types.  The second component is the error
with which `GenerateHooks` returns from inside the loop; `none` means the loop
goes on (also after a `continue`). -/
def hookBody (h : Host) (hooksPath : CleanPath) (ex cp : String) (envs : List String)
    (w : World) (hook : String) : World × Option Error :=
  -- Hooks script/directory path
  let hp := hooksPath.join hook
  -- Write the hooks primary script
  match WriteFile h w hp hookTemplate ModePerm with
  | (w, some err) => (w, some err)
  | (w, none) =>
    -- Create the hook.d directory
    let hp := hp.addSuffix ".d"
    match MkdirAll h w hp ModePerm with
    | (w, some err) => (w, some err)
    | (w, none) =>
      let args := hookArgs hook
      match hooksTmpl.Execute ⟨ex, cp, envs, hook, args⟩ with
      | .error err => (w.logError "failed to execute hook template" err, none)
      | .ok data =>
        -- Write the soft-serve hook inside the hook.d directory
        let hp := hp.join "soft-serve"
        match WriteFile h w hp data ModePerm with
        | (w, some err) => (w.logError "failed to write hook" err, none)
        | (w, none) => (w, none)

/-- The loop over the hook types. -/
def hookLoop (h : Host) (hooksPath : CleanPath) (ex cp : String) (envs : List String) :
    World → List String → World × Option Error
  | w, [] => (w, none)
  | w, hook :: rest =>
    match hookBody h hooksPath ex cp envs w hook with
    | (w, some err) => (w, some err)
    | (w, none) => hookLoop h hooksPath ex cp envs w rest

/-- The hooks directory of a repository. -/
def hooksPathOf (h : Host) (cfg : Config) (repo : String) : CleanPath :=
  filepath.Join [cfg.DataPath, "repos", h.SanitizeRepo repo ++ ".git", "hooks"]

/-- Go `GenerateHooks(ctx, cfg, repo)`, run in the state `w`. -/
def GenerateHooksFrom (h : Host) (cfg : Config) (repo : String) (w : World) :
    World × Option Error :=
  let repo := h.SanitizeRepo repo ++ ".git"
  let hooksPath := filepath.Join [cfg.DataPath, "repos", repo, "hooks"]
  match MkdirAll h w hooksPath ModePerm with
  | (w, some err) => (w, some err)
  | (w, none) =>
    match h.Executable with
    | .error err => (w, some err)
    | .ok ex =>
      match filepath.Abs h cfg.DataPath with
      | .error err => (w, some (.wrapped "failed to get absolute path for data path" err))
      | .ok dp =>
        let cp := (dp.join "config.yaml").toString
        -- Add extra environment variables to the hooks here.
        let envs : List String := []
        hookLoop h hooksPath ex cp envs w hookNames

/-- Go `GenerateHooks(ctx, cfg, repo)` on the file system `fs`: the final state, the
operations performed, the errors logged, and the returned error. -/
def GenerateHooks (h : Host) (cfg : Config) (repo : String) (fs : FS) : World × Option Error :=
  GenerateHooksFrom h cfg repo ⟨fs, [], []⟩

/-! ## What the operations leave behind when they succeed -/

/-- The state after a successful `os.MkdirAll(p, perm)`: every non-root path down to
`p` holds what it held, or a new directory if it held nothing. -/
def mkdirFill (perm : Nat) (fs : FS) (p : Path) : FS :=
  fun q =>
    if q ≠ [] ∧ q <+: p then
      match fs q with
      | some n => some n
      | none => some (.dir perm)
    else fs q

/-- The state after a successful `os.WriteFile(p, data, perm)`. -/
def writeFill (fs : FS) (p : Path) (data : String) (perm : Nat) : FS :=
  fs.set p (.file data (match fs p with
    | some (.file _ m) => m
    | _ => perm))

/-- The text of the `soft-serve` entry of a hook type. -/
def entryText (ex cp : String) (hook : String) : String :=
  hooksTmpl.header ++ "\n" ++ hooksTmpl.commandLine ⟨ex, cp, [], hook, hookArgs hook⟩ ++ "\n"

/-- The state after one round of the loop in which the dispatcher and the drop-in
directory were written, new objects getting the permission bits `m`; the flag
`hb.2` tells whether the entry was written too. -/
def bodyFS (m : Nat) (H : Path) (ex cp : String) (fs : FS) (hb : String × Bool) : FS :=
  let fs1 := writeFill fs (H ++ [hb.1]) hookTemplate m
  let fs2 := mkdirFill m fs1 (H ++ [hb.1 ++ ".d"])
  if hb.2 then writeFill fs2 (H ++ [hb.1 ++ ".d", "soft-serve"]) (entryText ex cp hb.1) m
  else fs2

/-- The state after the rounds `hbs` of the loop. -/
def loopFS (m : Nat) (H : Path) (ex cp : String) (fs : FS) (hbs : List (String × Bool)) : FS :=
  hbs.foldl (bodyFS m H ex cp) fs

/-- What `GenerateHooks` puts at a path. -/
inductive Slot where
  | dirSlot
  | fileSlot (content : String)
  deriving DecidableEq, Repr

/-- The object at a path after installation, from the one before; new objects get the
permission bits `m`. -/
def fillSlot (m : Nat) : Option Slot → Option Node → Option Node
  | none, n => n
  | some .dirSlot, none => some (.dir m)
  | some .dirSlot, some n => some n
  | some (.fileSlot c), some (.file _ k) => some (.file c k)
  | some (.fileSlot c), _ => some (.file c m)

/-- The paths of the given hook types that `GenerateHooks` writes below the hooks
directory `H`, with what it puts there; the flag of a hook type tells whether its
`soft-serve` entry is written. -/
def slotIn (H : Path) (ex cp : String) (q : Path) : List (String × Bool) → Option Slot
  | [] => none
  | (hook, b) :: rest =>
    if q = H ++ [hook] then some (.fileSlot hookTemplate)
    else if q = H ++ [hook ++ ".d"] then some .dirSlot
    else if b = true ∧ q = H ++ [hook ++ ".d", "soft-serve"] then
      some (.fileSlot (entryText ex cp hook))
    else slotIn H ex cp q rest

/-- What an installation puts at `q`: directories down to the hooks directory `H`,
and the objects of each hook type. -/
def slotOf (H : Path) (ex cp : String) (bs : List (String × Bool)) (q : Path) : Option Slot :=
  if q ≠ [] ∧ q <+: H then some .dirSlot else slotIn H ex cp q bs

/-- The state an installation leaves in which the entries flagged in `bs` are
written, new objects getting the permission bits `m`. -/
def installedWith (m : Nat) (H : Path) (ex cp : String) (bs : List (String × Bool))
    (fs : FS) : FS :=
  fun q => fillSlot m (slotOf H ex cp bs q) (fs q)

/-- The state a complete installation leaves. -/
def installed (m : Nat) (H : Path) (ex cp : String) (fs : FS) : FS :=
  installedWith m H ex cp (hookNames.map fun k => (k, true)) fs

/-- The same process with other failures caused from outside. -/
def Host.withFaults (h : Host) (f : Nat → Option Error) : Host :=
  { h with faults := f }

/-- What a run of `GenerateHooks` in which every file system operation succeeds puts
at `q`: the complete installation when the executable and the absolute data path
are found, the directories down to the hooks directory alone when they are not. -/
def outcomeSlots (h : Host) (cfg : Config) (repo : String) (q : Path) : Option Slot :=
  match h.Executable, filepath.Abs h cfg.DataPath with
  | .ok ex, .ok dp =>
    slotOf (h.resolve (hooksPathOf h cfg repo)) ex (dp.join "config.yaml").toString
      (hookNames.map fun k => (k, true)) q
  | _, _ => slotOf (h.resolve (hooksPathOf h cfg repo)) "" "" [] q

/-- A server process: executable `/usr/local/bin/soft`, working directory `/srv`,
umask `022`, a sanitizer that leaves plain names as they are, no failures from
outside. -/
def demoHost : Host :=
  ⟨.ok "/usr/local/bin/soft", none, ["srv"], 0o022, fun s => s, fun _ => none⟩

/-- The same process with a umask that clears the execute bits of new files. -/
def maskedHost : Host := { demoHost with umask := 0o111 }

/-- A configuration with a data path relative to the working directory. -/
def relativeCfg : Config := ⟨"data"⟩

/-- A configuration with the data path `/data`. -/
def demoCfg : Config := ⟨"/data"⟩

/-- A state in which the place of the `pre-receive` entry of repository `demo` is
taken by a directory. -/
def blockedFS : FS :=
  fun q =>
    if q = ["data"] ∨ q = ["data", "repos"] ∨ q = ["data", "repos", "demo.git"] ∨
        q = ["data", "repos", "demo.git", "hooks"] ∨
        q = ["data", "repos", "demo.git", "hooks", "pre-receive.d"] ∨
        q = ["data", "repos", "demo.git", "hooks", "pre-receive.d", "soft-serve"] then
      some (.dir 0o755)
    else none

/-- An element that `filepath.Join` appends as it is. -/
def ordinary (e : String) : Prop :=
  filepath.split e = [e] ∧ e ≠ "" ∧ e ≠ "." ∧ e ≠ ".."

instance (e : String) : Decidable (ordinary e) := by unfold ordinary; infer_instance

/-- The state the first run on the empty file system leaves, cut back to the hook
types `pre-receive` and `update`: an installation interrupted after two of four. -/
def halfFS : FS :=
  fun q =>
    if ["data", "repos", "demo.git", "hooks", "post-receive"] <+: q ∨
        ["data", "repos", "demo.git", "hooks", "post-receive.d"] <+: q ∨
        ["data", "repos", "demo.git", "hooks", "post-update"] <+: q ∨
        ["data", "repos", "demo.git", "hooks", "post-update.d"] <+: q then
      FS.empty q
    else (GenerateHooks demoHost demoCfg "demo" FS.empty).1.fs q

/-! ## The dispatcher script `hookTemplate` -/

/-- A byte sequence; every element is below 256. -/
abbrev Bytes := List Nat

/-- An entry of a drop-in directory, as the dispatcher meets it. -/
structure Entry where
  name : String
  /-- result of `test -x` on the entry -/
  testX : Bool
  /-- result of `test -f` on the entry -/
  testF : Bool
  /-- the status the entry terminates with, from its arguments and standard input -/
  run : List String → Bytes → Nat

/-- Shell command substitution `$(...)` applied to the output of a command: bash drops
the NUL bytes and removes every trailing newline. -/
def commandSubst (out : Bytes) : Bytes :=
  ((out.filter fun b => b ≠ 0).reverse.dropWhile fun b => b = 10).reverse

/-- Whether bash's builtin `echo` takes its argument for options: a `-` followed by
one or more of the letters `n`, `e`, `E`. -/
def isEchoOption (a : Bytes) : Bool :=
  match a with
  | 45 :: c :: cs => (c :: cs).all fun x => x = 110 || x = 101 || x = 69
  | _ => false

/-- Output of `echo "$data"` (bash builtin, default shell options): the argument and
a newline, unless the argument is taken for options. -/
def echo (data : Bytes) : Bytes :=
  if isEchoOption data then (if data.contains 110 then [] else [10])
  else data ++ [10]

/-- The collating order of the locale the shell runs in (`LC_COLLATE`), by which it
sorts the names a pattern matches: a total preorder on names. -/
structure Collation where
  le : String → String → Bool
  total : ∀ a b, le a b = true ∨ le b a = true
  trans : ∀ a b c, le a b = true → le b c = true → le a c = true

/-- The collation of the C locale: the order of the character codes. -/
def cLocale : Collation where
  le a b := decide (a.data ≤ b.data)
  total a b := by
    rcases le_total a.data b.data with h | h
    · exact Or.inl (decide_eq_true h)
    · exact Or.inr (decide_eq_true h)
  trans a b c hab hbc := decide_eq_true (le_trans (of_decide_eq_true hab) (of_decide_eq_true hbc))

/-- A collation that ignores the case of letters, as the dictionary orders of many
locales do. -/
def dictLocale : Collation where
  le a b := decide (a.data.map Char.toLower ≤ b.data.map Char.toLower)
  total a b := by
    rcases le_total (a.data.map Char.toLower) (b.data.map Char.toLower) with h | h
    · exact Or.inl (decide_eq_true h)
    · exact Or.inr (decide_eq_true h)
  trans a b c hab hbc := decide_eq_true (le_trans (of_decide_eq_true hab) (of_decide_eq_true hbc))

/-- Expansion of the pattern `<dir>/*`: the entries whose name does not start with a
dot, sorted by name in the collating order `loc` of the shell's locale.  When nothing
matches the pattern stays as it is, names no file, and the loop body skips it; that
is the empty list here. -/
def globStar (loc : Collation) (dir : List Entry) : List Entry :=
  (dir.filter fun e => e.name.data.head? ≠ some '.').insertionSort
    fun a b => loc.le a.name b.name = true

/-- One run of an entry by the dispatcher. -/
structure Invocation where
  entry : Entry
  /-- the arguments passed to the entry -/
  args : List String
  /-- the bytes on the standard input of the entry -/
  stdin : Bytes
  /-- the value of `$?` after the run -/
  status : Nat

/-- The first loop of the script: an entry that fails `test -x` or `test -f` is
skipped; any other is run on `echo "$data"` with the arguments `"$@"`, and its exit
status is appended to `exitcodes`.  Returns the runs and `exitcodes`. -/
def firstLoop (data : Bytes) (args : List String) : List Entry → List Invocation × List Nat
  | [] => ([], [])
  | hook :: rest =>
    if hook.testX && hook.testF then
      let status := hook.run args (echo data) % 256
      (⟨hook, args, echo data, status⟩ :: (firstLoop data args rest).1,
        status :: (firstLoop data args rest).2)
    else firstLoop data args rest

/-- The second loop of the script: `exit i` at the first `i` that is not 0; when the
loop ends the script ends with status 0. -/
def secondLoop : List Nat → Nat
  | [] => 0
  | i :: rest => if i = 0 then secondLoop rest else i % 256

/-- What a run of the dispatcher does. -/
structure DispatchResult where
  invocations : List Invocation
  exitcodes : List Nat
  exit : Nat

/-- The dispatcher script run as `hooks/<hookname>` with arguments `args` and standard
input `stdin` by a shell with the collation `loc`, where `dropins hookname` is the
content of `hooks/<hookname>.d`.  (The path of the hooks directory is taken to be
free of blanks and pattern characters, which the unquoted expansion in the `for`
line needs.) -/
def dispatch (loc : Collation) (dropins : String → List Entry) (hookname : String)
    (args : List String) (stdin : Bytes) : DispatchResult :=
  let data := commandSubst stdin
  let r := firstLoop data args (globStar loc (dropins hookname))
  ⟨r.1, r.2, secondLoop r.2⟩

/-- An entry that rejects: exit status 1. -/
def denyEntry : Entry := ⟨"10-deny", true, true, fun _ _ => 1⟩

/-- An entry that accepts: exit status 0. -/
def auditEntry : Entry := ⟨"20-audit", true, true, fun _ _ => 0⟩

/-- An executable regular file whose name starts with a dot. -/
def hiddenEntry : Entry := ⟨".local", true, true, fun _ _ => 3⟩

/-- A hooks directory whose drop-in directories all hold `denyEntry` and
`auditEntry`. -/
def twoEntries : String → List Entry := fun _ => [auditEntry, denyEntry]

/-- A hooks directory whose drop-in directories hold `a-deny` (exit status 1) and
`B-audit` (exit status 3), names that the C locale and a dictionary order sort
differently. -/
def mixedCase : String → List Entry :=
  fun _ => [⟨"a-deny", true, true, fun _ _ => 1⟩, ⟨"B-audit", true, true, fun _ _ => 3⟩]

/-! ## The generated entry `hooksTmpl` -/

/-- What a run of a generated `soft-serve` entry does: what the script itself prints,
the command line it goes on to evaluate (if it does), and its exit status. -/
structure EntryRun where
  printed : String
  command : Option String
  exit : Nat

/-- The generated entry run by the shell in the environment `environ` with the
positional parameters `positional`; `evalCommand` gives the status of evaluating a
command line.  The `if` of the template: when `$SOFT_SERVE_REPO_NAME` expands to the
empty string (unset or empty) the script prints the warning and does `exit 0`;
otherwise it evaluates the last command, its lines joined, and ends with its
status. -/
def hooksTmpl.run (d : HookData) (environ : String → Option String) (positional : List String)
    (evalCommand : String → List String → Nat) : EntryRun :=
  if (environ "SOFT_SERVE_REPO_NAME").getD "" = "" then
    ⟨"Warning: SOFT_SERVE_REPO_NAME not defined. Skipping hooks.\n", none, 0⟩
  else
    let line := String.join (d.Envs.map fun env => env ++ " ") ++ hooksTmpl.commandLine d
    ⟨"", some line, evalCommand line positional % 256⟩

/-! ## What a run of `GenerateHooks` may change -/

/-- The state `fs1` differs from `fs` only by directories created where nothing was,
from the root down to the hooks directory `H`, and at the three paths of the hook
types `hs`. -/
def ChangedOnly (m : Nat) (H : Path) (hs : List String) (fs fs1 : FS) : Prop :=
  ∀ q, fs1 q = fs q ∨
    (q ≠ [] ∧ q <+: H ∧ fs q = none ∧ fs1 q = some (.dir m)) ∨
    (∃ hook ∈ hs, q = H ++ [hook] ∨ q = H ++ [hook ++ ".d"] ∨
      q = H ++ [hook ++ ".d", "soft-serve"])

/-! ## Formatting (`fmt`) -/

namespace fmt

/-- An operand of `fmt.Sprintf`: a string or an integer. -/
inductive Arg where
  | str (s : String)
  | int (n : Int)

/-- How `Sprintf` names an operand in its error notes. -/
def Arg.describe : Arg → String
  | .str s => "string=" ++ s
  | .int n => "int=" ++ toString n

/-- The text of one operand under a verb: `%s` prints a string, `%d` an integer in
decimal; an operand of the other type is reported the way Go reports it. -/
def verb (c : Char) : Arg → String
  | .str s => if c = 's' then s else "%!" ++ c.toString ++ "(" ++ Arg.describe (.str s) ++ ")"
  | .int n => if c = 'd' then toString n else "%!" ++ c.toString ++ "(" ++ Arg.describe (.int n) ++ ")"

/-- Go `fmt.Sprintf` on the characters of the format, for the verbs `%s`, `%d` and
`%%` without flags or width: other characters are copied, each verb takes the next
operand, a missing or left-over operand is reported the way Go reports it. -/
def sprintf : List Char → List Arg → String
  | [], [] => ""
  | [], a :: args => "%!(EXTRA " ++ ", ".intercalate ((a :: args).map Arg.describe) ++ ")"
  | ['%'], args => "%!(NOVERB)" ++ sprintf [] args
  | '%' :: '%' :: rest, args => "%" ++ sprintf rest args
  | '%' :: c :: rest, a :: args => verb c a ++ sprintf rest args
  | '%' :: c :: rest, [] => "%!" ++ c.toString ++ "(MISSING)" ++ sprintf rest []
  | c :: rest, args => c.toString ++ sprintf rest args

/-- Go `fmt.Sprintf(format, args...)`. -/
def Sprintf (format : String) (args : List Arg) : String :=
  sprintf format.data args

end fmt

/-! ## `server/cmd/delete.go` -/

namespace cobra

/-- The fields of `cobra.Command` that `deleteCommand` sets; `σ` is the state the
command acts on. -/
structure Command (σ : Type) where
  Use : String
  Aliases : List String
  Short : String
  Args : List String → Option Error
  PersistentPreRunE : Option (List String → σ → σ × Option Error)
  RunE : Option (List String → σ → σ × Option Error)

/-- The validator `cobra.ExactArgs(n)`. -/
def ExactArgs (n : Nat) (args : List String) : Option Error :=
  if args.length = n then none
  else some (.msg (fmt.Sprintf "accepts %d arg(s), received %d" [.int n, .int args.length]))

/-- Go `strconv.ParseBool`. -/
def parseBool (s : String) : Option Bool :=
  if s = "1" ∨ s = "t" ∨ s = "T" ∨ s = "TRUE" ∨ s = "true" ∨ s = "True" then some true
  else if s = "0" ∨ s = "f" ∨ s = "F" ∨ s = "FALSE" ∨ s = "false" ∨ s = "False" then
    some false
  else none

/-- The flag parser (`pflag`) on the letters of an argument `-<shorthands>`, for the
flag set of a command that defines no flags: its only flag is the boolean `help`
with the shorthand `h`, which cobra adds.  Returns the new value of the flag, or
nothing when the argument is rejected.  (Letters starting with `test.` are skipped
by the parser.) -/
def parseShortArg (help : Bool) : List Char → Option Bool
  | [] => some help
  | c :: rest =>
    if ['t', 'e', 's', 't', '.'] <+: c :: rest then some help
    else if c ≠ 'h' then none
    else
      match rest with
      | '=' :: v :: vs => parseBool (String.mk (v :: vs))
      | _ => parseShortArg true rest

/-- The flag parser on an argument `--<name>` or `--<name>=<value>`, for the same flag
set. -/
def parseLongArg (name : List Char) : Option Bool :=
  match name with
  | [] => none
  | '-' :: _ => none
  | '=' :: _ => none
  | _ =>
    if name.takeWhile (fun c => c ≠ '=') ≠ ['h', 'e', 'l', 'p'] then none
    else
      match name.dropWhile (fun c => c ≠ '=') with
      | [] => some true
      | _ :: value => parseBool (String.mk value)

/-- The flag parser on a command line (`FlagSet.parseArgs`, flags and arguments
interspersed): the value of the `help` flag and the arguments that are not flags;
`--` ends the flags; the first argument the parser rejects is its error. -/
def parseArgs : List String → Bool → List String → Except Error (Bool × List String)
  | [], help, acc => .ok (help, acc)
  | s :: rest, help, acc =>
    match s.data with
    | ['-', '-'] => .ok (help, acc ++ rest)
    | '-' :: '-' :: name =>
      match parseLongArg name with
      | some v => parseArgs rest v acc
      | none => .error (.flag s)
    | '-' :: c :: cs =>
      match parseShortArg help (c :: cs) with
      | some v => parseArgs rest v acc
      | none => .error (.flag s)
    | _ => parseArgs rest help (acc ++ [s])

/-- What an execution of a command did. -/
structure Execution (σ : Type) where
  /-- the state it leaves -/
  state : σ
  /-- the error `Execute` returns -/
  err : Option Error
  /-- whether the help text was printed instead -/
  help : Bool
  /-- the result of `PersistentPreRunE`, when it was run -/
  preRun : Option (Option Error)
  /-- whether `RunE` was run -/
  ran : Bool

/-- How cobra executes a command that carries its own hooks (`Command.execute` under
`ExecuteC`): the flags are parsed, and an error of the parser is returned; when help
is asked for, or the command cannot run, the help text is printed and nil is
returned; otherwise the arguments without the flags are validated, then
`PersistentPreRunE` runs, then `RunE`; the first error ends the execution and is
returned. -/
def Command.execute {σ : Type} (c : Command σ) (a : List String) (st : σ) : Execution σ :=
  match parseArgs a false [] with
  | .error err => ⟨st, some err, false, none, false⟩
  | .ok (helpVal, argWoFlags) =>
    if helpVal = true ∨ c.RunE.isNone = true then ⟨st, none, true, none, false⟩
    else
      match c.Args argWoFlags with
      | some err => ⟨st, some err, false, none, false⟩
      | none =>
        match c.PersistentPreRunE with
        | some pre =>
          match pre argWoFlags st with
          | (st, some err) => ⟨st, some err, false, some (some err), false⟩
          | (st, none) =>
            match c.RunE with
            | some run => ⟨(run argWoFlags st).1, (run argWoFlags st).2, false, some none, true⟩
            | none => ⟨st, none, false, some none, false⟩
        | none =>
          match c.RunE with
          | some run => ⟨(run argWoFlags st).1, (run argWoFlags st).2, false, none, true⟩
          | none => ⟨st, none, false, none, false⟩

end cobra

/-- The access levels of the spec. -/
inductive Level where
  | none
  | readOnly
  | readWrite
  | admin
  deriving DecidableEq, Repr

/-- What the command acts on: the state of the backend behind the context, and the
names `DeleteRepository` was called with, oldest first. -/
structure CmdState (σ : Type) where
  backend : σ
  deleted : List String

/-- The backend as the command uses it. -/
structure Backend (σ : Type) where
  /-- the method `DeleteRepository(ctx, name)` -/
  DeleteRepository : String → σ → σ × Option Error
  /-- the access gate `Authorize(caller, repository, requiredLevel)` of the spec -/
  Authorize : σ → String → String → Level → Bool

/-- Modelled from the spec: `checkIfCollab`, defined in `server/cmd` outside the given
sources.  It is the Access Gate of the spec, consulted before any side effect:
`Authorize(caller identity, repository, requiredLevel) -> granted|denied`, where the
repository is the first argument and deletion requires the level `admin`; a denial
is the error `Unauthorized`, and a check produces no state change. -/
def checkIfCollab {σ : Type} (be : Backend σ) (caller : String) (args : List String)
    (st : CmdState σ) : CmdState σ × Option Error :=
  if be.Authorize st.backend caller (args.headD "") .admin then (st, none)
  else (st, some (.msg "Unauthorized"))

/-- Go `deleteCommand()`, for the backend and the caller the context carries. -/
def deleteCommand {σ : Type} (be : Backend σ) (caller : String) : cobra.Command (CmdState σ) :=
  { Use := "delete REPOSITORY"
    Aliases := ["del", "remove", "rm"]
    Short := "Delete a repository"
    Args := cobra.ExactArgs 1
    PersistentPreRunE := some (checkIfCollab be caller)
    RunE := some fun args st =>
      let name := args.headD ""
      match be.DeleteRepository name st.backend with
      | (b, some err) => (⟨b, st.deleted ++ [name]⟩, some err)
      | (b, none) => (⟨b, st.deleted ++ [name]⟩, none) }

/-- A backend over the list of repository names: deletion removes the name, and
nobody is authorized. -/
def closedBackend : Backend (List String) :=
  ⟨fun name repos => (repos.erase name, none), fun _ _ _ _ => false⟩

/-! ## `ui/pages/selection/selection.go` -/

namespace appCfg

/-- The fields of `config.RepoConfig` that the selection page reads. -/
structure RepoConfig where
  Name : String
  Repo : String
  Note : String

/-- A repository of the source, with the result of its method `Name()`. -/
structure SourceRepo where
  name : String

/-- The method `Name()`. -/
def SourceRepo.Name (r : SourceRepo) : String := r.name

/-- The repository source, with the result of its method `AllRepos()`. -/
structure RepoSource where
  AllRepos : List SourceRepo

/-- The fields of the application's `config.Config` that the selection page reads. -/
structure Config where
  Host : String
  Port : Int
  Repos : List RepoConfig
  Source : RepoSource

end appCfg

/-- Go `repoUrl(cfg, name)`. -/
def repoUrl (cfg : appCfg.Config) (name : String) : String :=
  let port := ""
  let port := if cfg.Port ≠ 22 then port ++ fmt.Sprintf ":%d" [.int cfg.Port] else port
  fmt.Sprintf "git clone ssh://%s/%s" [.str (cfg.Host ++ port), .str name]

/-- An item of the selection list.  `LastUpdate` is a reading of the clock, `URL` the
text the yankable component is created with. -/
structure Item where
  Title : String
  Name : String
  Description : String
  LastUpdate : Nat
  URL : String
  deriving DecidableEq, Repr

/-- The first loop of `Selection.Init`, over `cfg.Repos`: one item is appended for each
configured repository.  `now k` is what `time.Now()` returns when `k` readings were
taken before; each item takes one reading. -/
def configuredLoop (cfg : appCfg.Config) (now : Nat → Nat) :
    List appCfg.RepoConfig → List Item → List Item
  | [], items => items
  | r :: rest, items =>
    configuredLoop cfg now rest
      (items ++ [⟨r.Name, r.Repo, r.Note, now items.length, repoUrl cfg r.Name⟩])

/-- The second loop of `Selection.Init`, over `cfg.Source.AllRepos()`: a repository is
appended unless an item of the list has its name in the field `Name`. -/
def sourceLoop (cfg : appCfg.Config) (now : Nat → Nat) :
    List appCfg.SourceRepo → List Item → List Item
  | [], items => items
  | r :: rest, items =>
    let found := items.any fun item => item.Name == r.Name
    if !found then
      sourceLoop cfg now rest
        (items ++ [⟨r.Name, r.Name, "", now items.length, repoUrl cfg r.Name⟩])
    else sourceLoop cfg now rest items

/-- The item list `Selection.Init` builds and passes to `s.selector.SetItems`. -/
def Selection.Init (cfg : appCfg.Config) (now : Nat → Nat) : List Item :=
  let items : List Item := []
  -- Put configured repos first
  let items := configuredLoop cfg now cfg.Repos items
  sourceLoop cfg now cfg.Source.AllRepos items

/-- A configuration on port 23231 with two configured repositories and a source that
repeats a name and holds a configured one. -/
def demoAppCfg : appCfg.Config :=
  { Host := "localhost"
    Port := 23231
    Repos := [⟨"Home", "config", "Configuration"⟩, ⟨"Docs", "docs", ""⟩]
    Source := ⟨[⟨"zeta"⟩, ⟨"config"⟩, ⟨"alpha"⟩, ⟨"zeta"⟩]⟩ }

/-! ## References and sorting (`git`, `sort`) -/

namespace git

/-- A reference, through the results of the methods the views call on it. -/
structure Reference where
  /-- result of `Name().Short()` -/
  short : String
  /-- result of `IsTag()` -/
  isTag : Bool
  /-- result of `IsBranch()` -/
  isBranch : Bool
  deriving DecidableEq, Repr

/-- The method `IsTag()`. -/
def Reference.IsTag (r : Reference) : Bool := r.isTag

/-- The method `IsBranch()`. -/
def Reference.IsBranch (r : Reference) : Bool := r.isBranch

end git

namespace sort

/-- Go `sort.Sort` for a `Less`: some rearrangement of the data that is in ascending
order as determined by `Less`, that is, no element is less than one before it.  The
sort is not stable, so nothing more is known about elements that compare equal. -/
structure Sorter (α : Type) (less : α → α → Bool) where
  /-- the data after `sort.Sort` -/
  sortData : List α → List α
  perm : ∀ l, (sortData l).Perm l
  ascending : ∀ l, (sortData l).Pairwise fun a b => less b a = false

end sort

/-! ## `tui/refs/bubble.go` -/

/-- The list item that wraps a reference. -/
structure item where
  Reference : git.Reference
  deriving DecidableEq, Repr

/-- Go `item.Short()`. -/
def item.Short (i : item) : String := i.Reference.short

/-- Go `items.Less`, on two elements: comparison of the short names as strings. -/
def items.Less (a b : item) : Bool := decide (a.Short.data < b.Short.data)

/-- The command `updateItems` returns: the one that yields `common.ErrMsg`, or the one
of `list.SetItems`. -/
inductive RefsCmd where
  | errMsg (err : Error)
  | setItems
  deriving DecidableEq, Repr

/-- The fields of `Bubble` that `updateItems` uses: the result of
`b.repo.References()` and the items of `b.list`. -/
structure Bubble where
  References : Except Error (List git.Reference)
  list : List item

/-- The loop of `updateItems` over the references: a tag goes to `tags`, otherwise a
branch goes to `its`, anything else is dropped.  The state is `(its, tags)`. -/
def partitionRefs : List git.Reference → List item × List item → List item × List item
  | [], st => st
  | r :: rest, (its, tags) =>
    if r.IsTag then partitionRefs rest (its, tags ++ [⟨r⟩])
    else if r.IsBranch then partitionRefs rest (its ++ [⟨r⟩], tags)
    else partitionRefs rest (its, tags)

/-- Go `Bubble.updateItems()`. -/
def Bubble.updateItems (S : sort.Sorter item items.Less) (b : Bubble) : Bubble × RefsCmd :=
  match b.References with
  | .error err => (b, .errMsg err)
  | .ok refs =>
    let st := partitionRefs refs ([], [])
    let its := S.sortData st.1
    let tags := S.sortData st.2
    let its := its ++ tags
    ({ b with list := its }, .setItems)

/-- Insertion sort by short name, one way `sort.Sort` may behave. -/
def insertionSorter : sort.Sorter item items.Less where
  sortData := List.insertionSort fun a b => a.Short.data ≤ b.Short.data
  perm := List.perm_insertionSort _
  ascending := by
    intro l
    haveI : IsTotal item (fun a b => a.Short.data ≤ b.Short.data) :=
      ⟨fun a b => le_total a.Short.data b.Short.data⟩
    haveI : IsTrans item (fun a b => a.Short.data ≤ b.Short.data) :=
      ⟨fun _ _ _ hab hbc => le_trans hab hbc⟩
    have hs : (List.insertionSort (fun a b : item => a.Short.data ≤ b.Short.data) l).Pairwise
        (fun a b => a.Short.data ≤ b.Short.data) := List.sorted_insertionSort _ l
    refine hs.imp ?_
    intro a b hab
    simp only [items.Less, decide_eq_false_iff_not, not_lt]
    exact hab

/-- References of a repository: two branches, two tags and a remote reference. -/
def demoRefs : List git.Reference :=
  [⟨"v1.0", true, false⟩, ⟨"main", false, true⟩, ⟨"origin/main", false, false⟩,
    ⟨"dev", false, true⟩, ⟨"v0.9", true, false⟩]

/-! ## `ui/pages/repo/repo.go` -/

/-- A repository as the view uses it: the results of `Name()` and `HEAD()`. -/
structure GitRepo where
  name : String
  head : Except Error git.Reference

/-- The method `Name()`. -/
def GitRepo.Name (r : GitRepo) : String := r.name

/-- The method `HEAD()`. -/
def GitRepo.HEAD (r : GitRepo) : Except Error git.Reference := r.head

/-- The messages `Repo.Update` tells apart.  A `RepoMsg` holds a repository; a `RefMsg`
is a pointer to a reference and may be nil. -/
inductive Msg where
  | SelectMsg (name : String)
  | RepoMsg (r : GitRepo)
  | RefMsg (ref : Option git.Reference)
  | ActiveTabMsg (t : Int)
  | KeyMsg (key : String)
  | MouseMsg
  | ErrorMsg (err : Error)
  | other

/-- The commands `Repo.Update` puts into its batch. -/
inductive Cmd where
  | tabsInit
  | setRepoCmd (name : String)
  | updateReadmeCmd
  | updateRefCmd
  | updateStatusBarCmd
  | logInit
  /-- a command returned by the `Update` of a sub-model -/
  | child
  deriving DecidableEq, Repr

/-- The sub-models of the view (tabs, status bar, readme, log) with state `κ`: each
`Update` gives the new state and whether it returned a command. -/
structure Parts (κ : Type) where
  tabsUpdate : κ → Msg → κ × Bool
  statusbarUpdate : κ → Msg → κ × Bool
  readmeUpdate : κ → Msg → κ × Bool
  logUpdate : κ → Msg → κ × Bool
  readmeGotoTop : κ → κ
  /-- the text `fmt.Sprintf("%.f%%", r.readme.ScrollPercent()*100)` -/
  scrollInfo : κ → String

/-- The view `Repo`: the repositories of its source, and the fields `Update` reads and
writes. -/
structure Repo (κ : Type) where
  rs : List GitRepo
  selectedRepo : Option GitRepo
  activeTab : Int
  parts : κ
  ref : Option git.Reference

def readmeTab : Int := 0
def filesTab : Int := 1
def commitsTab : Int := 2
def branchesTab : Int := 3
def tagsTab : Int := 4

/-- Go `New(common, rs)`: no repository selected, no reference, first tab. -/
def Repo.New {κ : Type} (k0 : κ) (rs : List GitRepo) : Repo κ :=
  ⟨rs, none, 0, k0, none⟩

/-- The commands a sub-model's `Update` adds to the batch. -/
def childCmds (c : Bool) : List Cmd := if c then [.child] else []

/-- Go `Repo.Update(msg)`: the view after the message and the commands of the batch. -/
def Repo.Update {κ : Type} (P : Parts κ) (r : Repo κ) (msg : Msg) : Repo κ × List Cmd :=
  let st : Repo κ × List Cmd :=
    match msg with
    | .SelectMsg name => ({ r with activeTab := 0 }, [.tabsInit, .setRepoCmd name])
    | .RepoMsg g =>
      ({ r with selectedRepo := some g, parts := P.readmeGotoTop r.parts },
        [.updateReadmeCmd, .updateRefCmd])
    | .RefMsg ref => ({ r with ref := ref }, [.updateStatusBarCmd, .logInit])
    | .ActiveTabMsg t => ({ r with activeTab := t }, [])
    | .KeyMsg _ => if r.selectedRepo.isSome then (r, [.updateStatusBarCmd]) else (r, [])
    | .MouseMsg => if r.selectedRepo.isSome then (r, [.updateStatusBarCmd]) else (r, [])
    | _ => (r, [])
  let r := st.1
  let cmds := st.2
  let t := P.tabsUpdate r.parts msg
  let cmds := cmds ++ childCmds t.2
  let s := P.statusbarUpdate t.1 msg
  let cmds := cmds ++ childCmds s.2
  if r.activeTab = readmeTab then
    let b := P.readmeUpdate s.1 msg
    ({ r with parts := b.1 }, cmds ++ childCmds b.2)
  else if r.activeTab = commitsTab then
    let l := P.logUpdate s.1 msg
    ({ r with parts := l.1 }, cmds ++ childCmds l.2)
  else ({ r with parts := s.1 }, cmds)

/-- A run-time panic. -/
inductive Panic where
  | nilDereference
  deriving DecidableEq, Repr

/-- Go `statusbar.StatusBarMsg`. -/
structure StatusBarMsg where
  Key : String
  Value : String
  Info : String
  Branch : String
  deriving DecidableEq, Repr

/-- Go `Repo.updateStatusBarCmd()`, run on the view as it is then: it calls
`r.selectedRepo.Name()` and `r.ref.Name().Short()` without a check, and panics on a
nil one. -/
def Repo.updateStatusBarCmd {κ : Type} (P : Parts κ) (r : Repo κ) : Except Panic StatusBarMsg :=
  let info := if r.activeTab = readmeTab then P.scrollInfo r.parts else ""
  match r.selectedRepo with
  | none => .error .nilDereference
  | some g =>
    match r.ref with
    | none => .error .nilDereference
    | some ref =>
      .ok { Key := g.Name, Value := "", Info := info,
            Branch := fmt.Sprintf "\uE0A0 %s" [.str ref.short] }

/-- The command `Repo.setRepoCmd(repo)` returns, run on the view. -/
def Repo.setRepoCmd {κ : Type} (r : Repo κ) (name : String) : Msg :=
  match r.rs.find? fun g => g.Name == name with
  | some g => .RepoMsg g
  | none => .ErrorMsg (.msg "missing repo")

/-- Go `Repo.updateRefCmd()`, run on the view. -/
def Repo.updateRefCmd {κ : Type} (r : Repo κ) : Except Panic Msg :=
  match r.selectedRepo with
  | none => .error .nilDereference
  | some g =>
    match g.HEAD with
    | .error err => .ok (.ErrorMsg err)
    | .ok head => .ok (.RefMsg (some head))

/-- The views reached from `New` by `Update` with any messages. -/
inductive Repo.Reachable {κ : Type} (P : Parts κ) (k0 : κ) (rs : List GitRepo) :
    Repo κ → Prop where
  | new : Repo.Reachable P k0 rs (Repo.New k0 rs)
  | step (r : Repo κ) (msg : Msg) :
    Repo.Reachable P k0 rs r → Repo.Reachable P k0 rs (Repo.Update P r msg).1

/-- Sub-models without state that return no command. -/
def idleParts : Parts Unit :=
  ⟨fun k _ => (k, false), fun k _ => (k, false), fun k _ => (k, false),
    fun k _ => (k, false), fun k => k, fun _ => "0%"⟩

/-- A repository without commits: `HEAD()` fails. -/
def emptyRepo : GitRepo := ⟨"empty", .error (.msg "reference does not exist")⟩

/-- The view after the repository without commits was selected: `SelectMsg`, then the
`RepoMsg` its command yields, then the `ErrorMsg` that `updateRefCmd` yields because
`HEAD()` fails. -/
def noHeadView : Repo Unit :=
  (Repo.Update idleParts
    (Repo.Update idleParts
      (Repo.Update idleParts (Repo.New () [emptyRepo]) (.SelectMsg "empty")).1
      (.RepoMsg emptyRepo)).1
    (.ErrorMsg (.msg "reference does not exist"))).1

/-! ## Theorems -/

/-! ### Paths -/

theorem push_ordinary (r : Bool) (acc : List String) (e : String) (he : ordinary e) :
    filepath.push r acc e = acc ++ [e] := by
  obtain ⟨-, h1, h2, h3⟩ := he
  simp [filepath.push, h1, h2, h3]

theorem join_elems (p : CleanPath) (e : String) (he : ordinary e) :
    (p.join e).elems = p.elems ++ [e] := by
  simp [CleanPath.join, he.1, push_ordinary _ _ _ he]

theorem resolve_join (h : Host) (p : CleanPath) (e : String) (he : ordinary e) :
    h.resolve (p.join e) = h.resolve p ++ [e] := by
  unfold Host.resolve
  rw [join_elems p e he]
  have hr : (p.join e).rooted = p.rooted := rfl
  rw [hr]
  split
  · rfl
  · rw [List.foldl_append]
    simp [push_ordinary _ _ _ he]

theorem resolve_addSuffix (h : Host) (p : CleanPath) (e s : String) (he : ordinary e)
    (hes : ordinary (e ++ s)) :
    h.resolve ((p.join e).addSuffix s) = h.resolve p ++ [e ++ s] := by
  have h1 : ((p.join e).addSuffix s).elems = (p.join (e ++ s)).elems := by
    rw [join_elems p _ hes]
    simp [CleanPath.addSuffix, join_elems p e he]
  have h2 : ((p.join e).addSuffix s).rooted = (p.join (e ++ s)).rooted := rfl
  rw [← resolve_join h p _ hes]
  unfold Host.resolve
  rw [h1, h2]

theorem intercalate_go_concat (sep : String) (es : List String) (c acc : String) :
    String.intercalate.go acc sep (es ++ [c]) = String.intercalate.go acc sep es ++ sep ++ c := by
  induction es generalizing acc with
  | nil => simp [String.intercalate.go]
  | cons e es ih => simp [String.intercalate.go, ih]

/-- The string of a path joined with an ordinary element: the string of the path, a
separator, the element (for a path other than the root and the empty one). -/
theorem join_toString (p : CleanPath) (e : String) (he : ordinary e) (hp : p.elems ≠ []) :
    (p.join e).toString = p.toString ++ "/" ++ e := by
  unfold CleanPath.toString
  rw [join_elems p e he]
  have hr : (p.join e).rooted = p.rooted := rfl
  rw [hr]
  cases hes : p.elems with
  | nil => exact absurd hes hp
  | cons a es =>
    simp [String.intercalate, intercalate_go_concat, String.append_assoc]

/-- The name `os.Getwd` returns starts at the root. -/
theorem Getwd_rooted (h : Host) (wd : String) (hw : h.Getwd = .ok wd) :
    wd.data.head? = some '/' := by
  unfold Host.Getwd at hw
  split at hw
  · exact absurd hw (by simp)
  · simp only [Except.ok.injEq] at hw
    subst hw
    unfold CleanPath.toString
    split
    · rfl
    · simp [String.data_append]

theorem foldl_join_rooted (es : List String) :
    ∀ p : CleanPath, (es.foldl CleanPath.join p).rooted = p.rooted := by
  induction es with
  | nil => intro p; rfl
  | cons e es ih => intro p; rw [List.foldl_cons, ih]; rfl

theorem Join_rooted (e : String) (es : List String) (he : e.data.head? = some '/') :
    (filepath.Join (e :: es)).rooted = true := by
  have hne : e ≠ "" := by
    intro h0
    rw [h0] at he
    simp at he
  unfold filepath.Join
  simp only [List.filter_cons, hne, ne_eq, not_false_eq_true, decide_True, if_true]
  rw [foldl_join_rooted]
  simp [filepath.Clean, he]

/-- Go `filepath.Abs` returns a rooted path: the cleaned path itself when it is
rooted, and the path joined to the working directory that `os.Getwd` returns when
it is not. -/
theorem Abs_spec (h : Host) (path : String) (dp : CleanPath)
    (hA : filepath.Abs h path = .ok dp) :
    dp.rooted = true ∧
    (path.data.head? = some '/' → dp = filepath.Clean path) ∧
    (path.data.head? ≠ some '/' →
      ∃ wd, h.Getwd = .ok wd ∧ wd.data.head? = some '/' ∧ dp = filepath.Join [wd, path]) := by
  unfold filepath.Abs at hA
  split at hA
  · rename_i hr
    simp only [Except.ok.injEq] at hA
    subst hA
    exact ⟨by simp [filepath.Clean, hr], fun _ => rfl, fun hn => absurd hr hn⟩
  · rename_i hr
    split at hA
    · exact absurd hA (by simp)
    · rename_i wd hw
      simp only [Except.ok.injEq] at hA
      subst hA
      have hwd := Getwd_rooted h wd hw
      exact ⟨Join_rooted wd _ hwd, fun hp => absurd hp hr, fun _ => ⟨wd, hw, hwd, rfl⟩⟩

theorem splitChars_ne_nil (cs : List Char) : filepath.splitChars cs ≠ [] := by
  induction cs with
  | nil => simp [filepath.splitChars]
  | cons c cs ih =>
    unfold filepath.splitChars
    split
    · simp
    · split <;> simp

/-- Cutting at separators distributes over a separator. -/
theorem splitChars_append (xs ys : List Char) :
    filepath.splitChars (xs ++ '/' :: ys) =
      filepath.splitChars xs ++ filepath.splitChars ys := by
  induction xs with
  | nil => simp [filepath.splitChars]
  | cons c xs ih =>
    by_cases hc : c = '/'
    · simp [filepath.splitChars, hc, ih]
    · simp only [List.cons_append, filepath.splitChars, hc, if_false]
      have ih1 : filepath.splitChars (xs.append ('/' :: ys)) =
          filepath.splitChars xs ++ filepath.splitChars ys := ih
      rw [ih1]
      cases hx : filepath.splitChars xs with
      | nil => exact absurd hx (splitChars_ne_nil xs)
      | cons a t => simp

theorem split_append (s t : String) :
    filepath.split (s ++ "/" ++ t) = filepath.split s ++ filepath.split t := by
  have h1 : (s ++ "/" ++ t).data = s.data ++ '/' :: t.data := by
    simp [String.data_append]
  simp [filepath.split, h1, splitChars_append]

theorem toString_concat (es : List String) (c : String) :
    CleanPath.toString ⟨true, es ++ [c]⟩ =
      (if es = [] then "" else CleanPath.toString ⟨true, es⟩) ++ "/" ++ c := by
  cases es with
  | nil => simp [CleanPath.toString, String.intercalate, String.intercalate.go]
  | cons a es =>
    simp [CleanPath.toString, String.intercalate, intercalate_go_concat, String.append_assoc]

/-- Cleaning the name of a directory given by ordinary names yields those names. -/
theorem Clean_toString (es : List String) (hes : ∀ e ∈ es, ordinary e) :
    filepath.Clean (CleanPath.toString ⟨true, es⟩) = ⟨true, es⟩ := by
  induction es using List.reverseRecOn with
  | nil => decide
  | append_singleton es c ih =>
    have hc : ordinary c := hes c (by simp)
    have ih1 := ih (fun e he => hes e (by simp [he]))
    rw [toString_concat]
    unfold filepath.Clean
    rw [split_append, hc.1]
    by_cases h0 : es = []
    · subst h0
      have hd : ("" ++ "/" ++ c).data.head? = some '/' := by simp [String.data_append]
      simp only [if_true, hd, decide_True, List.foldl_append, List.foldl_cons, List.foldl_nil]
      have : filepath.split "" = [""] := by decide
      rw [this]
      simp [filepath.push, hc.2.1, hc.2.2.1, hc.2.2.2]
    · simp only [if_neg h0]
      unfold filepath.Clean at ih1
      simp only [CleanPath.mk.injEq, decide_eq_true_eq] at ih1
      obtain ⟨hr, he⟩ := ih1
      rw [hr] at he
      have hd : (CleanPath.toString ⟨true, es⟩ ++ "/" ++ c).data.head? = some '/' := by
        rw [String.append_assoc, String.data_append]
        cases hdd : (CleanPath.toString ⟨true, es⟩).data with
        | nil => rw [hdd] at hr; simp at hr
        | cons a l => rw [hdd] at hr; simpa using hr
      have he2 : List.foldl (filepath.push true) []
          (filepath.split (CleanPath.toString ⟨true, es⟩)) = es := by simpa using he
      simp only [hd, decide_True, List.foldl_append, List.foldl_cons, List.foldl_nil, he2,
        push_ordinary _ _ _ hc]

theorem push_false_clean (acc : List String) (e : String)
    (hacc : ∀ a ∈ acc, a ≠ "" ∧ a ≠ ".") :
    ∀ a ∈ filepath.push false acc e, a ≠ "" ∧ a ≠ "." := by
  unfold filepath.push
  split
  · exact hacc
  · rename_i he
    push_neg at he
    split
    · rename_i hdd
      split
      · intro a ha
        simp only [Bool.false_eq_true, if_false, List.mem_singleton] at ha
        subst ha
        decide
      · split
        · intro a ha
          rcases List.mem_append.mp ha with ha | ha
          · exact hacc a ha
          · rw [List.mem_singleton.mp ha]; decide
        · intro a ha
          exact hacc a (List.mem_of_mem_dropLast ha)
    · intro a ha
      rcases List.mem_append.mp ha with ha | ha
      · exact hacc a ha
      · rw [List.mem_singleton.mp ha]; exact he

theorem foldl_push_false_clean (xs : List String) :
    ∀ a ∈ xs.foldl (filepath.push false) [], a ≠ "" ∧ a ≠ "." := by
  induction xs using List.reverseRecOn with
  | nil => simp
  | append_singleton xs e ih =>
    rw [List.foldl_append]
    exact push_false_clean _ e ih

/-- Resolving a cleaned relative path against a directory is resolving the path as
it was written. -/
theorem foldl_push_clean (base : List String) (xs : List String) :
    (xs.foldl (filepath.push false) []).foldl (filepath.push true) base =
      xs.foldl (filepath.push true) base := by
  induction xs using List.reverseRecOn with
  | nil => rfl
  | append_singleton xs e ih =>
    rw [List.foldl_append, List.foldl_append]
    simp only [List.foldl_cons, List.foldl_nil]
    rw [← ih]
    have hinv := foldl_push_false_clean xs
    generalize xs.foldl (filepath.push false) [] = acc at hinv ⊢
    by_cases h1 : e = "" ∨ e = "."
    · simp [filepath.push, h1]
    by_cases h2 : e = ".."
    · subst h2
      by_cases h3 : acc = []
      · subst h3
        simp [filepath.push]
      by_cases h4 : acc.getLast? = some ".."
      · have hp : filepath.push false acc ".." = acc ++ [".."] := by
          simp [filepath.push, h3, h4]
        rw [hp, List.foldl_append]
        rfl
      · have hp : filepath.push false acc ".." = acc.dropLast := by
          simp [filepath.push, h3, h4]
        rw [hp]
        obtain ⟨l, a, rfl⟩ : ∃ l a, acc = l ++ [a] :=
          ⟨acc.dropLast, acc.getLast h3, (List.dropLast_append_getLast h3).symm⟩
        have ha := hinv a (by simp)
        have ha2 : a ≠ ".." := by
          intro hh
          apply h4
          simp [hh]
        rw [List.dropLast_concat, List.foldl_append]
        simp only [List.foldl_cons, List.foldl_nil]
        have hpa : filepath.push true (l.foldl (filepath.push true) base) a =
            l.foldl (filepath.push true) base ++ [a] := by
          simp [filepath.push, ha.1, ha.2, ha2]
        rw [hpa]
        simp [filepath.push, ha2]
    · have hp : ∀ r acc1, filepath.push r acc1 e = acc1 ++ [e] := by
        intro r acc1
        simp [filepath.push, h1, h2]
      rw [hp, hp, List.foldl_append]
      simp only [List.foldl_cons, List.foldl_nil, hp]

/-- Go `filepath.Abs` names the directory that the path itself names in the process
(for a working directory given by ordinary names). -/
theorem Abs_resolve (h : Host) (path : String) (dp : CleanPath)
    (hcwd : ∀ e ∈ h.cwd, ordinary e) (hA : filepath.Abs h path = .ok dp) :
    h.resolve dp = h.resolve (filepath.Clean path) := by
  unfold filepath.Abs at hA
  split at hA
  · simp only [Except.ok.injEq] at hA
    rw [hA]
  · rename_i hr
    split at hA
    · exact absurd hA (by simp)
    · rename_i wd hw
      simp only [Except.ok.injEq] at hA
      subst hA
      have hwd : wd = CleanPath.toString ⟨true, h.cwd⟩ := by
        unfold Host.Getwd at hw
        split at hw
        · exact absurd hw (by simp)
        · simpa using hw.symm
      have hne : wd ≠ "" := by
        intro h0
        have := Getwd_rooted h wd hw
        rw [h0] at this
        simp at this
      have hC := Clean_toString h.cwd hcwd
      rw [← hwd] at hC
      have hrel : (filepath.Clean path).rooted = false := by
        simp [filepath.Clean, hr]
      by_cases hp : path = ""
      · subst hp
        simp only [filepath.Join, List.filter_cons, hne, ne_eq, not_false_eq_true, decide_True,
          if_true, not_true_eq_false, decide_False, List.filter_nil, List.foldl_nil,
          Bool.false_eq_true, if_false, hC]
        have hE : filepath.Clean "" = ⟨false, []⟩ := by decide
        rw [hE]
        simp [Host.resolve]
      · simp only [filepath.Join, List.filter_cons, hne, hp, ne_eq, not_false_eq_true,
          decide_True, if_true, List.filter_nil, List.foldl_cons, List.foldl_nil, hC]
        simp only [Host.resolve, CleanPath.join, if_true, hrel, Bool.false_eq_true, if_false]
        simp only [filepath.Clean, hr, decide_False]
        rw [foldl_push_clean]

/-- The string of a rooted path starts with a slash. -/
theorem toString_rooted (p : CleanPath) (hp : p.rooted = true) :
    p.toString.data.head? = some '/' := by
  unfold CleanPath.toString
  split
  · simp [hp]
  · simp [hp, String.data_append]

theorem not_concat_prefix (H : Path) (a : String) (l : List String) : ¬ (H ++ a :: l <+: H) := by
  intro h
  have := h.length_le
  simp at this

/-! ### File system operations -/

theorem mkdirFrom_ok (umask perm : Nat) (cs : List String) :
    ∀ (fs : FS) (base : Path) (fs1 : FS), mkdirFrom umask perm fs base cs = .ok fs1 →
      ∀ q, fs1 q =
        if base <+: q ∧ q ≠ base ∧ q <+: base ++ cs then
          (match fs q with
          | some n => some n
          | none => some (.dir (withUmask umask perm)))
        else fs q := by
  induction cs with
  | nil =>
    intro fs base fs1 h q
    simp only [mkdirFrom, Except.ok.injEq] at h
    subst h
    have : ¬ (base <+: q ∧ q ≠ base ∧ q <+: base ++ []) := by
      rintro ⟨h1, h2, h3⟩
      rw [List.append_nil] at h3
      exact h2 (h3.eq_of_length_le h1.length_le)
    rw [if_neg this]
  | cons c cs ih =>
    intro fs base fs1 h q
    have key : (base <+: q ∧ q ≠ base ∧ q <+: base ++ c :: cs) ↔
        (q = base ++ [c] ∨
          ((base ++ [c]) <+: q ∧ q ≠ base ++ [c] ∧ q <+: (base ++ [c]) ++ cs)) := by
      constructor
      · rintro ⟨⟨t, rfl⟩, h2, h3⟩
        rw [List.prefix_append_right_inj] at h3
        cases t with
        | nil => simp at h2
        | cons a t =>
          rw [List.cons_prefix_cons] at h3
          obtain ⟨rfl, h3⟩ := h3
          by_cases ht : t = []
          · left; simp [ht]
          · right
            refine ⟨⟨t, by simp⟩, ?_, ?_⟩
            · intro hh
              have := congrArg List.length hh
              simp at this
              exact ht this
            · rw [List.append_assoc, List.prefix_append_right_inj]
              simpa using h3
      · rintro (rfl | ⟨⟨t, rfl⟩, h2, h3⟩)
        · refine ⟨List.prefix_append _ _, ?_, ?_⟩
          · intro hh
            have := congrArg List.length hh
            simp at this
          · rw [List.prefix_append_right_inj]; simp
        · refine ⟨⟨c :: t, by simp⟩, ?_, ?_⟩
          · intro hh
            have := congrArg List.length hh
            simp at this
          · simpa [List.append_assoc] using h3
    simp only [mkdirFrom] at h
    split at h
    · rename_i m hm
      have := ih fs (base ++ [c]) fs1 h q
      rw [this]
      by_cases hq : q = base ++ [c]
      · subst hq
        have h1 : ¬ ((base ++ [c]) <+: (base ++ [c]) ∧ (base ++ [c]) ≠ base ++ [c] ∧
            (base ++ [c]) <+: (base ++ [c]) ++ cs) := by
          rintro ⟨-, h2, -⟩; exact h2 rfl
        rw [if_neg h1, if_pos (key.mpr (Or.inl rfl)), hm]
      · by_cases hc : ((base ++ [c]) <+: q ∧ q ≠ base ++ [c] ∧ q <+: (base ++ [c]) ++ cs)
        · rw [if_pos hc, if_pos (key.mpr (Or.inr hc))]
        · rw [if_neg hc, if_neg (fun hh => (key.mp hh).elim hq hc)]
    · exact absurd h (by simp)
    · rename_i hm
      have := ih _ (base ++ [c]) fs1 h q
      rw [this]
      by_cases hq : q = base ++ [c]
      · subst hq
        have h1 : ¬ ((base ++ [c]) <+: (base ++ [c]) ∧ (base ++ [c]) ≠ base ++ [c] ∧
            (base ++ [c]) <+: (base ++ [c]) ++ cs) := by
          rintro ⟨-, h2, -⟩; exact h2 rfl
        rw [if_neg h1, if_pos (key.mpr (Or.inl rfl)), hm]
        simp [FS.set]
      · by_cases hc : ((base ++ [c]) <+: q ∧ q ≠ base ++ [c] ∧ q <+: (base ++ [c]) ++ cs)
        · rw [if_pos hc, if_pos (key.mpr (Or.inr hc))]
          simp [FS.set, hq]
        · rw [if_neg hc, if_neg (fun hh => (key.mp hh).elim hq hc)]
          simp [FS.set, hq]

theorem mkdirFrom_root_ok (umask perm : Nat) (fs fs1 : FS) (p : Path)
    (h : mkdirFrom umask perm fs [] p = .ok fs1) :
    fs1 = mkdirFill (withUmask umask perm) fs p := by
  funext q
  rw [mkdirFrom_ok umask perm p fs [] fs1 h q]
  simp only [mkdirFill, List.nil_append, List.nil_prefix, true_and]

theorem writeCore_ok (umask : Nat) (fs fs1 : FS) (p : Path) (data : String) (perm : Nat)
    (h : writeCore umask fs p data perm = .ok fs1) :
    fs1 = writeFill fs p data (withUmask umask perm) := by
  unfold writeCore at h
  split at h
  · exact absurd h (by simp)
  · split at h
    · split at h <;> exact absurd h (by simp)
    · split at h
      · exact absurd h (by simp)
      · rename_i m hm
        simp only [Except.ok.injEq] at h
        simp [writeFill, hm, ← h]
      · rename_i hm
        simp only [Except.ok.injEq] at h
        simp [writeFill, hm, ← h]

theorem MkdirAll_spec (h : Host) (w : World) (p : CleanPath) (perm : Nat) :
    (MkdirAll h w p perm).1.trace =
        w.trace ++ [⟨.mkdirAll, h.resolve p, (MkdirAll h w p perm).2⟩] ∧
      (MkdirAll h w p perm).1.logged = w.logged ∧
      ((MkdirAll h w p perm).2 = none →
        (MkdirAll h w p perm).1.fs = mkdirFill (withUmask h.umask perm) w.fs (h.resolve p)) ∧
      ((MkdirAll h w p perm).2 ≠ none → (MkdirAll h w p perm).1.fs = w.fs) := by
  unfold MkdirAll
  split
  · simp [World.record]
  · split
    · simp [World.record]
    · rename_i fs1 hfs
      simp [World.record, mkdirFrom_root_ok _ _ _ _ _ hfs]

theorem WriteFile_spec (h : Host) (w : World) (p : CleanPath) (data : String) (perm : Nat) :
    (WriteFile h w p data perm).1.trace =
        w.trace ++ [⟨.writeFile, h.resolve p, (WriteFile h w p data perm).2⟩] ∧
      (WriteFile h w p data perm).1.logged = w.logged ∧
      ((WriteFile h w p data perm).2 = none →
        (WriteFile h w p data perm).1.fs =
          writeFill w.fs (h.resolve p) data (withUmask h.umask perm)) ∧
      ((WriteFile h w p data perm).2 ≠ none → (WriteFile h w p data perm).1.fs = w.fs) := by
  unfold WriteFile
  split
  · simp [World.record]
  · split
    · simp [World.record]
    · rename_i fs1 hfs
      simp [World.record, writeCore_ok _ _ _ _ _ _ hfs]

theorem Execute_nil (ex cp hook : String) :
    hooksTmpl.Execute ⟨ex, cp, [], hook, hookArgs hook⟩ = .ok (entryText ex cp hook) := by
  simp [hooksTmpl.Execute, entryText, String.join]

/-- One round of the loop: it stops at the first failure of the dispatcher write or
of the directory creation and returns it; otherwise it goes on, whether or not the
entry could be written. -/
theorem hookBody_spec (h : Host) (hooksPath : CleanPath) (ex cp : String) (w : World)
    (hook : String) (ho : ordinary hook) (hod : ordinary (hook ++ ".d")) :
    ∃ (new : List OpRecord),
      (hookBody h hooksPath ex cp [] w hook).1.trace = w.trace ++ new ∧
      ((∃ x, new = [⟨.writeFile, h.resolve hooksPath ++ [hook], some x⟩] ∧
          (hookBody h hooksPath ex cp [] w hook).2 = some x ∧
          (hookBody h hooksPath ex cp [] w hook).1.fs = w.fs ∧
          (hookBody h hooksPath ex cp [] w hook).1.logged = w.logged) ∨
       (∃ x, new = [⟨.writeFile, h.resolve hooksPath ++ [hook], none⟩,
            ⟨.mkdirAll, h.resolve hooksPath ++ [hook ++ ".d"], some x⟩] ∧
          (hookBody h hooksPath ex cp [] w hook).2 = some x ∧
          (hookBody h hooksPath ex cp [] w hook).1.fs =
            writeFill w.fs (h.resolve hooksPath ++ [hook]) hookTemplate
              (withUmask h.umask ModePerm) ∧
          (hookBody h hooksPath ex cp [] w hook).1.logged = w.logged) ∨
       (∃ e3, new = [⟨.writeFile, h.resolve hooksPath ++ [hook], none⟩,
            ⟨.mkdirAll, h.resolve hooksPath ++ [hook ++ ".d"], none⟩,
            ⟨.writeFile, h.resolve hooksPath ++ [hook ++ ".d", "soft-serve"], e3⟩] ∧
          (hookBody h hooksPath ex cp [] w hook).2 = none ∧
          (hookBody h hooksPath ex cp [] w hook).1.fs =
            bodyFS (withUmask h.umask ModePerm) (h.resolve hooksPath) ex cp w.fs
              (hook, e3.isNone) ∧
          (hookBody h hooksPath ex cp [] w hook).1.logged =
            w.logged ++ e3.toList.map fun x => ("failed to write hook", x))) := by
  have hs : ordinary "soft-serve" := by decide
  have p1 := resolve_join h hooksPath hook ho
  have p2 := resolve_addSuffix h hooksPath hook ".d" ho hod
  have p3 : h.resolve (((hooksPath.join hook).addSuffix ".d").join "soft-serve") =
      h.resolve hooksPath ++ [hook ++ ".d", "soft-serve"] := by
    rw [resolve_join h _ _ hs, p2]; simp
  unfold hookBody
  simp only [Execute_nil]
  obtain ⟨t1, l1, f1, g1⟩ := WriteFile_spec h w (hooksPath.join hook) hookTemplate ModePerm
  rcases hW1 : WriteFile h w (hooksPath.join hook) hookTemplate ModePerm with ⟨w1, e1⟩
  rw [hW1] at t1 l1 f1 g1
  simp only at t1 l1 f1 g1
  rw [p1] at t1 f1
  cases e1 with
  | some x =>
    exact ⟨_, t1, Or.inl ⟨x, rfl, rfl, g1 (by simp), l1⟩⟩
  | none =>
    simp only
    obtain ⟨t2, l2, f2, g2⟩ := MkdirAll_spec h w1 ((hooksPath.join hook).addSuffix ".d") ModePerm
    rcases hW2 : MkdirAll h w1 ((hooksPath.join hook).addSuffix ".d") ModePerm with ⟨w2, e2⟩
    rw [hW2] at t2 l2 f2 g2
    simp only at t2 l2 f2 g2
    rw [p2] at t2 f2
    have fs1 := f1 rfl
    cases e2 with
    | some x =>
      refine ⟨_, ?_, Or.inr (Or.inl ⟨x, rfl, rfl, ?_, ?_⟩)⟩
      · simp [t2, t1]
      · rw [g2 (by simp), fs1]
      · rw [l2, l1]
    | none =>
      simp only
      obtain ⟨t3, l3, f3, g3⟩ := WriteFile_spec h w2
        (((hooksPath.join hook).addSuffix ".d").join "soft-serve") (entryText ex cp hook) ModePerm
      rcases hW3 : WriteFile h w2 (((hooksPath.join hook).addSuffix ".d").join "soft-serve")
        (entryText ex cp hook) ModePerm with ⟨w3, e3⟩
      rw [hW3] at t3 l3 f3 g3
      simp only at t3 l3 f3 g3
      rw [p3] at t3 f3
      have fs2 := f2 rfl
      cases e3 with
      | some x =>
        refine ⟨_, ?_, Or.inr (Or.inr ⟨some x, rfl, rfl, ?_, ?_⟩)⟩
        · simp [World.logError, t3, t2, t1]
        · simp [World.logError, bodyFS, g3 (by simp), fs2, fs1]
        · simp [World.logError, l3, l2, l1]
      | none =>
        refine ⟨_, ?_, Or.inr (Or.inr ⟨none, rfl, rfl, ?_, ?_⟩)⟩
        · simp [t3, t2, t1]
        · simp [bodyFS, f3 rfl, fs2, fs1]
        · simp [l3, l2, l1]

/-- The loop over hook types: the operations it adds, which failures it returns and
which it logs, and the state it leaves when it runs to its end. -/
theorem hookLoop_spec (h : Host) (hooksPath : CleanPath) (ex cp : String) (hs : List String)
    (hord : ∀ hook ∈ hs, ordinary hook ∧ ordinary (hook ++ ".d")) :
    ∀ w : World, ∃ (new : List OpRecord) (bs : List (String × Bool))
        (newlog : List (String × Error)),
      (hookLoop h hooksPath ex cp [] w hs).1.trace = w.trace ++ new ∧
      (hookLoop h hooksPath ex cp [] w hs).1.logged = w.logged ++ newlog ∧
      (∀ r ∈ new, ∀ x, r.err = some x →
        ((∃ hook ∈ hs,
          r = ⟨.writeFile, h.resolve hooksPath ++ [hook ++ ".d", "soft-serve"], some x⟩) ∧
          ("failed to write hook", x) ∈ newlog) ∨
          (hookLoop h hooksPath ex cp [] w hs).2 = some x) ∧
      (∀ r ∈ new, ∃ hook ∈ hs, r.path = h.resolve hooksPath ++ [hook] ∨
        r.path = h.resolve hooksPath ++ [hook ++ ".d"] ∨
        r.path = h.resolve hooksPath ++ [hook ++ ".d", "soft-serve"]) ∧
      (∀ x, (hookLoop h hooksPath ex cp [] w hs).2 = some x → ∃ r ∈ new, r.err = some x) ∧
      ((hookLoop h hooksPath ex cp [] w hs).2 = none →
        bs.map Prod.fst = hs ∧
        (hookLoop h hooksPath ex cp [] w hs).1.fs =
            loopFS (withUmask h.umask ModePerm) (h.resolve hooksPath) ex cp w.fs bs ∧
        ((∀ r ∈ new, r.err = none) → ∀ hb ∈ bs, hb.2 = true) ∧
        (∀ hook ∈ hs, (⟨.writeFile, h.resolve hooksPath ++ [hook], none⟩ : OpRecord) ∈ new ∧
          (⟨.mkdirAll, h.resolve hooksPath ++ [hook ++ ".d"], none⟩ : OpRecord) ∈ new)) := by
  induction hs with
  | nil =>
    intro w
    exact ⟨[], [], [], by simp [hookLoop], by simp [hookLoop], by simp, by simp,
      by simp [hookLoop], fun _ => by simp [hookLoop, loopFS]⟩
  | cons hook rest ih =>
    intro w
    have ho := hord hook (List.mem_cons_self _ _)
    obtain ⟨new1, t1, sh⟩ := hookBody_spec h hooksPath ex cp w hook ho.1 ho.2
    rcases hB : hookBody h hooksPath ex cp [] w hook with ⟨w1, r1⟩
    rw [hB] at t1 sh
    simp only at t1 sh
    unfold hookLoop
    rw [hB]
    rcases sh with ⟨x, rfl, rfl, -, l1⟩ | ⟨x, rfl, rfl, -, l1⟩ | ⟨e3, rfl, rfl, f1, l1⟩
    · refine ⟨_, [], [], t1, by simpa using l1, ?_, ?_, ?_, ?_⟩
      · intro r hr y hy
        simp only [List.mem_singleton] at hr
        subst hr
        exact Or.inr hy
      · intro r hr
        simp only [List.mem_singleton] at hr
        subst hr
        exact ⟨hook, List.mem_cons_self _ _, Or.inl rfl⟩
      · intro y hy
        exact ⟨_, List.mem_singleton.mpr rfl, hy⟩
      · intro hh; simp at hh
    · refine ⟨_, [], [], t1, by simpa using l1, ?_, ?_, ?_, ?_⟩
      · intro r hr y hy
        simp only [List.mem_cons, List.mem_singleton, List.not_mem_nil, or_false] at hr
        rcases hr with rfl | rfl
        · simp at hy
        · exact Or.inr hy
      · intro r hr
        simp only [List.mem_cons, List.mem_singleton, List.not_mem_nil, or_false] at hr
        rcases hr with rfl | rfl
        · exact ⟨hook, List.mem_cons_self _ _, Or.inl rfl⟩
        · exact ⟨hook, List.mem_cons_self _ _, Or.inr (Or.inl rfl)⟩
      · intro y hy
        exact ⟨_, List.mem_cons_of_mem _ (List.mem_singleton.mpr rfl), hy⟩
      · intro hh; simp at hh
    · simp only
      obtain ⟨new2, bs, log2, t2, l2, e2, q2, x2, f2⟩ :=
        ih (fun k hk => hord k (List.mem_cons_of_mem _ hk)) w1
      refine ⟨[⟨.writeFile, h.resolve hooksPath ++ [hook], none⟩,
        ⟨.mkdirAll, h.resolve hooksPath ++ [hook ++ ".d"], none⟩,
        ⟨.writeFile, h.resolve hooksPath ++ [hook ++ ".d", "soft-serve"], e3⟩] ++ new2,
        (hook, e3.isNone) :: bs,
        (e3.toList.map fun x => ("failed to write hook", x)) ++ log2, ?_, ?_, ?_, ?_, ?_, ?_⟩
      · rw [t2, t1, List.append_assoc]
      · exact l2.trans (by simp only [l1, List.append_assoc])
      · intro r hr y hy
        rcases List.mem_append.mp hr with hr | hr
        · simp only [List.mem_cons, List.mem_singleton, List.not_mem_nil, or_false] at hr
          rcases hr with rfl | rfl | rfl
          · simp at hy
          · simp at hy
          · simp only at hy
            subst hy
            exact Or.inl ⟨⟨hook, List.mem_cons_self _ _, rfl⟩, by simp⟩
        · rcases e2 r hr y hy with ⟨⟨k, hk, hh⟩, hl⟩ | hh
          · exact Or.inl ⟨⟨k, List.mem_cons_of_mem _ hk, hh⟩, List.mem_append_right _ hl⟩
          · exact Or.inr hh
      · intro r hr
        rcases List.mem_append.mp hr with hr | hr
        · simp only [List.mem_cons, List.mem_singleton, List.not_mem_nil, or_false] at hr
          rcases hr with rfl | rfl | rfl
          · exact ⟨hook, List.mem_cons_self _ _, Or.inl rfl⟩
          · exact ⟨hook, List.mem_cons_self _ _, Or.inr (Or.inl rfl)⟩
          · exact ⟨hook, List.mem_cons_self _ _, Or.inr (Or.inr rfl)⟩
        · obtain ⟨k, hk, hh⟩ := q2 r hr
          exact ⟨k, List.mem_cons_of_mem _ hk, hh⟩
      · intro y hy
        obtain ⟨r, hr, hh⟩ := x2 y hy
        exact ⟨r, List.mem_append_right _ hr, hh⟩
      · intro hnone
        obtain ⟨m2, g2, a2, s2⟩ := f2 hnone
        refine ⟨by simp [m2], ?_, ?_, ?_⟩
        · rw [g2, f1]; simp [loopFS]
        · intro hall hb hhb
          rcases List.mem_cons.mp hhb with rfl | hhb
          · have := hall ⟨.writeFile, h.resolve hooksPath ++ [hook ++ ".d", "soft-serve"], e3⟩
              (by simp)
            simp only at this
            simp [this]
          · exact a2 (fun r hr => hall r (List.mem_append_right _ hr)) hb hhb
        · intro k hk
          rcases List.mem_cons.mp hk with rfl | hk
          · exact ⟨by simp, by simp⟩
          · exact ⟨List.mem_append_right _ (s2 k hk).1, List.mem_append_right _ (s2 k hk).2⟩

/-- The loop over hook types, in the order of its operations: a failed write of a
dispatcher or creation of a drop-in directory is the last operation and its error is
returned; a failed write of an entry is logged and followed by the write of the next
dispatcher or, at the last hook type, by the nil return. -/
theorem hookLoop_order (h : Host) (hooksPath : CleanPath) (ex cp : String) (hs : List String)
    (hord : ∀ hook ∈ hs, ordinary hook ∧ ordinary (hook ++ ".d")) :
    ∀ w : World, ∃ (new : List OpRecord) (newlog : List (String × Error)),
      (hookLoop h hooksPath ex cp [] w hs).1.trace = w.trace ++ new ∧
      (hookLoop h hooksPath ex cp [] w hs).1.logged = w.logged ++ newlog ∧
      (new = [] → (hookLoop h hooksPath ex cp [] w hs).2 = none) ∧
      (∀ r rest, new = r :: rest →
        ∃ hook ∈ hs, r.kind = .writeFile ∧ r.path = h.resolve hooksPath ++ [hook]) ∧
      (∀ r post, (r :: post) <:+ new → ∀ x, r.err = some x →
        ((∃ hook ∈ hs,
            r = ⟨.writeFile, h.resolve hooksPath ++ [hook ++ ".d", "soft-serve"], some x⟩) ∧
          ("failed to write hook", x) ∈ newlog ∧
          (post = [] → (hookLoop h hooksPath ex cp [] w hs).2 = none) ∧
          (∀ r1 post1, post = r1 :: post1 →
            ∃ hook ∈ hs, r1.kind = .writeFile ∧ r1.path = h.resolve hooksPath ++ [hook])) ∨
        ((r.kind = .mkdirAll ∨ ∃ hook ∈ hs, r.path = h.resolve hooksPath ++ [hook]) ∧
          post = [] ∧ (hookLoop h hooksPath ex cp [] w hs).2 = some x)) ∧
      (∀ y, (hookLoop h hooksPath ex cp [] w hs).2 = some y →
        ∃ pre r, new = pre ++ [r] ∧ r.err = some y ∧
          (r.kind = .mkdirAll ∨ ∃ hook ∈ hs, r.path = h.resolve hooksPath ++ [hook])) := by
  induction hs with
  | nil =>
    intro w
    refine ⟨[], [], by simp [hookLoop], by simp [hookLoop], fun _ => by simp [hookLoop],
      ?_, ?_, ?_⟩
    · intro r rest hh; simp at hh
    · intro r post hh; simp at hh
    · intro y hy; simp [hookLoop] at hy
  | cons hook rest ih =>
    intro w
    have ho := hord hook (List.mem_cons_self _ _)
    obtain ⟨new1, t1, sh⟩ := hookBody_spec h hooksPath ex cp w hook ho.1 ho.2
    rcases hB : hookBody h hooksPath ex cp [] w hook with ⟨w1, r1⟩
    rw [hB] at t1 sh
    simp only at t1 sh
    unfold hookLoop
    rw [hB]
    rcases sh with ⟨x, rfl, rfl, -, l1⟩ | ⟨x, rfl, rfl, -, l1⟩ | ⟨e3, rfl, rfl, -, l1⟩
    · refine ⟨_, [], t1, by simpa using l1, ?_, ?_, ?_, ?_⟩
      · intro hh; simp at hh
      · intro r rest1 hh
        simp only [List.cons.injEq] at hh
        obtain ⟨rfl, -⟩ := hh
        exact ⟨hook, List.mem_cons_self _ _, rfl, rfl⟩
      · intro r post hsuf y hy
        rcases List.suffix_cons_iff.mp hsuf with hh | hh
        · simp only [List.cons.injEq] at hh
          obtain ⟨rfl, rfl⟩ := hh
          simp only [Option.some.injEq] at hy
          subst hy
          exact Or.inr ⟨Or.inr ⟨hook, List.mem_cons_self _ _, rfl⟩, rfl, rfl⟩
        · simp at hh
      · intro y hy
        simp only [Option.some.injEq] at hy
        subst hy
        exact ⟨[], _, rfl, rfl, Or.inr ⟨hook, List.mem_cons_self _ _, rfl⟩⟩
    · refine ⟨_, [], t1, by simpa using l1, ?_, ?_, ?_, ?_⟩
      · intro hh; simp at hh
      · intro r rest1 hh
        simp only [List.cons.injEq] at hh
        obtain ⟨rfl, -⟩ := hh
        exact ⟨hook, List.mem_cons_self _ _, rfl, rfl⟩
      · intro r post hsuf y hy
        rcases List.suffix_cons_iff.mp hsuf with hh | hh
        · simp only [List.cons.injEq] at hh
          obtain ⟨rfl, -⟩ := hh
          simp at hy
        rcases List.suffix_cons_iff.mp hh with hh | hh
        · simp only [List.cons.injEq] at hh
          obtain ⟨rfl, rfl⟩ := hh
          simp only [Option.some.injEq] at hy
          subst hy
          exact Or.inr ⟨Or.inl rfl, rfl, rfl⟩
        · simp at hh
      · intro y hy
        simp only [Option.some.injEq] at hy
        subst hy
        exact ⟨[_], _, rfl, rfl, Or.inl rfl⟩
    · simp only
      obtain ⟨new2, log2, t2, l2, n2, f2, s2, y2⟩ :=
        ih (fun k hk => hord k (List.mem_cons_of_mem _ hk)) w1
      refine ⟨[⟨.writeFile, h.resolve hooksPath ++ [hook], none⟩,
        ⟨.mkdirAll, h.resolve hooksPath ++ [hook ++ ".d"], none⟩,
        ⟨.writeFile, h.resolve hooksPath ++ [hook ++ ".d", "soft-serve"], e3⟩] ++ new2,
        (e3.toList.map fun x => ("failed to write hook", x)) ++ log2, ?_, ?_, ?_, ?_, ?_, ?_⟩
      · rw [t2, t1, List.append_assoc]
      · exact l2.trans (by simp only [l1, List.append_assoc])
      · intro hh; simp at hh
      · intro r rest1 hh
        simp only [List.cons_append, List.cons.injEq] at hh
        obtain ⟨rfl, -⟩ := hh
        exact ⟨hook, List.mem_cons_self _ _, rfl, rfl⟩
      · intro r post hsuf y hy
        simp only [List.cons_append, List.nil_append] at hsuf
        rcases List.suffix_cons_iff.mp hsuf with hh | hh
        · simp only [List.cons.injEq] at hh
          obtain ⟨rfl, -⟩ := hh
          simp at hy
        rcases List.suffix_cons_iff.mp hh with hh | hh
        · simp only [List.cons.injEq] at hh
          obtain ⟨rfl, -⟩ := hh
          simp at hy
        rcases List.suffix_cons_iff.mp hh with hh | hh
        · simp only [List.cons.injEq] at hh
          obtain ⟨rfl, rfl⟩ := hh
          simp only at hy
          subst hy
          refine Or.inl ⟨⟨hook, List.mem_cons_self _ _, rfl⟩, by simp, n2, ?_⟩
          intro r1 post1 hp
          obtain ⟨k, hk, hh⟩ := f2 r1 post1 hp
          exact ⟨k, List.mem_cons_of_mem _ hk, hh⟩
        · rcases s2 r post hh y hy with ⟨⟨k, hk, hr⟩, hl, hn, hf⟩ | ⟨hk, hp, hres⟩
          · refine Or.inl ⟨⟨k, List.mem_cons_of_mem _ hk, hr⟩, List.mem_append_right _ hl, hn, ?_⟩
            intro r1 post1 hp
            obtain ⟨k1, hk1, hh1⟩ := hf r1 post1 hp
            exact ⟨k1, List.mem_cons_of_mem _ hk1, hh1⟩
          · refine Or.inr ⟨?_, hp, hres⟩
            rcases hk with hk | ⟨k, hk, hh1⟩
            · exact Or.inl hk
            · exact Or.inr ⟨k, List.mem_cons_of_mem _ hk, hh1⟩
      · intro y hy
        obtain ⟨pre, r, hn, hr, hk⟩ := y2 y hy
        refine ⟨[⟨.writeFile, h.resolve hooksPath ++ [hook], none⟩,
          ⟨.mkdirAll, h.resolve hooksPath ++ [hook ++ ".d"], none⟩,
          ⟨.writeFile, h.resolve hooksPath ++ [hook ++ ".d", "soft-serve"], e3⟩] ++ pre, r,
          by rw [hn, List.append_assoc], hr, ?_⟩
        rcases hk with hk | ⟨k, hk, hh1⟩
        · exact Or.inl hk
        · exact Or.inr ⟨k, List.mem_cons_of_mem _ hk, hh1⟩

theorem hookNames_ordinary : ∀ hook ∈ hookNames, ordinary hook ∧ ordinary (hook ++ ".d") := by
  decide

/-- The state after a successful `MkdirAll` alone, as an installation without hook
types. -/
theorem mkdirFill_eq_installedWith (m : Nat) (H : Path) (fs : FS) :
    mkdirFill m fs H = installedWith m H "" "" [] fs := by
  funext q
  unfold mkdirFill installedWith slotOf
  split
  · cases fs q <;> rfl
  · rfl

/-- The whole of `GenerateHooks`: every failed operation other than the write of a
`soft-serve` entry is the returned error, and such a failed write is logged; after a
nil return the state is the one the successful rounds leave. -/
theorem GenerateHooksFrom_spec (h : Host) (cfg : Config) (repo : String) (w : World) :
    ∃ (new : List OpRecord),
      (GenerateHooksFrom h cfg repo w).1.trace = w.trace ++ new ∧
      (∀ r ∈ new, ∀ x, r.err = some x →
        ((∃ hook ∈ hookNames, r = ⟨.writeFile,
            h.resolve (hooksPathOf h cfg repo) ++ [hook ++ ".d", "soft-serve"], some x⟩) ∧
          ("failed to write hook", x) ∈ (GenerateHooksFrom h cfg repo w).1.logged) ∨
          (GenerateHooksFrom h cfg repo w).2 = some x) ∧
      (∀ r ∈ new, r.path = h.resolve (hooksPathOf h cfg repo) ∨
        ∃ hook ∈ hookNames, r.path = h.resolve (hooksPathOf h cfg repo) ++ [hook] ∨
          r.path = h.resolve (hooksPathOf h cfg repo) ++ [hook ++ ".d"] ∨
          r.path = h.resolve (hooksPathOf h cfg repo) ++ [hook ++ ".d", "soft-serve"]) ∧
      ((GenerateHooksFrom h cfg repo w).2 ≠ none → (∀ r ∈ new, r.err = none) →
        (GenerateHooksFrom h cfg repo w).1.fs =
            mkdirFill (withUmask h.umask ModePerm) w.fs (h.resolve (hooksPathOf h cfg repo)) ∧
          (h.Executable.toOption = none ∨ (filepath.Abs h cfg.DataPath).toOption = none)) ∧
      ((GenerateHooksFrom h cfg repo w).2 = none →
        ∃ (ex : String) (dp : CleanPath) (bs : List (String × Bool)),
          h.Executable = .ok ex ∧ filepath.Abs h cfg.DataPath = .ok dp ∧
          bs.map Prod.fst = hookNames ∧
          (GenerateHooksFrom h cfg repo w).1.fs =
            loopFS (withUmask h.umask ModePerm) (h.resolve (hooksPathOf h cfg repo)) ex
              (dp.join "config.yaml").toString
              (mkdirFill (withUmask h.umask ModePerm) w.fs
                (h.resolve (hooksPathOf h cfg repo))) bs ∧
          ((∀ r ∈ new, r.err = none) → ∀ hb ∈ bs, hb.2 = true) ∧
          (⟨.mkdirAll, h.resolve (hooksPathOf h cfg repo), none⟩ : OpRecord) ∈ new ∧
          (∀ hook ∈ hookNames,
            (⟨.writeFile, h.resolve (hooksPathOf h cfg repo) ++ [hook], none⟩ : OpRecord) ∈ new ∧
            (⟨.mkdirAll, h.resolve (hooksPathOf h cfg repo) ++ [hook ++ ".d"], none⟩ :
              OpRecord) ∈ new)) := by
  unfold GenerateHooksFrom
  simp only
  have hP : filepath.Join [cfg.DataPath, "repos", h.SanitizeRepo repo ++ ".git", "hooks"] =
      hooksPathOf h cfg repo := rfl
  rw [hP]
  obtain ⟨t0, -, f0, -⟩ := MkdirAll_spec h w (hooksPathOf h cfg repo) ModePerm
  rcases hM : MkdirAll h w (hooksPathOf h cfg repo) ModePerm with ⟨w0, e0⟩
  rw [hM] at t0 f0
  simp only at t0 f0
  have hone : ∀ (e : Option Error), ∀ r ∈ [(⟨.mkdirAll, h.resolve (hooksPathOf h cfg repo), e⟩ :
      OpRecord)], r.path = h.resolve (hooksPathOf h cfg repo) ∨
        ∃ hook ∈ hookNames, r.path = h.resolve (hooksPathOf h cfg repo) ++ [hook] ∨
          r.path = h.resolve (hooksPathOf h cfg repo) ++ [hook ++ ".d"] ∨
          r.path = h.resolve (hooksPathOf h cfg repo) ++ [hook ++ ".d", "soft-serve"] := by
    intro e r hr
    simp only [List.mem_singleton] at hr
    subst hr
    exact Or.inl rfl
  cases e0 with
  | some x =>
    refine ⟨[⟨.mkdirAll, h.resolve (hooksPathOf h cfg repo), some x⟩], t0, ?_, hone _, ?_, ?_⟩
    · intro r hr y hy
      simp only [List.mem_singleton] at hr
      subst hr
      right; simpa using hy
    · intro _ hall
      have := hall _ (List.mem_singleton.mpr rfl)
      simp at this
    · intro hh; simp at hh
  | none =>
    simp only
    cases hE : h.Executable with
    | error err =>
      refine ⟨[⟨.mkdirAll, h.resolve (hooksPathOf h cfg repo), none⟩], t0, ?_, hone _, ?_, ?_⟩
      · intro r hr y hy
        simp only [List.mem_singleton] at hr
        subst hr
        simp at hy
      · intro _ _
        exact ⟨f0 rfl, Or.inl rfl⟩
      · intro hh; simp at hh
    | ok ex =>
      simp only
      cases hA : filepath.Abs h cfg.DataPath with
      | error err =>
        refine ⟨[⟨.mkdirAll, h.resolve (hooksPathOf h cfg repo), none⟩], t0, ?_, hone _, ?_, ?_⟩
        · intro r hr y hy
          simp only [List.mem_singleton] at hr
          subst hr
          simp at hy
        · intro _ _
          exact ⟨f0 rfl, Or.inr rfl⟩
        · intro hh; simp at hh
      | ok dp =>
        simp only
        obtain ⟨new, bs, newlog, t1, l1, e1, q1, x1, f1⟩ :=
          hookLoop_spec h (hooksPathOf h cfg repo) ex
            (dp.join "config.yaml").toString hookNames hookNames_ordinary w0
        refine ⟨⟨.mkdirAll, h.resolve (hooksPathOf h cfg repo), none⟩ :: new, ?_, ?_, ?_, ?_, ?_⟩
        · rw [t1, t0]; simp
        · intro r hr y hy
          rcases List.mem_cons.mp hr with rfl | hr
          · simp at hy
          · rcases e1 r hr y hy with ⟨hh, hl⟩ | hh
            · exact Or.inl ⟨hh, by rw [l1]; exact List.mem_append_right _ hl⟩
            · exact Or.inr hh
        · intro r hr
          rcases List.mem_cons.mp hr with rfl | hr
          · exact Or.inl rfl
          · exact Or.inr (q1 r hr)
        · intro hne hall
          exfalso
          cases hres : (hookLoop h (hooksPathOf h cfg repo) ex (dp.join "config.yaml").toString
            [] w0 hookNames).2 with
          | none => exact hne hres
          | some y =>
            obtain ⟨r, hr, hh⟩ := x1 y hres
            have := hall r (List.mem_cons_of_mem _ hr)
            rw [hh] at this
            simp at this
        · intro hnone
          obtain ⟨m1, g1, a1, s1⟩ := f1 hnone
          refine ⟨ex, dp, bs, rfl, rfl, m1, ?_, ?_, List.mem_cons_self _ _, ?_⟩
          · rw [g1, f0 rfl]
          · intro hall
            exact a1 (fun r hr => hall r (List.mem_cons_of_mem _ hr))
          · intro k hk
            exact ⟨List.mem_cons_of_mem _ (s1 k hk).1, List.mem_cons_of_mem _ (s1 k hk).2⟩

/-! ### The state an installation leaves, path by path -/

/-- The operations of `GenerateHooks` in their order: a failed creation of a directory
or write of a dispatcher is the last operation and its error is returned; a failed
write of an entry is logged and followed by the write of the next dispatcher or, at
the last hook type, by the nil return; a returned error is that of the last
operation, which then is no write of an entry, or comes from `os.Executable` or
`filepath.Abs`. -/
theorem GenerateHooksFrom_order (h : Host) (cfg : Config) (repo : String) (w : World) :
    ∃ (new : List OpRecord),
      (GenerateHooksFrom h cfg repo w).1.trace = w.trace ++ new ∧
      (∀ r post, (r :: post) <:+ new → ∀ x, r.err = some x →
        ((∃ hook ∈ hookNames, r = ⟨.writeFile,
            h.resolve (hooksPathOf h cfg repo) ++ [hook ++ ".d", "soft-serve"], some x⟩) ∧
          ("failed to write hook", x) ∈ (GenerateHooksFrom h cfg repo w).1.logged ∧
          (post = [] → (GenerateHooksFrom h cfg repo w).2 = none) ∧
          (∀ r1 post1, post = r1 :: post1 → ∃ hook ∈ hookNames,
            r1.kind = .writeFile ∧ r1.path = h.resolve (hooksPathOf h cfg repo) ++ [hook])) ∨
        ((r.kind = .mkdirAll ∨
            ∃ hook ∈ hookNames, r.path = h.resolve (hooksPathOf h cfg repo) ++ [hook]) ∧
          post = [] ∧ (GenerateHooksFrom h cfg repo w).2 = some x)) ∧
      (∀ y, (GenerateHooksFrom h cfg repo w).2 = some y →
        (∃ pre r, new = pre ++ [r] ∧ r.err = some y ∧
          (r.kind = .mkdirAll ∨
            ∃ hook ∈ hookNames, r.path = h.resolve (hooksPathOf h cfg repo) ++ [hook])) ∨
        h.Executable = .error y ∨
        ∃ e, filepath.Abs h cfg.DataPath = .error e ∧
          y = .wrapped "failed to get absolute path for data path" e) := by
  unfold GenerateHooksFrom
  simp only
  have hP : filepath.Join [cfg.DataPath, "repos", h.SanitizeRepo repo ++ ".git", "hooks"] =
      hooksPathOf h cfg repo := rfl
  rw [hP]
  obtain ⟨t0, l0, -, -⟩ := MkdirAll_spec h w (hooksPathOf h cfg repo) ModePerm
  rcases hM : MkdirAll h w (hooksPathOf h cfg repo) ModePerm with ⟨w0, e0⟩
  rw [hM] at t0 l0
  simp only at t0 l0
  cases e0 with
  | some x =>
    refine ⟨[⟨.mkdirAll, h.resolve (hooksPathOf h cfg repo), some x⟩], t0, ?_, ?_⟩
    · intro r post hsuf y hy
      rcases List.suffix_cons_iff.mp hsuf with hh | hh
      · simp only [List.cons.injEq] at hh
        obtain ⟨rfl, rfl⟩ := hh
        simp only [Option.some.injEq] at hy
        subst hy
        exact Or.inr ⟨Or.inl rfl, rfl, rfl⟩
      · simp at hh
    · intro y hy
      simp only [Option.some.injEq] at hy
      subst hy
      exact Or.inl ⟨[], _, rfl, rfl, Or.inl rfl⟩
  | none =>
    simp only
    have hvac : ∀ (r : OpRecord) (post : List OpRecord),
        (r :: post) <:+ [(⟨.mkdirAll, h.resolve (hooksPathOf h cfg repo), none⟩ : OpRecord)] →
        ∀ x, r.err = some x → False := by
      intro r post hsuf y hy
      rcases List.suffix_cons_iff.mp hsuf with hh | hh
      · simp only [List.cons.injEq] at hh
        obtain ⟨rfl, -⟩ := hh
        simp at hy
      · simp at hh
    cases hE : h.Executable with
    | error err =>
      refine ⟨[⟨.mkdirAll, h.resolve (hooksPathOf h cfg repo), none⟩], t0, ?_, ?_⟩
      · intro r post hsuf y hy
        exact absurd (hvac r post hsuf y hy) id
      · intro y hy
        simp only [Option.some.injEq] at hy
        subst hy
        exact Or.inr (Or.inl rfl)
    | ok ex =>
      simp only
      cases hA : filepath.Abs h cfg.DataPath with
      | error err =>
        refine ⟨[⟨.mkdirAll, h.resolve (hooksPathOf h cfg repo), none⟩], t0, ?_, ?_⟩
        · intro r post hsuf y hy
          exact absurd (hvac r post hsuf y hy) id
        · intro y hy
          simp only [Option.some.injEq] at hy
          subst hy
          exact Or.inr (Or.inr ⟨err, rfl, rfl⟩)
      | ok dp =>
        simp only
        obtain ⟨new, newlog, t1, l1, -, -, s1, y1⟩ :=
          hookLoop_order h (hooksPathOf h cfg repo) ex
            (dp.join "config.yaml").toString hookNames hookNames_ordinary w0
        refine ⟨⟨.mkdirAll, h.resolve (hooksPathOf h cfg repo), none⟩ :: new, ?_, ?_, ?_⟩
        · rw [t1, t0]; simp
        · intro r post hsuf y hy
          rcases List.suffix_cons_iff.mp hsuf with hh | hh
          · simp only [List.cons.injEq] at hh
            obtain ⟨rfl, -⟩ := hh
            simp at hy
          · rcases s1 r post hh y hy with ⟨hr, hl, hn, hf⟩ | hh1
            · exact Or.inl ⟨hr, by rw [l1]; exact List.mem_append_right _ hl, hn, hf⟩
            · exact Or.inr hh1
        · intro y hy
          obtain ⟨pre, r, hn, hr, hk⟩ := y1 y hy
          exact Or.inl ⟨⟨.mkdirAll, h.resolve (hooksPathOf h cfg repo), none⟩ :: pre, r,
            by rw [hn]; rfl, hr, hk⟩

theorem fillSlot_dir_idem (m : Nat) (n : Option Node) :
    fillSlot m (some .dirSlot) (fillSlot m (some .dirSlot) n) = fillSlot m (some .dirSlot) n := by
  cases n <;> rfl

/-- One round of the loop, path by path. -/
theorem bodyFS_apply (m : Nat) (H : Path) (ex cp : String) (fs : FS) (hook : String)
    (b : Bool) (hne : hook ≠ hook ++ ".d") (q : Path) :
    bodyFS m H ex cp fs (hook, b) q =
      fillSlot m
        (if q = H ++ [hook] then some (.fileSlot hookTemplate)
         else if q ≠ [] ∧ q <+: H ++ [hook ++ ".d"] then some .dirSlot
         else if b = true ∧ q = H ++ [hook ++ ".d", "soft-serve"] then
           some (.fileSlot (entryText ex cp hook))
         else none) (fs q) := by
  have hd : ¬ (H ++ [hook] <+: H ++ [hook ++ ".d"]) := by
    rw [List.prefix_append_right_inj, List.cons_prefix_cons]
    exact fun hh => hne hh.1
  have he : ¬ (H ++ [hook ++ ".d", "soft-serve"] <+: H ++ [hook ++ ".d"]) := by
    rw [List.prefix_append_right_inj, List.cons_prefix_cons]
    simp
  have hde : H ++ [hook ++ ".d", "soft-serve"] ≠ H ++ [hook] := by simp
  by_cases h1 : q = H ++ [hook]
  · subst h1
    cases b <;> cases hfs : fs (H ++ [hook]) with
    | none => simp [bodyFS, writeFill, mkdirFill, FS.set, hd, hfs, fillSlot]
    | some n => cases n <;> simp [bodyFS, writeFill, mkdirFill, FS.set, hd, hfs, fillSlot]
  · by_cases h2 : q ≠ [] ∧ q <+: H ++ [hook ++ ".d"]
    · have h3 : q ≠ H ++ [hook ++ ".d", "soft-serve"] := fun hh => he (hh ▸ h2.2)
      rw [if_neg h1, if_pos h2]
      cases b <;> cases hfs : fs q with
      | none => simp [bodyFS, writeFill, mkdirFill, FS.set, h1, h2, h3, hfs, fillSlot]
      | some n => simp [bodyFS, writeFill, mkdirFill, FS.set, h1, h2, h3, hfs, fillSlot]
    · rw [if_neg h1, if_neg h2]
      by_cases h3 : q = H ++ [hook ++ ".d", "soft-serve"]
      · subst h3
        cases b <;> cases hfs : fs (H ++ [hook ++ ".d", "soft-serve"]) with
        | none => simp [bodyFS, writeFill, mkdirFill, FS.set, he, hfs, fillSlot]
        | some n => cases n <;> simp [bodyFS, writeFill, mkdirFill, FS.set, he, hfs, fillSlot]
      · cases b <;> simp [bodyFS, writeFill, mkdirFill, FS.set, h1, h2, h3, fillSlot]

theorem ne_of_prefix (H q : Path) (a : String) (l : List String) (h : q <+: H) :
    q ≠ H ++ a :: l :=
  fun e => not_concat_prefix H a l (e ▸ h)

theorem prefix_concat_of_not (H q : Path) (x : String) (hA : ¬ (q ≠ [] ∧ q <+: H)) :
    (q ≠ [] ∧ q <+: H ++ [x]) ↔ q = H ++ [x] := by
  rw [List.prefix_concat_iff]
  constructor
  · rintro ⟨h1, h2 | h2⟩
    · exact h2
    · exact absurd ⟨h1, h2⟩ hA
  · rintro rfl
    exact ⟨by simp, Or.inl rfl⟩

/-- The state the loop leaves after a successful `MkdirAll` of the hooks directory,
path by path. -/
theorem loopFS_eq (m : Nat) (H : Path) (ex cp : String) (fs : FS)
    (bs : List (String × Bool)) (hmap : bs.map Prod.fst = hookNames) :
    loopFS m H ex cp (mkdirFill m fs H) bs = installedWith m H ex cp bs fs := by
  rcases bs with _ | ⟨⟨k1, b1⟩, _ | ⟨⟨k2, b2⟩, _ | ⟨⟨k3, b3⟩, _ | ⟨⟨k4, b4⟩, _ | _⟩⟩⟩⟩ <;>
    simp [hookNames] at hmap
  obtain ⟨rfl, rfl, rfl, rfl⟩ := hmap
  funext q
  simp only [loopFS, List.foldl, installedWith, slotOf, slotIn]
  rw [bodyFS_apply _ _ _ _ _ _ _ (by decide), bodyFS_apply _ _ _ _ _ _ _ (by decide),
    bodyFS_apply _ _ _ _ _ _ _ (by decide), bodyFS_apply _ _ _ _ _ _ _ (by decide)]
  have hm : mkdirFill m fs H q =
      fillSlot m (if q ≠ [] ∧ q <+: H then some .dirSlot else none) (fs q) := by
    unfold mkdirFill
    split
    · cases fs q <;> rfl
    · rfl
  rw [hm]
  by_cases hA : q ≠ [] ∧ q <+: H
  · have e1 := fun (a : String) => ne_of_prefix H q a [] hA.2
    have e2 := fun (a : String) => List.prefix_concat_iff.mpr (Or.inr hA.2 : q = H ++ [a] ∨ q <+: H)
    simp only [hA, e1, e2, if_true, if_false, and_self, not_false_eq_true, ne_eq,
      fillSlot_dir_idem]
  · simp only [prefix_concat_of_not H q _ hA, if_neg hA]
    simp only [PreReceiveHook, UpdateHook, PostReceiveHook, PostUpdateHook]
    by_cases h1 : q = H ++ ["pre-receive"]
    · subst h1; simp [fillSlot]
    by_cases h2 : q = H ++ ["pre-receive.d"]
    · subst h2; simp [fillSlot]
    by_cases h3 : q = H ++ ["pre-receive.d", "soft-serve"]
    · subst h3; cases b1 <;> simp [fillSlot]
    by_cases h4 : q = H ++ ["update"]
    · subst h4; simp [fillSlot]
    by_cases h5 : q = H ++ ["update.d"]
    · subst h5; simp [fillSlot]
    by_cases h6 : q = H ++ ["update.d", "soft-serve"]
    · subst h6; cases b2 <;> simp [fillSlot]
    by_cases h7 : q = H ++ ["post-receive"]
    · subst h7; simp [fillSlot]
    by_cases h8 : q = H ++ ["post-receive.d"]
    · subst h8; simp [fillSlot]
    by_cases h9 : q = H ++ ["post-receive.d", "soft-serve"]
    · subst h9; cases b3 <;> simp [fillSlot]
    by_cases h10 : q = H ++ ["post-update"]
    · subst h10; simp [fillSlot]
    by_cases h11 : q = H ++ ["post-update.d"]
    · subst h11; simp [fillSlot]
    by_cases h12 : q = H ++ ["post-update.d", "soft-serve"]
    · subst h12; cases b4 <;> simp [fillSlot]
    simp [h1, h2, h3, h4, h5, h6, h7, h8, h9, h10, h11, h12, fillSlot]

theorem flags_all_true (hs : List String) :
    ∀ bs : List (String × Bool), bs.map Prod.fst = hs → (∀ hb ∈ bs, hb.2 = true) →
      bs = hs.map fun k => (k, true) := by
  induction hs with
  | nil => intro bs h _; simpa using h
  | cons k hs ih =>
    intro bs h hall
    cases bs with
    | nil => simp at h
    | cons hb bs =>
      obtain ⟨k1, b1⟩ := hb
      simp only [List.map_cons, List.cons.injEq] at h
      obtain ⟨rfl, h2⟩ := h
      have hb1 : b1 = true := hall (k1, b1) (List.mem_cons_self _ _)
      subst hb1
      rw [List.map_cons, ih bs h2 (fun x hx => hall x (List.mem_cons_of_mem _ hx))]

/-- A run in which every file system operation succeeds: its final state, path by
path. -/
theorem GenerateHooks_ok_fs (h : Host) (cfg : Config) (repo : String) (fs : FS)
    (hok : ∀ r ∈ (GenerateHooks h cfg repo fs).1.trace, r.err = none) :
    (GenerateHooks h cfg repo fs).1.fs =
      fun q => fillSlot (withUmask h.umask ModePerm) (outcomeSlots h cfg repo q) (fs q) := by
  obtain ⟨new, t, -, -, herr, hnil⟩ := GenerateHooksFrom_spec h cfg repo ⟨fs, [], []⟩
  have ht : (GenerateHooks h cfg repo fs).1.trace = new := by simpa using t
  rw [ht] at hok
  cases hres : (GenerateHooksFrom h cfg repo ⟨fs, [], []⟩).2 with
  | none =>
    obtain ⟨ex, dp, bs, hE, hA, hm, hfs, hb, -⟩ := hnil hres
    have hbs := flags_all_true hookNames bs hm (hb hok)
    unfold GenerateHooks
    rw [hfs, loopFS_eq _ _ _ _ _ _ hm, hbs]
    funext q
    simp [installedWith, outcomeSlots, hE, hA]
  | some x =>
    obtain ⟨hfs, hc⟩ := herr (by simp [hres]) hok
    unfold GenerateHooks
    rw [hfs, mkdirFill_eq_installedWith]
    funext q
    rcases hc with hc | hc
    · cases hE : h.Executable with
      | ok ex => simp [hE, Except.toOption] at hc
      | error e => simp [installedWith, outcomeSlots, hE]
    · cases hA : filepath.Abs h cfg.DataPath with
      | ok dp => simp [hA, Except.toOption] at hc
      | error e =>
        cases hE : h.Executable <;> simp [installedWith, outcomeSlots, hE, hA]

theorem fillSlot_idem (m : Nat) (s : Option Slot) (n : Option Node) :
    fillSlot m s (fillSlot m s n) = fillSlot m s n := by
  rcases s with _ | _ | c
  · rfl
  · cases n <;> rfl
  · rcases n with _ | _ | _ <;> rfl

theorem slotIn_deep (H : Path) (ex cp : String) (a b : String) (rest : List String) :
    ∀ bs : List (String × Bool), slotIn H ex cp (H ++ a :: b :: rest) bs ≠ none →
      b = "soft-serve" ∧ rest = [] := by
  intro bs
  induction bs with
  | nil => intro h; simp [slotIn] at h
  | cons hb bs ih =>
    obtain ⟨k, f⟩ := hb
    intro h
    simp only [slotIn, List.append_cancel_left_eq, List.cons.injEq, List.cons_ne_nil,
      and_false, if_false] at h
    by_cases hc : f = true ∧ a = k ++ ".d" ∧ b = "soft-serve" ∧ rest = []
    · exact ⟨hc.2.2.1, hc.2.2.2⟩
    · rw [if_neg hc] at h
      exact ih h

theorem slotOf_dispatcher (H : Path) (ex cp : String) (bs : List (String × Bool))
    (hm : bs.map Prod.fst = hookNames) (hook : String) (hk : hook ∈ hookNames) :
    slotOf H ex cp bs (H ++ [hook]) = some (.fileSlot hookTemplate) := by
  rcases bs with _ | ⟨⟨k1, b1⟩, _ | ⟨⟨k2, b2⟩, _ | ⟨⟨k3, b3⟩, _ | ⟨⟨k4, b4⟩, _ | _⟩⟩⟩⟩ <;>
    simp [hookNames] at hm
  obtain ⟨rfl, rfl, rfl, rfl⟩ := hm
  simp only [hookNames, List.mem_cons, List.mem_singleton, List.not_mem_nil, or_false] at hk
  rcases hk with rfl | rfl | rfl | rfl <;>
    simp [slotOf, slotIn, not_concat_prefix, PreReceiveHook, UpdateHook, PostReceiveHook,
      PostUpdateHook]

theorem slotOf_dropin (H : Path) (ex cp : String) (hook : String) (hk : hook ∈ hookNames) :
    slotOf H ex cp (hookNames.map fun k => (k, true)) (H ++ [hook ++ ".d"]) =
      some .dirSlot := by
  simp only [hookNames, List.mem_cons, List.mem_singleton, List.not_mem_nil, or_false] at hk
  rcases hk with rfl | rfl | rfl | rfl <;>
    simp [slotOf, slotIn, not_concat_prefix, hookNames, PreReceiveHook, UpdateHook,
      PostReceiveHook, PostUpdateHook]

theorem slotOf_entry (H : Path) (ex cp : String) (hook : String) (hk : hook ∈ hookNames) :
    slotOf H ex cp (hookNames.map fun k => (k, true)) (H ++ [hook ++ ".d", "soft-serve"]) =
      some (.fileSlot (entryText ex cp hook)) := by
  simp only [hookNames, List.mem_cons, List.mem_singleton, List.not_mem_nil, or_false] at hk
  rcases hk with rfl | rfl | rfl | rfl <;>
    simp [slotOf, slotIn, not_concat_prefix, hookNames, PreReceiveHook, UpdateHook,
      PostReceiveHook, PostUpdateHook]

/-! ### Installation of the hooks (`GenerateHooks`) -/

/-- C1 fails as stated: the files are created with `os.ModePerm` less the bits of the
umask of the process.  Under the umask `0111` (in a process of the superuser, whom
the directory modes do not hinder) every operation on the empty file system
succeeds and `GenerateHooks` returns nil, yet the dispatcher and the entry of
`pre-receive` have the mode `0666` and are not executable. -/
theorem GenerateHooks_fresh_counterexample :
    (∀ r ∈ (GenerateHooks maskedHost demoCfg "demo" FS.empty).1.trace, r.err = none) ∧
    (GenerateHooks maskedHost demoCfg "demo" FS.empty).2 = none ∧
    (GenerateHooks maskedHost demoCfg "demo" FS.empty).1.fs
        ["data", "repos", "demo.git", "hooks", "pre-receive"] =
      some (.file hookTemplate 0o666) ∧
    (GenerateHooks maskedHost demoCfg "demo" FS.empty).1.fs
        ["data", "repos", "demo.git", "hooks", "pre-receive.d", "soft-serve"] =
      some (.file (entryText "/usr/local/bin/soft" "/data/config.yaml" "pre-receive") 0o666) ∧
    executable 0o666 = false :=
  ⟨by decide, by decide, rfl, rfl, by decide⟩

/-- C1, amended: when the umask of the process leaves the owner's execute bit, the
hooks directory of the repository holds no entries, every file system operation
succeeds and `GenerateHooks` returns nil, then for each of the four hook types the
dispatcher `hooks/<hook>` is a file with the content `hookTemplate` and the mode
`0777` less the umask, which is executable, `hooks/<hook>.d` is a directory, and
the only object below it is the file `soft-serve`, of the same executable mode. -/
theorem GenerateHooks_fresh (h : Host) (cfg : Config) (repo : String) (fs : FS)
    (hx : h.umask.testBit 6 = false)
    (hempty : ∀ q, h.resolve (hooksPathOf h cfg repo) <+: q →
      q ≠ h.resolve (hooksPathOf h cfg repo) → fs q = none)
    (hok : ∀ r ∈ (GenerateHooks h cfg repo fs).1.trace, r.err = none)
    (hnil : (GenerateHooks h cfg repo fs).2 = none) :
    ∀ hook ∈ hookNames,
      (GenerateHooks h cfg repo fs).1.fs (h.resolve (hooksPathOf h cfg repo) ++ [hook]) =
          some (.file hookTemplate (withUmask h.umask ModePerm)) ∧
      executable (withUmask h.umask ModePerm) = true ∧
      (∃ m, (GenerateHooks h cfg repo fs).1.fs
          (h.resolve (hooksPathOf h cfg repo) ++ [hook ++ ".d"]) = some (.dir m)) ∧
      (∃ text, (GenerateHooks h cfg repo fs).1.fs
          (h.resolve (hooksPathOf h cfg repo) ++ [hook ++ ".d", "soft-serve"]) =
            some (.file text (withUmask h.umask ModePerm))) ∧
      (∀ name rest, (GenerateHooks h cfg repo fs).1.fs
          (h.resolve (hooksPathOf h cfg repo) ++ (hook ++ ".d") :: name :: rest) ≠ none →
        name = "soft-serve" ∧ rest = []) := by
  intro hook hk
  have hfs := GenerateHooks_ok_fs h cfg repo fs hok
  have hbelow : ∀ (a : String) (l : List String),
      fs (h.resolve (hooksPathOf h cfg repo) ++ a :: l) = none := fun a l =>
    hempty _ (List.prefix_append _ _) (by
      intro hh
      have := congrArg List.length hh
      simp at this)
  obtain ⟨new, -, -, -, -, hn⟩ := GenerateHooksFrom_spec h cfg repo ⟨fs, [], []⟩
  obtain ⟨ex, dp, bs, hE, hA, -⟩ := hn hnil
  have hslot : ∀ q, outcomeSlots h cfg repo q =
      slotOf (h.resolve (hooksPathOf h cfg repo)) ex (dp.join "config.yaml").toString
        (hookNames.map fun k => (k, true)) q := fun q => by
    simp [outcomeSlots, hE, hA]
  have hexec : executable (withUmask h.umask ModePerm) = true := by
    simp only [executable, withUmask, ModePerm, Nat.testBit_xor, Nat.testBit_and, hx]
    decide
  rw [hfs]
  simp only [hslot]
  refine ⟨?_, hexec, ?_, ?_, ?_⟩
  · rw [slotOf_dispatcher _ _ _ _ (by decide) hook hk, hbelow]
    rfl
  · rw [slotOf_dropin _ _ _ hook hk, hbelow]
    exact ⟨_, rfl⟩
  · rw [slotOf_entry _ _ _ hook hk, hbelow]
    exact ⟨_, rfl⟩
  · intro name rest hne
    rw [hbelow] at hne
    apply slotIn_deep (h.resolve (hooksPathOf h cfg repo)) ex (dp.join "config.yaml").toString
      (hook ++ ".d") name rest (hookNames.map fun k => (k, true))
    intro hs
    apply hne
    simp only [slotOf, not_concat_prefix, and_false, if_false, hs]
    rfl

/-- Witness for C1: repository `demo` under `/data` on the empty file system, in a
process with the umask `022`: the files get the mode `0755`. -/
theorem GenerateHooks_fresh_witness :
    demoHost.umask.testBit 6 = false ∧
    withUmask demoHost.umask ModePerm = 0o755 ∧
    (∀ r ∈ (GenerateHooks demoHost demoCfg "demo" FS.empty).1.trace, r.err = none) ∧
    (GenerateHooks demoHost demoCfg "demo" FS.empty).2 = none ∧
    ∀ hook ∈ hookNames,
      (GenerateHooks demoHost demoCfg "demo" FS.empty).1.fs
          (demoHost.resolve (hooksPathOf demoHost demoCfg "demo") ++ [hook]) =
          some (.file hookTemplate (withUmask demoHost.umask ModePerm)) ∧
      executable (withUmask demoHost.umask ModePerm) = true ∧
      (∃ m, (GenerateHooks demoHost demoCfg "demo" FS.empty).1.fs
          (demoHost.resolve (hooksPathOf demoHost demoCfg "demo") ++ [hook ++ ".d"]) =
            some (.dir m)) ∧
      (∃ text, (GenerateHooks demoHost demoCfg "demo" FS.empty).1.fs
          (demoHost.resolve (hooksPathOf demoHost demoCfg "demo") ++
            [hook ++ ".d", "soft-serve"]) =
          some (.file text (withUmask demoHost.umask ModePerm))) ∧
      (∀ name rest, (GenerateHooks demoHost demoCfg "demo" FS.empty).1.fs
          (demoHost.resolve (hooksPathOf demoHost demoCfg "demo") ++
            (hook ++ ".d") :: name :: rest) ≠ none →
        name = "soft-serve" ∧ rest = []) :=
  ⟨by decide, by decide, by decide, by decide,
    GenerateHooks_fresh demoHost demoCfg "demo" FS.empty (by decide) (fun _ _ _ => rfl)
      (by decide) (by decide)⟩

/-- C7: when every file system operation succeeds and `GenerateHooks` returns nil, the
`soft-serve` entry of each hook type is the header followed by the command line
`<executable> hook --config "<config>" <hook> <args>` and a newline, where
`<executable>` is the result of `os.Executable`, `<config>` is `config.yaml` joined to
the absolute form `dp` of `cfg.DataPath`, and `<args>` is `$1 $2 $3` for `update`,
`$@` for `post-update` and empty for `pre-receive` and `post-receive`.  The path `dp`
is rooted: it is the cleaned data path when that starts at the root, and otherwise
the data path joined to the rooted working directory that `os.Getwd` returns; it
names the directory the data path names in the process, and the config path written
into the entry starts with a slash. -/
theorem GenerateHooks_entry_text (h : Host) (cfg : Config) (repo : String) (fs : FS)
    (hok : ∀ r ∈ (GenerateHooks h cfg repo fs).1.trace, r.err = none)
    (hnil : (GenerateHooks h cfg repo fs).2 = none) :
    ∃ (ex : String) (dp : CleanPath),
      h.Executable = .ok ex ∧ filepath.Abs h cfg.DataPath = .ok dp ∧
      dp.rooted = true ∧
      (cfg.DataPath.data.head? = some '/' → dp = filepath.Clean cfg.DataPath) ∧
      (cfg.DataPath.data.head? ≠ some '/' →
        ∃ wd, h.Getwd = .ok wd ∧ wd.data.head? = some '/' ∧
          dp = filepath.Join [wd, cfg.DataPath]) ∧
      ((∀ e ∈ h.cwd, ordinary e) →
        h.resolve dp = h.resolve (filepath.Clean cfg.DataPath)) ∧
      (dp.join "config.yaml").toString.data.head? = some '/' ∧
      (∀ hook ∈ hookNames, ∃ m,
        (GenerateHooks h cfg repo fs).1.fs
            (h.resolve (hooksPathOf h cfg repo) ++ [hook ++ ".d", "soft-serve"]) =
          some (.file (hooksTmpl.header ++ "\n" ++
            (ex ++ " hook --config \"" ++ (dp.join "config.yaml").toString ++ "\" " ++
              hook ++ " " ++ hookArgs hook) ++ "\n") m)) ∧
      (dp.elems ≠ [] → (dp.join "config.yaml").toString = dp.toString ++ "/config.yaml") ∧
      hookArgs "update" = "$1 $2 $3" ∧ hookArgs "post-update" = "$@" ∧
      hookArgs "pre-receive" = "" ∧ hookArgs "post-receive" = "" := by
  have hfs := GenerateHooks_ok_fs h cfg repo fs hok
  obtain ⟨new, -, -, -, -, hn⟩ := GenerateHooksFrom_spec h cfg repo ⟨fs, [], []⟩
  obtain ⟨ex, dp, bs, hE, hA, -⟩ := hn hnil
  obtain ⟨hroot, hclean, hjoin⟩ := Abs_spec h cfg.DataPath dp hA
  refine ⟨ex, dp, hE, hA, hroot, hclean, hjoin, fun hc => Abs_resolve h _ dp hc hA,
    toString_rooted _ hroot, ?_, ?_, by decide, by decide, by decide, by decide⟩
  swap
  · intro hp
    rw [join_toString dp "config.yaml" (by decide) hp, String.append_assoc]
    rfl
  intro hook hk
  rw [hfs]
  simp only [outcomeSlots, hE, hA]
  rw [slotOf_entry _ _ _ hook hk]
  rcases hq : fs (h.resolve (hooksPathOf h cfg repo) ++ [hook ++ ".d", "soft-serve"])
    with _ | _ | _
  · exact ⟨_, rfl⟩
  · exact ⟨_, rfl⟩
  · exact ⟨_, rfl⟩

/-- Witness for C7: repository `demo` with the relative data path `data`, in a process
with the working directory `/srv`, on the empty file system: the config path of the
entries is `/srv/data/config.yaml`. -/
theorem GenerateHooks_entry_text_witness :
    filepath.Abs demoHost relativeCfg.DataPath = .ok ⟨true, ["srv", "data"]⟩ ∧
    (CleanPath.join ⟨true, ["srv", "data"]⟩ "config.yaml").toString =
      "/srv/data/config.yaml" ∧
    (GenerateHooks demoHost relativeCfg "demo" FS.empty).1.fs
        ["srv", "data", "repos", "demo.git", "hooks", "update.d", "soft-serve"] =
      some (.file (hooksTmpl.header ++ "\n" ++
        "/usr/local/bin/soft hook --config \"/srv/data/config.yaml\" update $1 $2 $3" ++
        "\n") 0o755) ∧
    ∃ (ex : String) (dp : CleanPath),
      demoHost.Executable = .ok ex ∧ filepath.Abs demoHost relativeCfg.DataPath = .ok dp ∧
      dp.rooted = true ∧
      (relativeCfg.DataPath.data.head? = some '/' →
        dp = filepath.Clean relativeCfg.DataPath) ∧
      (relativeCfg.DataPath.data.head? ≠ some '/' →
        ∃ wd, demoHost.Getwd = .ok wd ∧ wd.data.head? = some '/' ∧
          dp = filepath.Join [wd, relativeCfg.DataPath]) ∧
      ((∀ e ∈ demoHost.cwd, ordinary e) →
        demoHost.resolve dp = demoHost.resolve (filepath.Clean relativeCfg.DataPath)) ∧
      (dp.join "config.yaml").toString.data.head? = some '/' ∧
      (∀ hook ∈ hookNames, ∃ m,
        (GenerateHooks demoHost relativeCfg "demo" FS.empty).1.fs
            (demoHost.resolve (hooksPathOf demoHost relativeCfg "demo") ++
              [hook ++ ".d", "soft-serve"]) =
          some (.file (hooksTmpl.header ++ "\n" ++
            (ex ++ " hook --config \"" ++ (dp.join "config.yaml").toString ++ "\" " ++
              hook ++ " " ++ hookArgs hook) ++ "\n") m)) ∧
      (dp.elems ≠ [] → (dp.join "config.yaml").toString = dp.toString ++ "/config.yaml") ∧
      hookArgs "update" = "$1 $2 $3" ∧ hookArgs "post-update" = "$@" ∧
      hookArgs "pre-receive" = "" ∧ hookArgs "post-receive" = "" :=
  ⟨rfl, by decide, rfl,
    GenerateHooks_entry_text demoHost relativeCfg "demo" FS.empty (by decide) (by decide)⟩

/-- C9: `GenerateHooks` can be repeated.  Take a run on `fs` in which every file system
operation succeeds.  A second run on the state it leaves, if its operations succeed
too, leaves that state unchanged; and a run on any state that holds, path by path,
either what `fs` held or what the first run left (a partially installed state), if
its operations succeed, leaves exactly the state of the first run. -/
theorem GenerateHooks_repeatable (h : Host) (cfg : Config) (repo : String) (fs : FS)
    (f2 : Nat → Option Error)
    (hok : ∀ r ∈ (GenerateHooks h cfg repo fs).1.trace, r.err = none) :
    ((∀ r ∈ (GenerateHooks (h.withFaults f2) cfg repo
          (GenerateHooks h cfg repo fs).1.fs).1.trace, r.err = none) →
      (GenerateHooks (h.withFaults f2) cfg repo (GenerateHooks h cfg repo fs).1.fs).1.fs =
        (GenerateHooks h cfg repo fs).1.fs) ∧
    (∀ fsP : FS, (∀ q, fsP q = fs q ∨ fsP q = (GenerateHooks h cfg repo fs).1.fs q) →
      (∀ r ∈ (GenerateHooks (h.withFaults f2) cfg repo fsP).1.trace, r.err = none) →
      (GenerateHooks (h.withFaults f2) cfg repo fsP).1.fs =
        (GenerateHooks h cfg repo fs).1.fs) := by
  have h1 := GenerateHooks_ok_fs h cfg repo fs hok
  have hsame : ∀ q, outcomeSlots (h.withFaults f2) cfg repo q = outcomeSlots h cfg repo q :=
    fun _ => rfl
  have key : ∀ fsP : FS, (∀ q, fsP q = fs q ∨ fsP q = (GenerateHooks h cfg repo fs).1.fs q) →
      (∀ r ∈ (GenerateHooks (h.withFaults f2) cfg repo fsP).1.trace, r.err = none) →
      (GenerateHooks (h.withFaults f2) cfg repo fsP).1.fs =
        (GenerateHooks h cfg repo fs).1.fs := by
    intro fsP hP hok2
    rw [GenerateHooks_ok_fs _ cfg repo fsP hok2, h1]
    have hum : (h.withFaults f2).umask = h.umask := rfl
    funext q
    rw [hsame, hum]
    rcases hP q with hq | hq
    · rw [hq]
    · rw [hq, h1]
      exact fillSlot_idem _ _ _
  exact ⟨key _ (fun q => Or.inr rfl), key⟩

/-- Witness for C9: repository `demo` under `/data` on the empty file system; the
second run succeeds and changes nothing, and the run on the installation interrupted
after two hook types succeeds and completes it. -/
theorem GenerateHooks_repeatable_witness :
    (∀ r ∈ (GenerateHooks demoHost demoCfg "demo" FS.empty).1.trace, r.err = none) ∧
    (∀ r ∈ (GenerateHooks (demoHost.withFaults fun _ => none) demoCfg "demo"
        (GenerateHooks demoHost demoCfg "demo" FS.empty).1.fs).1.trace, r.err = none) ∧
    (GenerateHooks (demoHost.withFaults fun _ => none) demoCfg "demo"
        (GenerateHooks demoHost demoCfg "demo" FS.empty).1.fs).1.fs =
      (GenerateHooks demoHost demoCfg "demo" FS.empty).1.fs ∧
    (∀ q, halfFS q = FS.empty q ∨
      halfFS q = (GenerateHooks demoHost demoCfg "demo" FS.empty).1.fs q) ∧
    halfFS ["data", "repos", "demo.git", "hooks", "update"] ≠ none ∧
    halfFS ["data", "repos", "demo.git", "hooks", "post-update"] = none ∧
    (∀ r ∈ (GenerateHooks (demoHost.withFaults fun _ => none) demoCfg "demo" halfFS).1.trace,
      r.err = none) ∧
    (GenerateHooks (demoHost.withFaults fun _ => none) demoCfg "demo" halfFS).1.fs =
      (GenerateHooks demoHost demoCfg "demo" FS.empty).1.fs :=
  have hhalf : ∀ q, halfFS q = FS.empty q ∨
      halfFS q = (GenerateHooks demoHost demoCfg "demo" FS.empty).1.fs q := fun q => by
    unfold halfFS
    split
    · exact Or.inl rfl
    · exact Or.inr rfl
  ⟨by decide, by decide,
    (GenerateHooks_repeatable demoHost demoCfg "demo" FS.empty (fun _ => none) (by decide)).1
      (by decide),
    hhalf, by decide, by decide, by decide,
    (GenerateHooks_repeatable demoHost demoCfg "demo" FS.empty (fun _ => none) (by decide)).2
      halfFS hhalf (by decide)⟩

/-- C10, as the code has it.  A failure of creating the hooks directory, of writing a
dispatcher or of creating a drop-in directory ends the run: it is the last operation
and its error is returned.  A failure of writing a `soft-serve` entry is logged as
`failed to write hook` and the loop goes on: the next operation is the write of a
dispatcher, and when there is none `GenerateHooks` returns nil.  Every failed
operation is of one of these two sorts, and a returned error is that of the last
operation, which is then no write of an entry, or the error of `os.Executable` or of
`filepath.Abs`.  After a nil return the hooks directory and, for each hook type, the
dispatcher and the drop-in directory were written successfully, and the dispatcher
holds `hookTemplate`. -/
theorem GenerateHooks_errors (h : Host) (cfg : Config) (repo : String) (fs : FS) :
    (∀ pre r post x, (GenerateHooks h cfg repo fs).1.trace = pre ++ r :: post →
      r.err = some x →
      (r.kind = .mkdirAll ∨
        ∃ hook ∈ hookNames, r.path = h.resolve (hooksPathOf h cfg repo) ++ [hook]) →
      post = [] ∧ (GenerateHooks h cfg repo fs).2 = some x) ∧
    (∀ pre post x, ∀ hook ∈ hookNames,
      (GenerateHooks h cfg repo fs).1.trace =
        pre ++ ⟨.writeFile, h.resolve (hooksPathOf h cfg repo) ++ [hook ++ ".d", "soft-serve"],
          some x⟩ :: post →
      ("failed to write hook", x) ∈ (GenerateHooks h cfg repo fs).1.logged ∧
      (post = [] → (GenerateHooks h cfg repo fs).2 = none) ∧
      (∀ r1 post1, post = r1 :: post1 → ∃ hook1 ∈ hookNames,
        r1.kind = .writeFile ∧ r1.path = h.resolve (hooksPathOf h cfg repo) ++ [hook1])) ∧
    (∀ r ∈ (GenerateHooks h cfg repo fs).1.trace, ∀ x, r.err = some x →
      (r.kind = .mkdirAll ∨
        ∃ hook ∈ hookNames, r.path = h.resolve (hooksPathOf h cfg repo) ++ [hook]) ∨
      ∃ hook ∈ hookNames, r = ⟨.writeFile,
        h.resolve (hooksPathOf h cfg repo) ++ [hook ++ ".d", "soft-serve"], some x⟩) ∧
    (∀ y, (GenerateHooks h cfg repo fs).2 = some y →
      (∃ pre r, (GenerateHooks h cfg repo fs).1.trace = pre ++ [r] ∧ r.err = some y ∧
        (r.kind = .mkdirAll ∨
          ∃ hook ∈ hookNames, r.path = h.resolve (hooksPathOf h cfg repo) ++ [hook])) ∨
      h.Executable = .error y ∨
      ∃ e, filepath.Abs h cfg.DataPath = .error e ∧
        y = .wrapped "failed to get absolute path for data path" e) ∧
    ((GenerateHooks h cfg repo fs).2 = none →
      (⟨.mkdirAll, h.resolve (hooksPathOf h cfg repo), none⟩ : OpRecord) ∈
        (GenerateHooks h cfg repo fs).1.trace ∧
      ∀ hook ∈ hookNames,
        (⟨.writeFile, h.resolve (hooksPathOf h cfg repo) ++ [hook], none⟩ : OpRecord) ∈
          (GenerateHooks h cfg repo fs).1.trace ∧
        (⟨.mkdirAll, h.resolve (hooksPathOf h cfg repo) ++ [hook ++ ".d"], none⟩ : OpRecord) ∈
          (GenerateHooks h cfg repo fs).1.trace ∧
        ∃ m, (GenerateHooks h cfg repo fs).1.fs (h.resolve (hooksPathOf h cfg repo) ++ [hook]) =
          some (.file hookTemplate m)) := by
  obtain ⟨new, t, -, -, -, hn⟩ := GenerateHooksFrom_spec h cfg repo ⟨fs, [], []⟩
  have ht : (GenerateHooks h cfg repo fs).1.trace = new := by simpa using t
  obtain ⟨new1, t1, hs1, hy1⟩ := GenerateHooksFrom_order h cfg repo ⟨fs, [], []⟩
  have ht1 : (GenerateHooks h cfg repo fs).1.trace = new1 := by simpa using t1
  have hlen : ∀ (a b c : String),
      h.resolve (hooksPathOf h cfg repo) ++ [a, b] ≠
        h.resolve (hooksPathOf h cfg repo) ++ [c] := by
    intro a b c hh
    have := congrArg List.length hh
    simp at this
  refine ⟨?_, ?_, ?_, ?_, ?_⟩
  · intro pre r post x htr hx hk
    have hsuf : (r :: post) <:+ new1 := ⟨pre, by rw [← ht1, htr]⟩
    rcases hs1 r post hsuf x hx with ⟨⟨k, -, hr⟩, -⟩ | ⟨-, hp, hres⟩
    · exfalso
      rcases hk with hk | ⟨k1, -, hk1⟩
      · rw [hr] at hk
        exact absurd hk (by simp)
      · rw [hr] at hk1
        exact hlen _ _ _ hk1
    · exact ⟨hp, hres⟩
  · intro pre post x hook hk htr
    have hsuf : ((⟨.writeFile, h.resolve (hooksPathOf h cfg repo) ++
        [hook ++ ".d", "soft-serve"], some x⟩ : OpRecord) :: post) <:+ new1 :=
      ⟨pre, by rw [← ht1, htr]⟩
    rcases hs1 _ post hsuf x rfl with ⟨-, hl, hnone, hnext⟩ | ⟨hk1, -⟩
    · exact ⟨hl, hnone, hnext⟩
    · exfalso
      rcases hk1 with hk1 | ⟨k1, -, hk1⟩
      · exact absurd hk1 (by simp)
      · exact hlen _ _ _ hk1
  · intro r hr x hx
    rw [ht1] at hr
    obtain ⟨pre, post, hsplit⟩ := List.append_of_mem hr
    have hsuf : (r :: post) <:+ new1 := ⟨pre, hsplit.symm⟩
    rcases hs1 r post hsuf x hx with ⟨hr1, -⟩ | ⟨hk1, -⟩
    · exact Or.inr hr1
    · exact Or.inl hk1
  · intro y hy
    rw [ht1]
    exact hy1 y hy
  · intro hnil
    rw [ht]
    obtain ⟨ex, dp, bs, -, -, hm, hfs, -, h0, hs⟩ := hn hnil
    refine ⟨h0, fun hook hk => ⟨(hs hook hk).1, (hs hook hk).2, ?_⟩⟩
    unfold GenerateHooks
    rw [hfs, loopFS_eq _ _ _ _ _ _ hm]
    simp only [installedWith]
    rw [slotOf_dispatcher _ _ _ _ hm hook hk]
    rcases hq : fs (h.resolve (hooksPathOf h cfg repo) ++ [hook]) with _ | _ | _
    · exact ⟨_, rfl⟩
    · exact ⟨_, rfl⟩
    · exact ⟨_, rfl⟩

/-- C10 fails as stated: where a directory takes the place of the `pre-receive` entry,
the write of that entry fails with `EISDIR`, yet `GenerateHooks` returns nil and no
entry was written there. -/
theorem GenerateHooks_errors_counterexample :
    (⟨.writeFile, ["data", "repos", "demo.git", "hooks", "pre-receive.d", "soft-serve"],
        some .EISDIR⟩ : OpRecord) ∈ (GenerateHooks demoHost demoCfg "demo" blockedFS).1.trace ∧
    (GenerateHooks demoHost demoCfg "demo" blockedFS).2 = none ∧
    (GenerateHooks demoHost demoCfg "demo" blockedFS).1.fs
        ["data", "repos", "demo.git", "hooks", "pre-receive.d", "soft-serve"] =
      some (.dir 0o755) ∧
    (GenerateHooks demoHost demoCfg "demo" blockedFS).1.logged =
      [("failed to write hook", .EISDIR)] := by
  decide

/-! ### The dispatcher script -/

theorem firstLoop_codes (data : Bytes) (args : List String) (l : List Entry) :
    (firstLoop data args l).2 = (firstLoop data args l).1.map (·.status) := by
  induction l with
  | nil => rfl
  | cons e l ih =>
    unfold firstLoop
    split
    · simp [ih]
    · exact ih

theorem firstLoop_entries (data : Bytes) (args : List String) (l : List Entry) :
    (firstLoop data args l).1.map (·.entry) = l.filter fun e => e.testX && e.testF := by
  induction l with
  | nil => rfl
  | cons e l ih =>
    unfold firstLoop
    by_cases h : (e.testX && e.testF) = true
    · simp [h, ih]
    · simp [h, ih]

theorem firstLoop_invocation (data : Bytes) (args : List String) (l : List Entry) :
    ∀ i ∈ (firstLoop data args l).1,
      i.args = args ∧ i.stdin = echo data ∧ i.status = i.entry.run args (echo data) % 256 := by
  induction l with
  | nil => intro i hi; simp [firstLoop] at hi
  | cons e l ih =>
    intro i hi
    unfold firstLoop at hi
    split at hi
    · rcases List.mem_cons.mp hi with rfl | hi
      · exact ⟨rfl, rfl, rfl⟩
      · exact ih i hi
    · exact ih i hi

theorem secondLoop_zero (codes : List Nat) (h : ∀ c ∈ codes, c = 0) : secondLoop codes = 0 := by
  induction codes with
  | nil => rfl
  | cons c cs ih =>
    have hc : c = 0 := h c (List.mem_cons_self _ _)
    simp [secondLoop, hc, ih (fun x hx => h x (List.mem_cons_of_mem _ hx))]

theorem secondLoop_first (pre : List Nat) (c : Nat) (post : List Nat)
    (hpre : ∀ p ∈ pre, p = 0) (hc : c ≠ 0) : secondLoop (pre ++ c :: post) = c % 256 := by
  induction pre with
  | nil => simp [secondLoop, hc]
  | cons p pre ih =>
    have hp : p = 0 := hpre p (List.mem_cons_self _ _)
    simp [secondLoop, hp, ih (fun x hx => hpre x (List.mem_cons_of_mem _ hx))]

theorem secondLoop_ne_zero (codes : List Nat) (hb : ∀ c ∈ codes, c < 256) :
    secondLoop codes ≠ 0 ↔ ∃ c ∈ codes, c ≠ 0 := by
  induction codes with
  | nil => simp [secondLoop]
  | cons c cs ih =>
    have hc := hb c (List.mem_cons_self _ _)
    have ih2 := ih (fun x hx => hb x (List.mem_cons_of_mem _ hx))
    by_cases h0 : c = 0
    · simp [secondLoop, h0, ih2]
    · simp [secondLoop, h0, Nat.mod_eq_of_lt hc]

theorem globStar_sorted (loc : Collation) (dir : List Entry) :
    (globStar loc dir).Sorted fun a b => loc.le a.name b.name = true := by
  haveI : IsTotal Entry (fun a b => loc.le a.name b.name = true) :=
    ⟨fun a b => loc.total a.name b.name⟩
  haveI : IsTrans Entry (fun a b => loc.le a.name b.name = true) :=
    ⟨fun a b c hab hbc => loc.trans a.name b.name c.name hab hbc⟩
  exact List.sorted_insertionSort _ _

theorem globStar_perm (loc : Collation) (dir : List Entry) :
    (globStar loc dir).Perm (dir.filter fun e => e.name.data.head? ≠ some '.') :=
  List.perm_insertionSort _ _

theorem dispatch_names_sorted (loc : Collation) (dropins : String → List Entry)
    (hookname : String) (args : List String) (stdin : Bytes) :
    ((dispatch loc dropins hookname args stdin).invocations.map (·.entry)).Sorted
      fun a b => loc.le a.name b.name = true := by
  unfold dispatch
  simp only
  rw [firstLoop_entries]
  exact (globStar_sorted _ _).filter _

/-- The exit status of the dispatcher from the statuses of its runs: non-zero exactly
when a run ended non-zero, then the status of the first such run; every status is
the one the entry returned. -/
theorem dispatch_exit_spec (loc : Collation) (dropins : String → List Entry)
    (hookname : String) (args : List String) (stdin : Bytes) :
    ((dispatch loc dropins hookname args stdin).exit ≠ 0 ↔
      ∃ i ∈ (dispatch loc dropins hookname args stdin).invocations, i.status ≠ 0) ∧
    (∀ pre i post, (dispatch loc dropins hookname args stdin).invocations = pre ++ i :: post →
      (∀ j ∈ pre, j.status = 0) → i.status ≠ 0 →
      (dispatch loc dropins hookname args stdin).exit = i.status) ∧
    ((∀ i ∈ (dispatch loc dropins hookname args stdin).invocations, i.status = 0) →
      (dispatch loc dropins hookname args stdin).exit = 0) ∧
    (∀ i ∈ (dispatch loc dropins hookname args stdin).invocations,
      i.status = i.entry.run i.args i.stdin % 256) := by
  have hinv := firstLoop_invocation (commandSubst stdin) args (globStar loc (dropins hookname))
  have hcodes := firstLoop_codes (commandSubst stdin) args (globStar loc (dropins hookname))
  have hlt : ∀ i ∈ (firstLoop (commandSubst stdin) args (globStar loc (dropins hookname))).1,
      i.status < 256 := by
    intro i hi
    rw [(hinv i hi).2.2]
    exact Nat.mod_lt _ (by decide)
  refine ⟨?_, ?_, ?_, ?_⟩
  · show secondLoop _ ≠ 0 ↔ _
    rw [hcodes, secondLoop_ne_zero]
    · simp [dispatch]
    · intro c hc
      obtain ⟨i, hi, rfl⟩ := List.mem_map.mp hc
      exact hlt i hi
  · intro pre i post hsplit hpre hi
    show secondLoop _ = _
    have hsplit2 : (firstLoop (commandSubst stdin) args (globStar loc (dropins hookname))).1 =
        pre ++ i :: post := hsplit
    rw [hcodes, hsplit2, List.map_append, List.map_cons, secondLoop_first _ _ _ _ hi]
    · apply Nat.mod_eq_of_lt
      apply hlt
      rw [hsplit2]
      simp
    · intro p hp
      obtain ⟨j, hj, rfl⟩ := List.mem_map.mp hp
      exact hpre j hj
  · intro hall
    show secondLoop _ = 0
    rw [hcodes]
    apply secondLoop_zero
    intro c hc
    obtain ⟨i, hi, rfl⟩ := List.mem_map.mp hc
    exact hall i hi
  · intro i hi
    obtain ⟨h1, h2, h3⟩ := hinv i hi
    rw [h1, h2]
    exact h3

/-- Every entry of the drop-in directory that is executable, regular and not hidden is
run, with the status it returns on the arguments and the input of the dispatcher. -/
theorem dispatch_runs_entry (loc : Collation) (dropins : String → List Entry)
    (hookname : String) (args : List String) (stdin : Bytes) (e : Entry)
    (he : e ∈ dropins hookname) (hx : e.testX = true) (hf : e.testF = true)
    (hd : e.name.data.head? ≠ some '.') :
    ∃ i ∈ (dispatch loc dropins hookname args stdin).invocations,
      i.entry = e ∧ i.status = e.run args (echo (commandSubst stdin)) % 256 := by
  have hg : e ∈ globStar loc (dropins hookname) := by
    rw [(globStar_perm _ _).mem_iff]
    simp [he, hd]
  have hm : e ∈ (firstLoop (commandSubst stdin) args (globStar loc (dropins hookname))).1.map
      (·.entry) := by
    rw [firstLoop_entries]
    simp [hg, hx, hf]
  obtain ⟨i, hi, rfl⟩ := List.mem_map.mp hm
  exact ⟨i, hi, rfl, (firstLoop_invocation _ _ _ i hi).2.2⟩

/-- The order of the runs depends on the locale of the shell: with the entries `a-deny`
(exit status 1) and `B-audit` (exit status 3) the dispatcher runs `B-audit` first and
exits with 3 in the C locale, and runs `a-deny` first and exits with 1 under a
collation that ignores case. -/
theorem dispatch_locale_example :
    (dispatch cLocale mixedCase "pre-receive" [] []).invocations.map (·.entry.name) =
      ["B-audit", "a-deny"] ∧
    (dispatch cLocale mixedCase "pre-receive" [] []).exit = 3 ∧
    (dispatch dictLocale mixedCase "pre-receive" [] []).invocations.map (·.entry.name) =
      ["a-deny", "B-audit"] ∧
    (dispatch dictLocale mixedCase "pre-receive" [] []).exit = 1 := by
  decide

/-- C3: the dispatcher exits non-zero exactly when an entry it ran returned non-zero;
then its exit code is that of the first such entry, in the order of the runs, which
is the lexical order of the names (the collating order of the locale of the shell,
by which it sorts the expansion of `.d/*`); when no entry ran or all returned 0 it
exits 0. -/
theorem dispatch_exit (loc : Collation) (dropins : String → List Entry) (hookname : String)
    (args : List String) (stdin : Bytes) :
    ((dispatch loc dropins hookname args stdin).exit ≠ 0 ↔
      ∃ i ∈ (dispatch loc dropins hookname args stdin).invocations, i.status ≠ 0) ∧
    (∀ pre i post, (dispatch loc dropins hookname args stdin).invocations = pre ++ i :: post →
      (∀ j ∈ pre, j.status = 0) → i.status ≠ 0 →
      (dispatch loc dropins hookname args stdin).exit = i.status) ∧
    ((∀ i ∈ (dispatch loc dropins hookname args stdin).invocations, i.status = 0) →
      (dispatch loc dropins hookname args stdin).exit = 0) ∧
    ((dispatch loc dropins hookname args stdin).invocations.map (·.entry)).Sorted
      (fun a b => loc.le a.name b.name = true) ∧
    (∀ i ∈ (dispatch loc dropins hookname args stdin).invocations,
      i.status = i.entry.run i.args i.stdin % 256) := by
  obtain ⟨h1, h2, h3, h4⟩ := dispatch_exit_spec loc dropins hookname args stdin
  exact ⟨h1, h2, h3, dispatch_names_sorted loc dropins hookname args stdin, h4⟩

/-- C4 fails as stated: run as `pre-receive` and as `update` on a drop-in directory
with a rejecting entry `10-deny` and a later entry `20-audit`, the dispatcher runs
`20-audit` after `10-deny` has returned 1, in the C locale and under a dictionary
order alike. -/
theorem dispatch_abort_counterexample :
    (dispatch cLocale twoEntries "pre-receive" [] []).invocations.map
        (fun i => (i.entry.name, i.status)) =
      [("10-deny", 1), ("20-audit", 0)] ∧
    (dispatch cLocale twoEntries "update" ["refs/heads/main", "0a", "0b"] []).invocations.map
        (fun i => (i.entry.name, i.status)) =
      [("10-deny", 1), ("20-audit", 0)] ∧
    (dispatch dictLocale twoEntries "pre-receive" [] []).invocations.map
        (fun i => (i.entry.name, i.status)) =
      [("10-deny", 1), ("20-audit", 0)] ∧
    (dispatch dictLocale twoEntries "update" ["refs/heads/main", "0a", "0b"] []).invocations.map
        (fun i => (i.entry.name, i.status)) =
      [("10-deny", 1), ("20-audit", 0)] := by
  decide

/-- C4, as the code has it: for every hook type, `pre-receive` and `update` included,
the dispatcher runs every entry that is executable, regular and not hidden, whatever
the entries before it returned; the exit codes are looked at after the loop only, and
the dispatcher then exits with the first non-zero status among all the runs, and with
0 when there is none. -/
theorem dispatch_runs_all (loc : Collation) (dropins : String → List Entry)
    (hookname : String) (args : List String) (stdin : Bytes) (e : Entry)
    (he : e ∈ dropins hookname) (hx : e.testX = true) (hf : e.testF = true)
    (hd : e.name.data.head? ≠ some '.') :
    (∃ i ∈ (dispatch loc dropins hookname args stdin).invocations,
      i.entry = e ∧ i.status = e.run args (echo (commandSubst stdin)) % 256) ∧
    (∀ pre i post, (dispatch loc dropins hookname args stdin).invocations = pre ++ i :: post →
      (∀ j ∈ pre, j.status = 0) → i.status ≠ 0 →
      (dispatch loc dropins hookname args stdin).exit = i.status ∧
      ∃ j ∈ pre ++ i :: post, j.entry = e) ∧
    ((∀ i ∈ (dispatch loc dropins hookname args stdin).invocations, i.status = 0) →
      (dispatch loc dropins hookname args stdin).exit = 0) := by
  obtain ⟨-, h2, h3, -⟩ := dispatch_exit_spec loc dropins hookname args stdin
  have hrun := dispatch_runs_entry loc dropins hookname args stdin e he hx hf hd
  refine ⟨hrun, ?_, h3⟩
  intro pre i post hsplit hpre hi
  refine ⟨h2 pre i post hsplit hpre hi, ?_⟩
  obtain ⟨j, hj, hje, -⟩ := hrun
  exact ⟨j, hsplit ▸ hj, hje⟩

/-- Witness for C4: `20-audit` runs in the `pre-receive` directory in which `10-deny`
rejects, and the dispatcher exits with the status 1 of `10-deny` afterwards. -/
theorem dispatch_runs_all_witness :
    auditEntry ∈ twoEntries "pre-receive" ∧
    (dispatch cLocale twoEntries "pre-receive" [] []).exit = 1 ∧
    (∃ i ∈ (dispatch cLocale twoEntries "pre-receive" [] []).invocations,
      i.entry = auditEntry ∧ i.status = auditEntry.run [] (echo (commandSubst [])) % 256) ∧
    (∀ pre i post,
      (dispatch cLocale twoEntries "pre-receive" [] []).invocations = pre ++ i :: post →
      (∀ j ∈ pre, j.status = 0) → i.status ≠ 0 →
      (dispatch cLocale twoEntries "pre-receive" [] []).exit = i.status ∧
      ∃ j ∈ pre ++ i :: post, j.entry = auditEntry) ∧
    ((∀ i ∈ (dispatch cLocale twoEntries "pre-receive" [] []).invocations, i.status = 0) →
      (dispatch cLocale twoEntries "pre-receive" [] []).exit = 0) :=
  ⟨by simp [twoEntries], by decide,
    dispatch_runs_all cLocale twoEntries "pre-receive" [] [] auditEntry (by simp [twoEntries])
      rfl rfl (by decide)⟩

/-- C5 fails on the code: on the empty standard input every entry receives a newline;
an input without final newline gains one; of several final newlines one is left; NUL
bytes are dropped. -/
theorem dispatch_stdin_changed :
    (dispatch cLocale twoEntries "update" [] []).invocations.map (·.stdin) = [[10], [10]] ∧
    (dispatch cLocale twoEntries "pre-receive" [] [120]).invocations.map (·.stdin) =
      [[120, 10], [120, 10]] ∧
    (dispatch cLocale twoEntries "pre-receive" [] [120, 10, 10]).invocations.map (·.stdin) =
      [[120, 10], [120, 10]] ∧
    (dispatch cLocale twoEntries "pre-receive" [] [120, 0, 121, 10]).invocations.map
        (·.stdin) =
      [[120, 121, 10], [120, 121, 10]] := by
  decide

/-- What every entry receives on its standard input, for any input of the
dispatcher. -/
theorem dispatch_stdin (loc : Collation) (dropins : String → List Entry) (hookname : String)
    (args : List String) (stdin : Bytes) :
    ∀ i ∈ (dispatch loc dropins hookname args stdin).invocations,
      i.stdin = echo (commandSubst stdin) :=
  fun i hi => (firstLoop_invocation _ _ _ i hi).2.1

/-- C6 fails as stated: an executable regular file whose name starts with a dot is
not run, whatever the locale. -/
theorem dispatch_hidden_counterexample :
    hiddenEntry.testX = true ∧ hiddenEntry.testF = true ∧
    (dispatch cLocale (fun _ => [hiddenEntry]) "pre-receive" [] []).invocations.length = 0 ∧
    (dispatch dictLocale (fun _ => [hiddenEntry]) "pre-receive" [] []).invocations.length =
      0 := by
  decide

/-- C6, as the code has it: the dispatcher runs exactly the entries of the drop-in
directory that are not hidden (name not starting with a dot), executable and regular,
each once, in lexical order of the names (the collating order of the locale of the
shell), each with the dispatcher's own arguments; the exit codes collected are those
of the runs, one for each. -/
theorem dispatch_runs (loc : Collation) (dropins : String → List Entry) (hookname : String)
    (args : List String) (stdin : Bytes) :
    ((dispatch loc dropins hookname args stdin).invocations.map (·.entry)).Perm
      ((dropins hookname).filter fun e =>
        decide (e.name.data.head? ≠ some '.') && (e.testX && e.testF)) ∧
    ((dispatch loc dropins hookname args stdin).invocations.map (·.entry)).Sorted
      (fun a b => loc.le a.name b.name = true) ∧
    (∀ i ∈ (dispatch loc dropins hookname args stdin).invocations, i.args = args) ∧
    (dispatch loc dropins hookname args stdin).exitcodes =
      (dispatch loc dropins hookname args stdin).invocations.map (·.status) := by
  refine ⟨?_, dispatch_names_sorted loc dropins hookname args stdin, ?_, ?_⟩
  · show ((firstLoop _ _ _).1.map (·.entry)).Perm _
    rw [firstLoop_entries]
    have := (globStar_perm loc (dropins hookname)).filter fun e => e.testX && e.testF
    rw [List.filter_filter] at this
    refine this.trans (List.Perm.of_eq ?_)
    apply List.filter_congr
    intro e _
    simp [Bool.and_comm]
  · intro i hi
    exact (firstLoop_invocation _ _ _ i hi).1
  · exact firstLoop_codes _ _ _

/-! ### The generated entry -/

/-- C8: run with `SOFT_SERVE_REPO_NAME` unset or empty, the generated entry exits with
code 0 and evaluates no command, whatever the hook type and the arguments. -/
theorem hooksTmpl_run_unset (d : HookData) (environ : String → Option String)
    (positional : List String) (evalCommand : String → List String → Nat)
    (h : environ "SOFT_SERVE_REPO_NAME" = none ∨ environ "SOFT_SERVE_REPO_NAME" = some "") :
    (hooksTmpl.run d environ positional evalCommand).exit = 0 ∧
    (hooksTmpl.run d environ positional evalCommand).command = none := by
  rcases h with h | h <;> simp [hooksTmpl.run, h]

/-- Witness for C8: the `update` entry in an empty environment. -/
theorem hooksTmpl_run_unset_witness :
    (hooksTmpl.run ⟨"/usr/local/bin/soft", "/data/config.yaml", [], "update", "$1 $2 $3"⟩
        (fun _ => none) ["refs/heads/main", "0a", "0b"] (fun _ _ => 1)).exit = 0 ∧
    (hooksTmpl.run ⟨"/usr/local/bin/soft", "/data/config.yaml", [], "update", "$1 $2 $3"⟩
        (fun _ => none) ["refs/heads/main", "0a", "0b"] (fun _ _ => 1)).command = none :=
  hooksTmpl_run_unset _ (fun _ => none) _ _ (Or.inl rfl)

/-! ### The delete command -/

/-- What the delete command passes to its pre-run check: `checkIfCollab` runs only when
the flags parse without a request for help and the arguments are valid, on the
arguments without the flags; `RunE` runs only after the check has returned nil, and
an execution in which `RunE` has not run leaves the state as it was. -/
theorem delete_execute_spec {σ : Type} (be : Backend σ) (caller : String) (a : List String)
    (st : CmdState σ) :
    (∀ r, ((deleteCommand be caller).execute a st).preRun = some r →
      ∃ argWoFlags, cobra.parseArgs a false [] = .ok (false, argWoFlags) ∧
        cobra.ExactArgs 1 argWoFlags = none ∧
        (checkIfCollab be caller argWoFlags st).2 = r ∧
        (∀ e, r = some e → ((deleteCommand be caller).execute a st).err = some e)) ∧
    (((deleteCommand be caller).execute a st).ran = true →
      ((deleteCommand be caller).execute a st).preRun = some none) ∧
    (((deleteCommand be caller).execute a st).ran = false →
      ((deleteCommand be caller).execute a st).state = st) := by
  have hst : ∀ args, (checkIfCollab be caller args st).1 = st := by
    intro args
    unfold checkIfCollab
    split <;> rfl
  unfold cobra.Command.execute
  simp only [deleteCommand]
  split
  · simp
  · rename_i helpVal argWoFlags hparse
    by_cases hh : helpVal = true
    · simp [hh]
    · have hf : helpVal = false := by simpa using hh
      subst hf
      simp only [Bool.false_eq_true, Option.isNone_some, or_self, if_false]
      split
      · simp
      · rename_i hargs
        have hs := hst argWoFlags
        rcases hc : checkIfCollab be caller argWoFlags st with ⟨st1, e1⟩
        rw [hc] at hs
        simp only at hs
        subst hs
        cases e1 with
        | none =>
          refine ⟨?_, by simp, by simp⟩
          intro r hr
          simp only [Option.some.injEq] at hr
          subst hr
          exact ⟨argWoFlags, hparse, hargs, by rw [hc], fun e he => by simp at he⟩
        | some err =>
          refine ⟨?_, by simp, by simp⟩
          intro r hr
          simp only [Option.some.injEq] at hr
          subst hr
          exact ⟨argWoFlags, hparse, hargs, by rw [hc], fun e he => by simpa using he⟩

/-- C2: whenever an execution of the delete command runs the pre-run check
`checkIfCollab` and the check returns an error, the `RunE` body is not executed: the
command returns that error, `DeleteRepository` has not been called, and the state of
the backend is as it was.  The check had been given the arguments of the command
line without the flags. -/
theorem delete_unauthorized {σ : Type} (be : Backend σ) (caller : String) (a : List String)
    (st : CmdState σ) (err : Error)
    (h : ((deleteCommand be caller).execute a st).preRun = some (some err)) :
    (∃ argWoFlags, cobra.parseArgs a false [] = .ok (false, argWoFlags) ∧
      (checkIfCollab be caller argWoFlags st).2 = some err) ∧
    ((deleteCommand be caller).execute a st).ran = false ∧
    ((deleteCommand be caller).execute a st).err = some err ∧
    ((deleteCommand be caller).execute a st).state.backend = st.backend ∧
    ((deleteCommand be caller).execute a st).state.deleted = st.deleted := by
  obtain ⟨h1, h2, h3⟩ := delete_execute_spec be caller a st
  have hran : ((deleteCommand be caller).execute a st).ran = false := by
    cases hr : ((deleteCommand be caller).execute a st).ran with
    | false => rfl
    | true =>
      have := h2 hr
      rw [h] at this
      simp at this
  obtain ⟨argWoFlags, hp, -, hc, he⟩ := h1 _ h
  exact ⟨⟨argWoFlags, hp, hc⟩, hran, he err rfl, by rw [h3 hran], by rw [h3 hran]⟩

/-- Witness for C2: the caller `B` without role asks to delete `demo`; the check runs
and returns `Unauthorized`, which is the result, and `demo` is still there. -/
theorem delete_unauthorized_witness :
    ((deleteCommand closedBackend "B").execute ["demo"] ⟨["demo"], []⟩).preRun =
      some (some (.msg "Unauthorized")) ∧
    (∃ argWoFlags, cobra.parseArgs ["demo"] false [] = .ok (false, argWoFlags) ∧
      (checkIfCollab closedBackend "B" argWoFlags ⟨["demo"], []⟩).2 =
        some (.msg "Unauthorized")) ∧
    ((deleteCommand closedBackend "B").execute ["demo"] ⟨["demo"], []⟩).ran = false ∧
    ((deleteCommand closedBackend "B").execute ["demo"] ⟨["demo"], []⟩).err =
      some (.msg "Unauthorized") ∧
    ((deleteCommand closedBackend "B").execute ["demo"] ⟨["demo"], []⟩).state.backend =
      ["demo"] ∧
    ((deleteCommand closedBackend "B").execute ["demo"] ⟨["demo"], []⟩).state.deleted = [] :=
  ⟨by decide,
    delete_unauthorized closedBackend "B" ["demo"] ⟨["demo"], []⟩ (.msg "Unauthorized")
      (by decide)⟩

/-- Executions of the delete command in which the check does not run: with `--help`
or `-h` the help text is printed and nil is returned; an unknown flag and a wrong
number of arguments are errors; in each case the state is as it was. -/
theorem delete_execute_examples :
    ((deleteCommand closedBackend "B").execute ["--help"] ⟨["demo"], []⟩).err = none ∧
    ((deleteCommand closedBackend "B").execute ["--help"] ⟨["demo"], []⟩).help = true ∧
    ((deleteCommand closedBackend "B").execute ["--help"] ⟨["demo"], []⟩).preRun = none ∧
    ((deleteCommand closedBackend "B").execute ["demo", "-h"] ⟨["demo"], []⟩).preRun = none ∧
    ((deleteCommand closedBackend "B").execute ["demo", "-h"] ⟨["demo"], []⟩).err = none ∧
    ((deleteCommand closedBackend "B").execute ["--force", "demo"] ⟨["demo"], []⟩).err =
      some (.flag "--force") ∧
    ((deleteCommand closedBackend "B").execute [] ⟨["demo"], []⟩).err =
      some (.msg "accepts 1 arg(s), received 0") ∧
    ((deleteCommand closedBackend "B").execute ["--", "--help"] ⟨["demo"], []⟩).preRun =
      some (some (.msg "Unauthorized")) ∧
    ((deleteCommand closedBackend "B").execute ["--help"] ⟨["demo"], []⟩).state.backend =
      ["demo"] := by
  decide

/-! ### What `GenerateHooks` touches -/

theorem changedOnly_refl (m : Nat) (H : Path) (hs : List String) (fs : FS) :
    ChangedOnly m H hs fs fs :=
  fun _ => Or.inl rfl

theorem changedOnly_trans (m : Nat) (H : Path) (hs : List String) (fs fs1 fs2 : FS)
    (h1 : ChangedOnly m H hs fs fs1) (h2 : ChangedOnly m H hs fs1 fs2) :
    ChangedOnly m H hs fs fs2 := by
  intro q
  rcases h2 q with e2 | ⟨hq, hp, hn, hd⟩ | hk
  · rcases h1 q with e1 | ⟨hq, hp, hn, hd⟩ | hk
    · exact Or.inl (e2.trans e1)
    · exact Or.inr (Or.inl ⟨hq, hp, hn, e2.trans hd⟩)
    · exact Or.inr (Or.inr hk)
  · rcases h1 q with e1 | ⟨-, -, -, hd1⟩ | hk
    · exact Or.inr (Or.inl ⟨hq, hp, e1 ▸ hn, hd⟩)
    · rw [hd1] at hn
      exact absurd hn (by simp)
    · exact Or.inr (Or.inr hk)
  · exact Or.inr (Or.inr hk)

theorem changedOnly_mono (m : Nat) (H : Path) (hs hs1 : List String) (fs fs1 : FS)
    (hsub : ∀ k ∈ hs, k ∈ hs1) (h1 : ChangedOnly m H hs fs fs1) :
    ChangedOnly m H hs1 fs fs1 := by
  intro q
  rcases h1 q with e1 | hd | ⟨k, hk, hq⟩
  · exact Or.inl e1
  · exact Or.inr (Or.inl hd)
  · exact Or.inr (Or.inr ⟨k, hsub k hk, hq⟩)

theorem changedOnly_mkdirFill (m : Nat) (H : Path) (hs : List String) (fs : FS) :
    ChangedOnly m H hs fs (mkdirFill m fs H) := by
  intro q
  unfold mkdirFill
  by_cases hc : q ≠ [] ∧ q <+: H
  · rw [if_pos hc]
    cases hq : fs q with
    | none => exact Or.inr (Or.inl ⟨hc.1, hc.2, rfl, rfl⟩)
    | some n => exact Or.inl rfl
  · rw [if_neg hc]
    exact Or.inl rfl

theorem changedOnly_writeFill (m : Nat) (H : Path) (hook : String) (p : Path) (data : String)
    (fs : FS)
    (hp : p = H ++ [hook] ∨ p = H ++ [hook ++ ".d"] ∨ p = H ++ [hook ++ ".d", "soft-serve"]) :
    ChangedOnly m H [hook] fs (writeFill fs p data m) := by
  intro q
  by_cases hq : q = p
  · exact Or.inr (Or.inr ⟨hook, List.mem_singleton.mpr rfl, hq ▸ hp⟩)
  · left
    simp [writeFill, FS.set, hq]

theorem changedOnly_mkdirFill_dropin (m : Nat) (H : Path) (hook : String) (fs : FS) :
    ChangedOnly m H [hook] fs (mkdirFill m fs (H ++ [hook ++ ".d"])) := by
  intro q
  unfold mkdirFill
  by_cases hc : q ≠ [] ∧ q <+: H ++ [hook ++ ".d"]
  · rw [if_pos hc]
    cases hq : fs q with
    | some n => exact Or.inl rfl
    | none =>
      rcases List.prefix_concat_iff.mp hc.2 with he | hpre
      · exact Or.inr (Or.inr ⟨hook, List.mem_singleton.mpr rfl, Or.inr (Or.inl he)⟩)
      · exact Or.inr (Or.inl ⟨hc.1, hpre, rfl, rfl⟩)
  · rw [if_neg hc]
    exact Or.inl rfl

theorem changedOnly_bodyFS (m : Nat) (H : Path) (ex cp : String) (hook : String) (b : Bool)
    (fs : FS) : ChangedOnly m H [hook] fs (bodyFS m H ex cp fs (hook, b)) := by
  have h1 := changedOnly_writeFill m H hook (H ++ [hook]) hookTemplate fs (Or.inl rfl)
  have h2 := changedOnly_mkdirFill_dropin m H hook (writeFill fs (H ++ [hook]) hookTemplate m)
  have h12 := changedOnly_trans _ _ _ _ _ _ h1 h2
  cases b with
  | false => simpa [bodyFS] using h12
  | true =>
    have h3 := changedOnly_writeFill m H hook (H ++ [hook ++ ".d", "soft-serve"])
      (entryText ex cp hook)
      (mkdirFill m (writeFill fs (H ++ [hook]) hookTemplate m)
        (H ++ [hook ++ ".d"])) (Or.inr (Or.inr rfl))
    simpa [bodyFS] using changedOnly_trans _ _ _ _ _ _ h12 h3

/-- The loop changes nothing but the paths of its hook types and missing directories
on the way, whether it runs to its end or returns an error. -/
theorem hookLoop_changedOnly (h : Host) (hooksPath : CleanPath) (ex cp : String)
    (hs : List String) (hord : ∀ hook ∈ hs, ordinary hook ∧ ordinary (hook ++ ".d")) :
    ∀ w : World,
      ChangedOnly (withUmask h.umask ModePerm) (h.resolve hooksPath) hs w.fs
        (hookLoop h hooksPath ex cp [] w hs).1.fs := by
  induction hs with
  | nil => intro w; simpa [hookLoop] using changedOnly_refl _ _ _ _
  | cons hook rest ih =>
    intro w
    have ho := hord hook (List.mem_cons_self _ _)
    obtain ⟨new1, -, sh⟩ := hookBody_spec h hooksPath ex cp w hook ho.1 ho.2
    rcases hB : hookBody h hooksPath ex cp [] w hook with ⟨w1, r1⟩
    rw [hB] at sh
    simp only at sh
    unfold hookLoop
    rw [hB]
    have hsub1 : ∀ k ∈ [hook], k ∈ hook :: rest := fun k hk => by
      rw [List.mem_singleton.mp hk]; exact List.mem_cons_self _ _
    rcases sh with ⟨x, -, rfl, f1, -⟩ | ⟨x, -, rfl, f1, -⟩ | ⟨e3, -, rfl, f1, -⟩
    · simp only
      rw [f1]
      exact changedOnly_refl _ _ _ _
    · simp only
      rw [f1]
      exact changedOnly_mono _ _ _ _ _ _ hsub1
        (changedOnly_writeFill _ _ hook _ hookTemplate w.fs (Or.inl rfl))
    · simp only
      have hstep : ChangedOnly (withUmask h.umask ModePerm) (h.resolve hooksPath)
          (hook :: rest) w.fs w1.fs := by
        rw [f1]
        exact changedOnly_mono _ _ _ _ _ _ hsub1 (changedOnly_bodyFS _ _ ex cp hook _ w.fs)
      have hrest := changedOnly_mono _ _ _ (hook :: rest) _ _
        (fun k hk => List.mem_cons_of_mem _ hk)
        (ih (fun k hk => hord k (List.mem_cons_of_mem _ hk)) w1)
      exact changedOnly_trans _ _ _ _ _ _ hstep hrest

/-- Whatever `GenerateHooks` returns, the state it leaves differs from the one it
started in only by missing directories created down to the hooks directory and at
the paths of the four hook types. -/
theorem GenerateHooksFrom_changedOnly (h : Host) (cfg : Config) (repo : String) (w : World) :
    ChangedOnly (withUmask h.umask ModePerm) (h.resolve (hooksPathOf h cfg repo)) hookNames
      w.fs (GenerateHooksFrom h cfg repo w).1.fs := by
  unfold GenerateHooksFrom
  simp only
  have hP : filepath.Join [cfg.DataPath, "repos", h.SanitizeRepo repo ++ ".git", "hooks"] =
      hooksPathOf h cfg repo := rfl
  rw [hP]
  obtain ⟨-, -, f0, g0⟩ := MkdirAll_spec h w (hooksPathOf h cfg repo) ModePerm
  rcases hM : MkdirAll h w (hooksPathOf h cfg repo) ModePerm with ⟨w0, e0⟩
  rw [hM] at f0 g0
  simp only at f0 g0
  cases e0 with
  | some x =>
    simp only
    rw [g0 (by simp)]
    exact changedOnly_refl _ _ _ _
  | none =>
    simp only
    have h0 : ChangedOnly (withUmask h.umask ModePerm) (h.resolve (hooksPathOf h cfg repo))
        hookNames w.fs w0.fs := by
      rw [f0 rfl]
      exact changedOnly_mkdirFill _ _ _ _
    cases hE : h.Executable with
    | error err => exact h0
    | ok ex =>
      simp only
      cases hA : filepath.Abs h cfg.DataPath with
      | error err => exact h0
      | ok dp =>
        simp only
        exact changedOnly_trans _ _ _ _ _ _ h0
          (hookLoop_changedOnly h (hooksPathOf h cfg repo) ex (dp.join "config.yaml").toString
            hookNames hookNames_ordinary w0)

/-- The hooks directory is the element `hooks` below the repository directory
`<DataPath>/repos/<SanitizeRepo(name)>.git`. -/
theorem hooksPathOf_eq (h : Host) (cfg : Config) (repo : String) :
    hooksPathOf h cfg repo =
      (filepath.Join [cfg.DataPath, "repos", h.SanitizeRepo repo ++ ".git"]).join "hooks" := by
  unfold hooksPathOf filepath.Join
  by_cases hD : cfg.DataPath = "" <;> by_cases hR : h.SanitizeRepo repo ++ ".git" = "" <;>
    simp [List.filter, hD, hR]

theorem resolve_hooksPathOf (h : Host) (cfg : Config) (repo : String) :
    h.resolve (hooksPathOf h cfg repo) =
      h.resolve (filepath.Join [cfg.DataPath, "repos", h.SanitizeRepo repo ++ ".git"]) ++
        ["hooks"] := by
  rw [hooksPathOf_eq, resolve_join _ _ _ (by decide)]

/-- C11, as the code has it: every operation of `GenerateHooks` addresses the hooks
directory `<DataPath>/repos/<SanitizeRepo(name)>.git/hooks` or, for one of the four
hook types, `hooks/<hookType>`, `hooks/<hookType>.d` or
`hooks/<hookType>.d/soft-serve`; the state it leaves differs from the one before
only at those paths and at the directories above the hooks directory, which are
created where they were missing; nothing else is modified. -/
theorem GenerateHooks_touches (h : Host) (cfg : Config) (repo : String) (fs : FS) :
    h.resolve (hooksPathOf h cfg repo) =
      h.resolve (filepath.Join [cfg.DataPath, "repos", h.SanitizeRepo repo ++ ".git"]) ++
        ["hooks"] ∧
    (∀ r ∈ (GenerateHooks h cfg repo fs).1.trace,
      r.path = h.resolve (hooksPathOf h cfg repo) ∨
      ∃ hook ∈ hookNames, r.path = h.resolve (hooksPathOf h cfg repo) ++ [hook] ∨
        r.path = h.resolve (hooksPathOf h cfg repo) ++ [hook ++ ".d"] ∨
        r.path = h.resolve (hooksPathOf h cfg repo) ++ [hook ++ ".d", "soft-serve"]) ∧
    (∀ q, (GenerateHooks h cfg repo fs).1.fs q ≠ fs q →
      (q ≠ [] ∧ q <+: h.resolve (hooksPathOf h cfg repo) ∧ fs q = none ∧
        (GenerateHooks h cfg repo fs).1.fs q = some (.dir (withUmask h.umask ModePerm))) ∨
      (∃ hook ∈ hookNames, q = h.resolve (hooksPathOf h cfg repo) ++ [hook] ∨
        q = h.resolve (hooksPathOf h cfg repo) ++ [hook ++ ".d"] ∨
        q = h.resolve (hooksPathOf h cfg repo) ++ [hook ++ ".d", "soft-serve"])) := by
  refine ⟨resolve_hooksPathOf h cfg repo, ?_, ?_⟩
  · obtain ⟨new, t, -, hp, -⟩ := GenerateHooksFrom_spec h cfg repo ⟨fs, [], []⟩
    have ht : (GenerateHooks h cfg repo fs).1.trace = new := by simpa using t
    rw [ht]
    exact hp
  · intro q hq
    rcases GenerateHooksFrom_changedOnly h cfg repo ⟨fs, [], []⟩ q with e | hd | hk
    · exact absurd e hq
    · exact Or.inl hd
    · exact Or.inr hk

/-- C11 fails as stated: for repository `demo` under `/data` on the empty file system
`GenerateHooks` creates the directories `/data`, `/data/repos` and
`/data/repos/demo.git`, none of which is the hooks directory or lies below it. -/
theorem GenerateHooks_touches_counterexample :
    demoHost.resolve (hooksPathOf demoHost demoCfg "demo") =
      ["data", "repos", "demo.git", "hooks"] ∧
    FS.empty ["data"] = none ∧
    (GenerateHooks demoHost demoCfg "demo" FS.empty).1.fs ["data"] = some (.dir 0o755) ∧
    (GenerateHooks demoHost demoCfg "demo" FS.empty).1.fs ["data", "repos"] =
      some (.dir 0o755) ∧
    (GenerateHooks demoHost demoCfg "demo" FS.empty).1.fs ["data", "repos", "demo.git"] =
      some (.dir 0o755) ∧
    ¬ (["data", "repos", "demo.git", "hooks"] <+: ["data", "repos", "demo.git"]) := by
  decide

/-! ### The selection page -/

/-- C15: `repoUrl` returns `git clone ssh://`, the host, then `:` and the port in
decimal exactly when the port is not 22, then `/` and the name. -/
theorem repoUrl_eq (cfg : appCfg.Config) (name : String) :
    repoUrl cfg name =
        "git clone ssh://" ++ cfg.Host ++
          (if cfg.Port = 22 then "" else ":" ++ toString cfg.Port) ++ "/" ++ name ∧
    (cfg.Port = 22 → repoUrl cfg name = "git clone ssh://" ++ cfg.Host ++ "/" ++ name) ∧
    (cfg.Port ≠ 22 →
      repoUrl cfg name =
        "git clone ssh://" ++ cfg.Host ++ ":" ++ toString cfg.Port ++ "/" ++ name) ∧
    (∀ n : Nat, toString (n : Int) = (Nat.toDigits 10 n).asString) := by
  have key : repoUrl cfg name =
      "git clone ssh://" ++ cfg.Host ++
        (if cfg.Port = 22 then "" else ":" ++ toString cfg.Port) ++ "/" ++ name := by
    unfold repoUrl
    by_cases h : cfg.Port = 22
    · simp only [h, fmt.Sprintf, fmt.sprintf, fmt.verb]
      apply String.ext
      simp [h, String.data_append, Char.toString, String.singleton]
    · simp only [h, fmt.Sprintf, fmt.sprintf, fmt.verb]
      apply String.ext
      simp [h, String.data_append, Char.toString, String.singleton]
  refine ⟨key, ?_, ?_, fun n => rfl⟩
  · intro h
    rw [key, if_pos h]
    apply String.ext
    simp [String.data_append]
  · intro h
    rw [key, if_neg h]
    apply String.ext
    simp [String.data_append]

theorem repoUrl_source (cfg : appCfg.Config) (src : appCfg.RepoSource) (name : String) :
    repoUrl { cfg with Source := src } name = repoUrl cfg name := rfl

theorem configuredLoop_source (cfg : appCfg.Config) (src : appCfg.RepoSource)
    (now : Nat → Nat) (rs : List appCfg.RepoConfig) :
    ∀ items, configuredLoop { cfg with Source := src } now rs items =
      configuredLoop cfg now rs items := by
  induction rs with
  | nil => intro items; rfl
  | cons r rs ih => intro items; simp only [configuredLoop, ih, repoUrl_source]

theorem sourceLoop_source (cfg : appCfg.Config) (src : appCfg.RepoSource)
    (now : Nat → Nat) (rs : List appCfg.SourceRepo) :
    ∀ items, sourceLoop { cfg with Source := src } now rs items =
      sourceLoop cfg now rs items := by
  induction rs with
  | nil => intro items; rfl
  | cons r rs ih => intro items; simp only [sourceLoop, ih, repoUrl_source]

theorem Init_source (cfg : appCfg.Config) (now : Nat → Nat) (srcs : List appCfg.SourceRepo) :
    Selection.Init { cfg with Source := ⟨srcs⟩ } now =
      sourceLoop cfg now srcs (configuredLoop cfg now cfg.Repos []) := by
  simp only [Selection.Init, configuredLoop_source, sourceLoop_source]

theorem configuredLoop_fields (cfg : appCfg.Config) (now : Nat → Nat)
    (rs : List appCfg.RepoConfig) :
    ∀ items, (configuredLoop cfg now rs items).map
        (fun i => (i.Title, i.Name, i.Description, i.URL)) =
      items.map (fun i => (i.Title, i.Name, i.Description, i.URL)) ++
        rs.map (fun r => (r.Name, r.Repo, r.Note, repoUrl cfg r.Name)) := by
  induction rs with
  | nil => intro items; simp [configuredLoop]
  | cons r rs ih => intro items; simp [configuredLoop, ih]

theorem configuredLoop_times (cfg : appCfg.Config) (now : Nat → Nat)
    (rs : List appCfg.RepoConfig) :
    ∀ items, (configuredLoop cfg now rs items).map (·.LastUpdate) =
      items.map (·.LastUpdate) ++ (List.range' items.length rs.length).map now := by
  induction rs with
  | nil => intro items; simp [configuredLoop]
  | cons r rs ih =>
    intro items
    simp [configuredLoop, ih, List.range'_succ]

theorem sourceLoop_append (cfg : appCfg.Config) (now : Nat → Nat)
    (xs ys : List appCfg.SourceRepo) :
    ∀ items, sourceLoop cfg now (xs ++ ys) items =
      sourceLoop cfg now ys (sourceLoop cfg now xs items) := by
  induction xs with
  | nil => intro items; rfl
  | cons r xs ih =>
    intro items
    simp only [List.cons_append, sourceLoop]
    split <;> exact ih _

theorem any_name_iff (items : List Item) (n : String) :
    (items.any fun item => item.Name == n) = true ↔ n ∈ items.map (·.Name) := by
  simp only [List.any_eq_true, beq_iff_eq, List.mem_map]

theorem sourceLoop_single (cfg : appCfg.Config) (now : Nat → Nat) (r : appCfg.SourceRepo)
    (items : List Item) :
    sourceLoop cfg now [r] items =
      items ++ (if r.Name ∈ items.map (·.Name) then []
        else [⟨r.Name, r.Name, "", now items.length, repoUrl cfg r.Name⟩]) := by
  by_cases h : r.Name ∈ items.map (·.Name)
  · have h2 := (any_name_iff items r.Name).mpr h
    simp [sourceLoop, h2, h]
  · have h2 : (items.any fun item => item.Name == r.Name) = false := by
      cases hb : (items.any fun item => item.Name == r.Name) with
      | false => rfl
      | true => exact absurd ((any_name_iff items r.Name).mp hb) h
    simp only [sourceLoop, h2, if_neg h]
    rfl

/-- The second loop keeps the list it starts from and appends, in the order of the
source, items with new and pairwise different names. -/
theorem sourceLoop_spec (cfg : appCfg.Config) (now : Nat → Nat)
    (srcs : List appCfg.SourceRepo) :
    ∀ items, ∃ B, sourceLoop cfg now srcs items = items ++ B ∧
      (B.map (·.Name)).Sublist (srcs.map (·.Name)) ∧
      (B.map (·.Name)).Nodup ∧
      (∀ b ∈ B, b.Name ∉ items.map (·.Name)) ∧
      (∀ r ∈ srcs, r.Name ∈ (items ++ B).map (·.Name)) ∧
      (∀ b ∈ B, b.Title = b.Name ∧ b.Description = "" ∧ b.URL = repoUrl cfg b.Name) := by
  induction srcs with
  | nil => intro items; exact ⟨[], by simp [sourceLoop]⟩
  | cons r rest ih =>
    intro items
    by_cases h : r.Name ∈ items.map (·.Name)
    · have h2 := (any_name_iff items r.Name).mpr h
      obtain ⟨B, e, sub, nd, dis, cov, fld⟩ := ih items
      refine ⟨B, ?_, ?_, nd, dis, ?_, fld⟩
      · simp only [sourceLoop, h2]
        exact e
      · simpa using sub.cons r.Name
      · intro x hx
        rcases List.mem_cons.mp hx with rfl | hx
        · simp only [List.map_append, List.mem_append]
          exact Or.inl h
        · exact cov x hx
    · have h2 : (items.any fun item => item.Name == r.Name) = false := by
        cases hb : (items.any fun item => item.Name == r.Name) with
        | false => rfl
        | true => exact absurd ((any_name_iff items r.Name).mp hb) h
      obtain ⟨B, e, sub, nd, dis, cov, fld⟩ :=
        ih (items ++ [⟨r.Name, r.Name, "", now items.length, repoUrl cfg r.Name⟩])
      refine ⟨⟨r.Name, r.Name, "", now items.length, repoUrl cfg r.Name⟩ :: B,
        ?_, ?_, ?_, ?_, ?_, ?_⟩
      · simp only [sourceLoop, h2]
        simpa using e
      · simpa using sub.cons₂ r.Name
      · rw [List.map_cons, List.nodup_cons]
        refine ⟨?_, nd⟩
        intro hm
        obtain ⟨b, hb, hbn⟩ := List.mem_map.mp hm
        exact dis b hb (by simp [hbn])
      · intro b hb
        rcases List.mem_cons.mp hb with rfl | hb
        · exact h
        · intro hm
          exact dis b hb (by
            simp only [List.map_append, List.mem_append]
            exact Or.inl hm)
      · intro x hx
        rcases List.mem_cons.mp hx with rfl | hx
        · simp
        · have := cov x hx
          simpa using this
      · intro b hb
        rcases List.mem_cons.mp hb with rfl | hb
        · exact ⟨rfl, rfl, rfl⟩
        · exact fld b hb

/-- C12: the item list `Selection.Init` builds.  Without source repositories it is one
item per configured repository, in configured order.  Each further source repository
adds one item at the end exactly when no item already in the list has its name in
the field `Name`.  Hence the list is the configured items followed by items of
source repositories in source order, whose names are pairwise different and differ
from the `Name` of every configured item, and every source name is the `Name` of
some item. -/
theorem Selection_Init_items (cfg : appCfg.Config) (now : Nat → Nat) :
    ((Selection.Init { cfg with Source := ⟨[]⟩ } now).map
        (fun i => (i.Title, i.Name, i.Description, i.URL)) =
      cfg.Repos.map (fun r => (r.Name, r.Repo, r.Note, repoUrl cfg r.Name)) ∧
     (Selection.Init { cfg with Source := ⟨[]⟩ } now).map (·.LastUpdate) =
      (List.range cfg.Repos.length).map now) ∧
    (∀ (pre : List appCfg.SourceRepo) (r : appCfg.SourceRepo),
      Selection.Init { cfg with Source := ⟨pre ++ [r]⟩ } now =
        Selection.Init { cfg with Source := ⟨pre⟩ } now ++
          (if r.Name ∈ (Selection.Init { cfg with Source := ⟨pre⟩ } now).map (·.Name) then []
           else [⟨r.Name, r.Name, "",
             now (Selection.Init { cfg with Source := ⟨pre⟩ } now).length,
             repoUrl cfg r.Name⟩])) ∧
    (∃ B, Selection.Init cfg now = Selection.Init { cfg with Source := ⟨[]⟩ } now ++ B ∧
      (B.map (·.Name)).Sublist (cfg.Source.AllRepos.map (·.Name)) ∧
      (B.map (·.Name)).Nodup ∧
      (∀ b ∈ B, b.Name ∉ (Selection.Init { cfg with Source := ⟨[]⟩ } now).map (·.Name)) ∧
      (∀ r ∈ cfg.Source.AllRepos, r.Name ∈ (Selection.Init cfg now).map (·.Name)) ∧
      (∀ b ∈ B, b.Title = b.Name ∧ b.Description = "" ∧ b.URL = repoUrl cfg b.Name)) := by
  have hA : Selection.Init { cfg with Source := ⟨[]⟩ } now =
      configuredLoop cfg now cfg.Repos [] := by
    rw [Init_source]; rfl
  refine ⟨⟨?_, ?_⟩, ?_, ?_⟩
  · rw [hA, configuredLoop_fields]; simp
  · rw [hA, configuredLoop_times]; simp [List.range_eq_range']
  · intro pre r
    rw [Init_source, Init_source, sourceLoop_append, sourceLoop_single]
  · obtain ⟨B, e, sub, nd, dis, cov, fld⟩ :=
      sourceLoop_spec cfg now cfg.Source.AllRepos (configuredLoop cfg now cfg.Repos [])
    have hI : Selection.Init cfg now =
        sourceLoop cfg now cfg.Source.AllRepos (configuredLoop cfg now cfg.Repos []) := rfl
    refine ⟨B, ?_, sub, nd, ?_, ?_, fld⟩
    · rw [hI, hA, e]
    · rw [hA]; exact dis
    · rw [hI, e]; exact cov

/-! ### The list of references -/

theorem partitionRefs_eq (refs : List git.Reference) :
    ∀ its tags, partitionRefs refs (its, tags) =
      (its ++ (refs.filter fun r => !r.IsTag && r.IsBranch).map item.mk,
        tags ++ (refs.filter fun r => r.IsTag).map item.mk) := by
  induction refs with
  | nil => intro its tags; simp [partitionRefs]
  | cons r refs ih =>
    intro its tags
    unfold partitionRefs
    by_cases ht : r.IsTag = true
    · simp [ht, ih]
    · by_cases hb : r.IsBranch = true
      · simp [ht, hb, ih]
      · simp [ht, hb, ih]

theorem filter_branch_tag_perm (refs : List git.Reference) :
    ((refs.filter fun r => !r.IsTag && r.IsBranch) ++ refs.filter fun r => r.IsTag).Perm
      (refs.filter fun r => r.IsTag || r.IsBranch) := by
  induction refs with
  | nil => simp
  | cons r refs ih =>
    by_cases ht : r.IsTag = true
    · simp only [List.filter_cons, ht, Bool.not_true, Bool.false_and, Bool.true_or, if_true]
      simp only [Bool.false_eq_true, if_false]
      exact List.perm_middle.trans (ih.cons r)
    · by_cases hb : r.IsBranch = true
      · simp [List.filter_cons, ht, hb]
        simpa using ih
      · simp [List.filter_cons, ht, hb]
        simpa using ih

theorem ascending_le (l : List item) (h : l.Pairwise fun a b => items.Less b a = false) :
    l.Pairwise fun a b => a.Short.data ≤ b.Short.data := by
  refine h.imp ?_
  intro a b hab
  simpa [items.Less] using hab

/-- C13: when the repository returns the references `refs`, the item list that
`updateItems` sets is the branch references (those that are not tags, which is all of
them when no reference is both) in ascending order of short name, followed by the
tag references in ascending order of short name; it is a rearrangement of the
references that are tags or branches, so the others are left out. -/
theorem updateItems_list (S : sort.Sorter item items.Less) (b : Bubble)
    (refs : List git.Reference) (h : b.References = .ok refs) :
    ∃ bs ts, (Bubble.updateItems S b).1.list = bs ++ ts ∧
      (Bubble.updateItems S b).2 = .setItems ∧
      bs.Perm ((refs.filter fun r => !r.IsTag && r.IsBranch).map item.mk) ∧
      ts.Perm ((refs.filter fun r => r.IsTag).map item.mk) ∧
      bs.Pairwise (fun x y => x.Short.data ≤ y.Short.data) ∧
      ts.Pairwise (fun x y => x.Short.data ≤ y.Short.data) ∧
      ((Bubble.updateItems S b).1.list).Perm
        ((refs.filter fun r => r.IsTag || r.IsBranch).map item.mk) ∧
      ((∀ r ∈ refs, r.IsTag = true → r.IsBranch = false) →
        bs.Perm ((refs.filter fun r => r.IsBranch).map item.mk)) := by
  have hp := partitionRefs_eq refs [] []
  simp only [List.nil_append] at hp
  refine ⟨S.sortData ((refs.filter fun r => !r.IsTag && r.IsBranch).map item.mk),
    S.sortData ((refs.filter fun r => r.IsTag).map item.mk), ?_, ?_, S.perm _, S.perm _,
    ascending_le _ (S.ascending _), ascending_le _ (S.ascending _), ?_, ?_⟩
  · simp [Bubble.updateItems, h, hp]
  · simp [Bubble.updateItems, h]
  · have hl : (Bubble.updateItems S b).1.list =
        S.sortData ((refs.filter fun r => !r.IsTag && r.IsBranch).map item.mk) ++
          S.sortData ((refs.filter fun r => r.IsTag).map item.mk) := by
      simp [Bubble.updateItems, h, hp]
    rw [hl]
    refine ((S.perm _).append (S.perm _)).trans ?_
    rw [← List.map_append]
    exact (filter_branch_tag_perm refs).map _
  · intro hex
    refine (S.perm _).trans (List.Perm.of_eq ?_)
    congr 1
    apply List.filter_congr
    intro r hr
    cases hb : r.IsBranch with
    | false => simp
    | true =>
      cases ht : r.IsTag with
      | false => rfl
      | true => rw [hex r hr ht] at hb; exact absurd hb (by simp)

/-- Witness for C13: two branches, two tags and a remote reference, sorted by
insertion. -/
theorem updateItems_list_witness :
    (⟨.ok demoRefs, []⟩ : Bubble).References = .ok demoRefs ∧
    ((Bubble.updateItems insertionSorter ⟨.ok demoRefs, []⟩).1.list.map (·.Short) =
      ["dev", "main", "v0.9", "v1.0"]) ∧
    ∃ bs ts, (Bubble.updateItems insertionSorter ⟨.ok demoRefs, []⟩).1.list = bs ++ ts ∧
      (Bubble.updateItems insertionSorter ⟨.ok demoRefs, []⟩).2 = .setItems ∧
      bs.Perm ((demoRefs.filter fun r => !r.IsTag && r.IsBranch).map item.mk) ∧
      ts.Perm ((demoRefs.filter fun r => r.IsTag).map item.mk) ∧
      bs.Pairwise (fun x y => x.Short.data ≤ y.Short.data) ∧
      ts.Pairwise (fun x y => x.Short.data ≤ y.Short.data) ∧
      ((Bubble.updateItems insertionSorter ⟨.ok demoRefs, []⟩).1.list).Perm
        ((demoRefs.filter fun r => r.IsTag || r.IsBranch).map item.mk) ∧
      ((∀ r ∈ demoRefs, r.IsTag = true → r.IsBranch = false) →
        bs.Perm ((demoRefs.filter fun r => r.IsBranch).map item.mk)) :=
  ⟨rfl, by decide, updateItems_list insertionSorter ⟨.ok demoRefs, []⟩ demoRefs rfl⟩

/-! ### The repository view -/

theorem mem_childCmds (c : Bool) (x : Cmd) : x ∈ childCmds c ↔ c = true ∧ x = .child := by
  cases c <;> simp [childCmds]

theorem Update_key_selectedRepo {κ : Type} (P : Parts κ) (r : Repo κ) (key : String) :
    (Repo.Update P r (.KeyMsg key)).1.selectedRepo = r.selectedRepo := by
  unfold Repo.Update
  simp only
  split_ifs <;> rfl

/-- The guard of the key case: there the status bar command is scheduled only with a
repository selected. -/
theorem Repo_Update_key_guard {κ : Type} (P : Parts κ) (r : Repo κ) (key : String)
    (h : Cmd.updateStatusBarCmd ∈ (Repo.Update P r (.KeyMsg key)).2) :
    (Repo.Update P r (.KeyMsg key)).1.selectedRepo ≠ none := by
  rw [Update_key_selectedRepo]
  intro hs
  have hall : ∀ x ∈ (Repo.Update P r (.KeyMsg key)).2, x = Cmd.child := by
    unfold Repo.Update
    simp only [hs, Option.isSome_none, Bool.false_eq_true, if_false, List.nil_append]
    split_ifs <;>
      (intro x hx
       simp only [List.mem_append, mem_childCmds] at hx
       tauto)
  exact absurd (hall _ h) (by simp)

/-- C14 fails on the code: after a repository whose `HEAD()` fails was selected, the
view is reachable, has a repository and no reference; a key message schedules
`updateStatusBarCmd`, and running it dereferences the nil reference.  (A `RefMsg`
received by the new view schedules it with no repository selected.) -/
theorem Repo_statusBar_nil_ref :
    Repo.Reachable idleParts () [emptyRepo] noHeadView ∧
    (Repo.New () [emptyRepo] : Repo Unit).setRepoCmd "empty" = .RepoMsg emptyRepo ∧
    Cmd.updateRefCmd ∈
      (Repo.Update idleParts
        (Repo.Update idleParts (Repo.New () [emptyRepo]) (.SelectMsg "empty")).1
        (.RepoMsg emptyRepo)).2 ∧
    (Repo.Update idleParts
        (Repo.Update idleParts (Repo.New () [emptyRepo]) (.SelectMsg "empty")).1
        (.RepoMsg emptyRepo)).1.updateRefCmd =
      .ok (.ErrorMsg (.msg "reference does not exist")) ∧
    Cmd.updateStatusBarCmd ∈ (Repo.Update idleParts noHeadView (.KeyMsg "down")).2 ∧
    (Repo.Update idleParts noHeadView (.KeyMsg "down")).1.selectedRepo.isSome = true ∧
    (Repo.Update idleParts noHeadView (.KeyMsg "down")).1.ref = none ∧
    Repo.updateStatusBarCmd idleParts (Repo.Update idleParts noHeadView (.KeyMsg "down")).1 =
      .error .nilDereference ∧
    Cmd.updateStatusBarCmd ∈
      (Repo.Update idleParts (Repo.New () [emptyRepo])
        (.RefMsg (some ⟨"main", false, true⟩))).2 ∧
    (Repo.Update idleParts (Repo.New () [emptyRepo])
        (.RefMsg (some ⟨"main", false, true⟩))).1.selectedRepo.isSome = false ∧
    ¬ (∀ r : Repo Unit, Repo.Reachable idleParts () [emptyRepo] r → ∀ msg : Msg,
        Cmd.updateStatusBarCmd ∈ (Repo.Update idleParts r msg).2 →
        (Repo.Update idleParts r msg).1.selectedRepo ≠ none ∧
          (Repo.Update idleParts r msg).1.ref ≠ none) := by
  have hreach : Repo.Reachable idleParts () [emptyRepo] noHeadView :=
    Repo.Reachable.step _ _ (Repo.Reachable.step _ _ (Repo.Reachable.step _ _ Repo.Reachable.new))
  have hsched : Cmd.updateStatusBarCmd ∈ (Repo.Update idleParts noHeadView (.KeyMsg "down")).2 := by
    decide
  have href : (Repo.Update idleParts noHeadView (.KeyMsg "down")).1.ref = none := by decide
  refine ⟨hreach, rfl, by decide, rfl, hsched, by decide, href, rfl, by decide, by decide, ?_⟩
  intro hall
  exact (hall noHeadView hreach (.KeyMsg "down") hsched).2 href

end SoftServe
